import Mathlib

/-!
# Verification of the limit-order-book matching engine core

Shallow embedding of the matching-engine core of
`high-performance-limit-order-book-matching-engine`
(`src/include/LOB/{Types,Order,Level,Book,SlabPool}.h`,
`src/src/{Order,Level,Book}.cpp`), together with proofs of the
specification's claims about it.

Modelling conventions:
* `PRICE` (`uint32_t`) and `Volume`/`Length`/`ID` (`uint64_t`) are carried as
  `Nat`; wherever the C++ arithmetic can actually wrap we reduce with an
  explicit `% 2^32` / `% 2^64` (`u32add` for the mid-price sum, `u64add` /
  `u64sub` for the per-level `total_volume` accumulator).  Values crossing the
  C ABI boundary into `place_order` are reduced once on entry, exactly as the
  `uint32_t` / `uint64_t` parameter types do.
* Each `Level`'s intrusive doubly-linked FIFO (`head`/`tail` plus the
  `prev_order`/`next_order` links stored in `Order`) is embedded as the Lean
  list `fifo` of its orders in FIFO order; `head` is the first element and
  `tail` the last.  The separately maintained counters `order_number` and
  `total_volume` are kept as separate fields, exactly as in the source.
* The two intrusive sorted level lists are embedded as lists of `Level`s,
  head first; `best_bid` / `best_ask` are the list heads (`Book.cpp` binds
  them to `buy_list_head` / `sell_list_head`).
* C++ pointer identity of pool-allocated `Order`s is modelled by a `uid`
  field stamped from a monotone allocation counter (`Book.next_uid`); two
  live orders never share a `uid`, which is exactly the guarantee pointer
  identity provides for live pool objects.
* `std::unordered_map` is embedded as an association list with unique keys
  (`assocSet` = `operator[]` insert-or-assign, `assocErase` = `erase`); for
  the price→level maps only the key set matters (the mapped values alias the
  levels held in the sorted lists), so they are embedded as key lists.
* `Order::fill` throws `std::logic_error` when the requested volume exceeds
  the remaining volume; fallible paths therefore run in
  `Except EngineErr`, where `.fillOverflow` marks that exception and
  `.stuck` marks a configuration in which the C++ matching loop would spin
  forever (only possible when an empty level sits in a sorted list, which is
  unreachable).
-/

set_option linter.unusedVariables false

/-- `enum OrderType { BUY, SELL }` from `Types.h`. -/
inductive OrderType where
  | BUY
  | SELL
deriving DecidableEq, Repr

/-- `enum OrderStatus { ACTIVE, FULFILLED, DELETED }` from `Types.h`. -/
inductive OrderStatus where
  | ACTIVE
  | FULFILLED
  | DELETED
deriving DecidableEq, Repr

/-- Modulus of the 32-bit `PRICE` type. -/
def U32 : Nat := 4294967296

/-- Modulus of the 64-bit `Volume` / `Length` / `ID` types. -/
def U64 : Nat := 18446744073709551616

/-- 64-bit unsigned addition (`uint64_t` `+=`). -/
def u64add (a b : Nat) : Nat := (a + b) % U64

/-- 64-bit unsigned subtraction (`uint64_t` `-=`); both operands are values
of the type, hence `< U64`. -/
def u64sub (a b : Nat) : Nat := (a + (U64 - b % U64)) % U64

/-- The `Trade` record from `Trade.h`: `(incoming_order, matched_order,
trade_price, trade_volume)`. -/
structure Trade where
  incoming_order : Nat
  matched_order : Nat
  trade_price : Nat
  trade_volume : Nat
deriving DecidableEq, Repr

/-- The `Order` record from `Order.h`.  The intrusive `prev_order` /
`next_order` links are represented by the order's position in its level's
`fifo` list; `uid` models the pool pointer's identity (fresh per
allocation, never shared by two live orders). -/
structure Order where
  order_id : Nat
  agent_id : Nat
  order_type : OrderType
  order_price : Nat
  initial_volume : Nat
  remaining_volume : Nat
  order_status : OrderStatus
  uid : Nat
deriving DecidableEq, Repr

/-- `Order::fill` from `Order.cpp`: throws (`none`) when `fill_volume >
remaining_volume`, otherwise subtracts and marks `FULFILLED` when the
remainder reaches zero. -/
def Order.fill (fill_volume : Nat) (o : Order) : Option Order :=
  if fill_volume > o.remaining_volume then none
  else
    let r := o.remaining_volume - fill_volume
    some { o with
      remaining_volume := r
      order_status := if r = 0 then .FULFILLED else o.order_status }

/-- `Order::is_fulfilled` from `Order.cpp`: tests `remaining_volume == 0`. -/
def Order.is_fulfilled (o : Order) : Bool := o.remaining_volume == 0

/-- `Order::set_order_status`. -/
def Order.set_order_status (s : OrderStatus) (o : Order) : Order :=
  { o with order_status := s }

/-- The `Level` record from `Level.h`.  `fifo` embeds the intrusive FIFO
queue reached from `head`/`tail`; `order_number` and `total_volume` are the
separately maintained counters. -/
structure Level where
  limit_price : Nat
  order_number : Nat
  total_volume : Nat
  fifo : List Order
deriving DecidableEq, Repr

/-- `Level::is_empty`: `order_number == 0`. -/
def Level.is_empty (lv : Level) : Bool := lv.order_number == 0

/-- `Level::get_head`: the `head` pointer of the intrusive FIFO. -/
def Level.get_head (lv : Level) : Option Order := lv.fifo.head?

/-- `Level::get_tail`: the `tail` pointer of the intrusive FIFO. -/
def Level.get_tail (lv : Level) : Option Order := lv.fifo.getLast?

/-- `Level::push_back` from `Level.cpp`: append to the tail, add the order's
remaining volume to `total_volume` (64-bit accumulator) and bump
`order_number`.  (The C++ null-pointer guard has no counterpart: the model
passes orders by value.) -/
def Level.push_back (o : Order) (lv : Level) : Level :=
  { lv with
    fifo := lv.fifo ++ [o]
    total_volume := u64add lv.total_volume o.remaining_volume
    order_number := lv.order_number + 1 }

/-- `Level::pop_front` from `Level.cpp`: returns `none` when `order_number`
is zero, otherwise unlinks and returns the head, subtracting its remaining
volume.  (When `order_number ≠ 0` but the embedded queue is empty the C++
code would dereference a null `head`; that configuration is unreachable and
the model returns `none`.) -/
def Level.pop_front (lv : Level) : Option Order × Level :=
  if lv.order_number = 0 then (none, lv)
  else
    match lv.fifo with
    | [] => (none, lv)
    | h :: t =>
      (some h,
        { lv with
          fifo := t
          total_volume := u64sub lv.total_volume h.remaining_volume
          order_number := lv.order_number - 1 })

/-- Removal of the first order carrying a given pool identity; embeds the
pointer-targeted unlink of `Level::erase`. -/
def eraseUid (u : Nat) : List Order → List Order
  | [] => []
  | o :: t => if o.uid = u then t else o :: eraseUid u t

/-- `Level::erase` from `Level.cpp`: no-op when `order_number == 0`,
otherwise unlink the given order (located by pointer identity, i.e. `uid`)
and maintain the counters. -/
def Level.erase (o : Order) (lv : Level) : Level :=
  if lv.order_number = 0 then lv
  else
    { lv with
      fifo := eraseUid o.uid lv.fifo
      total_volume := u64sub lv.total_volume o.remaining_volume
      order_number := lv.order_number - 1 }

/-- `Level::decrease_volume` from `Level.h`. -/
def Level.decrease_volume (v : Nat) (lv : Level) : Level :=
  { lv with total_volume := u64sub lv.total_volume v }

/-- Lookup in an association list; embeds `unordered_map::find`. -/
def assocGet (k : Nat) : List (Nat × Nat) → Option Nat
  | [] => none
  | (k', v) :: t => if k' = k then some v else assocGet k t

/-- Insert-or-assign; embeds `unordered_map::operator[] =`. -/
def assocSet (k v : Nat) : List (Nat × Nat) → List (Nat × Nat)
  | [] => [(k, v)]
  | (k', v') :: t => if k' = k then (k, v) :: t else (k', v') :: assocSet k v t

/-- Erase by key (keys are unique in a `std::unordered_map`); embeds
`unordered_map::erase`. -/
def assocErase (k : Nat) : List (Nat × Nat) → List (Nat × Nat)
  | [] => []
  | (k', v') :: t => if k' = k then t else (k', v') :: assocErase k t

/-- Erase of a price from a price→level map's key set. -/
def keyErase (p : Nat) : List Nat → List Nat
  | [] => []
  | q :: t => if q = p then t else q :: keyErase p t

/-- Update (in place) of the level a price→level map points to: the first
level in the sorted list carrying that price.  Embeds mutation through the
aliasing `Level*`. -/
def updateLevelByPrice (p : Nat) (f : Level → Level) : List Level → List Level
  | [] => []
  | lv :: t => if lv.limit_price = p then f lv :: t else lv :: updateLevelByPrice p f t

/-- Unlink of the (unique) level carrying a price from a sorted intrusive
level list; embeds `remove_level_from_buy_list` / `remove_level_from_sell_list`
applied to the level found in the side's map. -/
def removeLevelByPrice (p : Nat) : List Level → List Level
  | [] => []
  | lv :: t => if lv.limit_price = p then t else lv :: removeLevelByPrice p t

/-- Level found through a price→level map; the mapped pointer aliases the
level stored in the sorted list. -/
def findLevelByPrice (p : Nat) : List Level → Option Level
  | [] => none
  | lv :: t => if lv.limit_price = p then some lv else findLevelByPrice p t

/-- Walk of `Book::insert_level_sorted_buy` past the head: advance while
`cur->next` exists and `cur->next->price > price`, then splice after
`cur`. -/
def insertAfterBuy (lv : Level) (cur : Level) : List Level → List Level
  | [] => [cur, lv]
  | n :: t => if n.limit_price > lv.limit_price then cur :: insertAfterBuy lv n t
              else cur :: lv :: n :: t

/-- `Book::insert_level_sorted_buy` from `Book.cpp` (buy list descending,
head = highest price). -/
def insert_level_sorted_buy (lv : Level) : List Level → List Level
  | [] => [lv]
  | h :: t => if lv.limit_price > h.limit_price then lv :: h :: t
              else insertAfterBuy lv h t

/-- Walk of `Book::insert_level_sorted_sell` past the head: advance while
`cur->next` exists and `cur->next->price < price`, then splice after
`cur`. -/
def insertAfterSell (lv : Level) (cur : Level) : List Level → List Level
  | [] => [cur, lv]
  | n :: t => if n.limit_price < lv.limit_price then cur :: insertAfterSell lv n t
              else cur :: lv :: n :: t

/-- `Book::insert_level_sorted_sell` from `Book.cpp` (sell list ascending,
head = lowest price). -/
def insert_level_sorted_sell (lv : Level) : List Level → List Level
  | [] => [lv]
  | h :: t => if lv.limit_price < h.limit_price then lv :: h :: t
              else insertAfterSell lv h t

/-- Exceptional outcomes of the matching path: `fillOverflow` models the
`std::logic_error` thrown by `Order::fill`, `stuck` models a configuration
in which the C++ `while` loops of `place_order` would never terminate. -/
inductive EngineErr where
  | fillOverflow
  | stuck
deriving DecidableEq, Repr

/-- The `Book` root aggregate from `Book.h`/`Book.cpp`.  `buy_levels` /
`sell_levels` embed the intrusive sorted level lists (`buy_list_head` /
`sell_list_head`, aliased by `best_bid` / `best_ask`); `buy_map_keys` /
`sell_map_keys` embed the key sets of `buy_side_limits` / `sell_side_limits`
(the mapped `Level*` values alias the list members); `id_to_order` maps ids
to order `uid`s (the pointer surrogate); `next_uid` is the allocation
counter backing pointer freshness. -/
structure Book where
  buy_levels : List Level
  sell_levels : List Level
  buy_map_keys : List Nat
  sell_map_keys : List Nat
  id_to_order : List (Nat × Nat)
  next_uid : Nat
deriving DecidableEq, Repr

/-- The freshly constructed empty book (`Book::Book` only reserves
capacity). -/
def Book.emptyBook : Book := ⟨[], [], [], [], [], 0⟩

/-- All orders resting in a list of levels, in level order. -/
def ordersOf (levels : List Level) : List Order :=
  (levels.map Level.fifo).flatten

/-- All orders resting in the book, buy side first. -/
def Book.allOrders (b : Book) : List Order :=
  ordersOf b.buy_levels ++ ordersOf b.sell_levels

/-- Resolution of a pool pointer: find the live order with the given
identity. -/
def findOrderInLevels (u : Nat) : List Level → Option Order
  | [] => none
  | lv :: t =>
    match lv.fifo.find? (fun o => o.uid = u) with
    | some o => some o
    | none => findOrderInLevels u t

/-- Dereference of an `Order*` held in `id_to_order`. -/
def Book.findOrderByUid (u : Nat) (b : Book) : Option Order :=
  match findOrderInLevels u b.buy_levels with
  | some o => some o
  | none => findOrderInLevels u b.sell_levels

/-- Result state of the inner matching loop over one level's FIFO. -/
structure FifoOut where
  inc : Order
  fifo : List Order
  count : Nat
  total : Nat
  idm : List (Nat × Nat)
  buf : List Trade
deriving DecidableEq, Repr

/-- Inner `while` loop of `Book::match_against_level`: consume the level's
FIFO head with `fill_volume = min(resting, incoming)` fills, recording a
trade at the level's price per fill; a fulfilled resting head is popped,
its id erased from `id_to_order`, and the order deallocated.  The loop
state `(count, total)` carries the level's `order_number` and
`total_volume`.  In the branch where the resting head survives, the
incoming order is necessarily fulfilled (`fill_volume` was its whole
remainder), which is exactly the C++ loop-exit condition. -/
def matchFifo (inc : Order) (price : Nat) :
    List Order → Nat → Nat → List (Nat × Nat) → List Trade →
    Except EngineErr FifoOut
  | [], count, total, idm, buf => .ok ⟨inc, [], count, total, idm, buf⟩
  | r :: rest, count, total, idm, buf =>
    if inc.is_fulfilled then .ok ⟨inc, r :: rest, count, total, idm, buf⟩
    else
      let fv := min r.remaining_volume inc.remaining_volume
      match r.fill fv with
      | none => .error .fillOverflow
      | some r' =>
        match inc.fill fv with
        | none => .error .fillOverflow
        | some inc' =>
          -- level->decrease_volume(fill_volume); trade_buffer.emplace_back(...)
          let total1 := u64sub total fv
          let buf1 := buf ++ [⟨inc.order_id, r.order_id, price, fv⟩]
          if r'.is_fulfilled then
            -- set_order_status(FULFILLED) (already set by fill), pop_front
            -- (head's remaining volume is now 0), erase id, deallocate
            matchFifo inc' price rest (count - 1) (u64sub total1 r'.remaining_volume)
              (assocErase r.order_id idm) buf1
          else
            .ok ⟨inc', r' :: rest, count, total1, idm, buf1⟩

/-- Result state of `Book::match_against_level`; `levelEmpty` is the C++
return value. -/
structure MalOut where
  levelEmpty : Bool
  inc : Order
  lv : Level
  idm : List (Nat × Nat)
  buf : List Trade
deriving DecidableEq, Repr

/-- `Book::match_against_level` from `Book.cpp`.  The early guard returns
`false` ("level did not end empty") without touching anything — notably
also when the level is already empty. -/
def match_against_level (inc : Order) (lv : Level) (idm : List (Nat × Nat))
    (buf : List Trade) : Except EngineErr MalOut :=
  if lv.is_empty then .ok ⟨false, inc, lv, idm, buf⟩
  else
    match matchFifo inc lv.limit_price lv.fifo lv.order_number lv.total_volume idm buf with
    | .error e => .error e
    | .ok out =>
      let lv' : Level := { lv with fifo := out.fifo, order_number := out.count,
                                   total_volume := out.total }
      .ok ⟨lv'.is_empty, out.inc, lv', out.idm, out.buf⟩

/-- Result state of the matching `while` loop of `Book::place_order`. -/
structure LoopOut where
  inc : Order
  levels : List Level
  keys : List Nat
  idm : List (Nat × Nat)
  buf : List Trade
deriving DecidableEq, Repr

/-- Matching `while` loop of `Book::place_order` for a BUY order, walking
the sell list from `best_ask` (its head).  A drained level is unlinked,
its price erased from the sell map, and the level deallocated.  When the
level did not end empty the C++ loop re-tests its condition unchanged, so
it terminates exactly when the incoming order is fulfilled; otherwise (only
possible when the head level was already empty) it spins forever, which the
model reports as `.stuck`. -/
def matchBuyLoop (inc : Order) :
    List Level → List Nat → List (Nat × Nat) → List Trade →
    Except EngineErr LoopOut
  | [], keys, idm, buf => .ok ⟨inc, [], keys, idm, buf⟩
  | lv :: rest, keys, idm, buf =>
    if inc.order_price ≥ lv.limit_price ∧ ¬ inc.is_fulfilled then
      match match_against_level inc lv idm buf with
      | .error e => .error e
      | .ok out =>
        if out.levelEmpty then
          matchBuyLoop out.inc rest (keyErase out.lv.limit_price keys) out.idm out.buf
        else
          if out.inc.is_fulfilled then .ok ⟨out.inc, out.lv :: rest, keys, out.idm, out.buf⟩
          else .error .stuck
    else .ok ⟨inc, lv :: rest, keys, idm, buf⟩

/-- Matching `while` loop of `Book::place_order` for a SELL order, walking
the buy list from `best_bid` (its head); symmetric to `matchBuyLoop`. -/
def matchSellLoop (inc : Order) :
    List Level → List Nat → List (Nat × Nat) → List Trade →
    Except EngineErr LoopOut
  | [], keys, idm, buf => .ok ⟨inc, [], keys, idm, buf⟩
  | lv :: rest, keys, idm, buf =>
    if inc.order_price ≤ lv.limit_price ∧ ¬ inc.is_fulfilled then
      match match_against_level inc lv idm buf with
      | .error e => .error e
      | .ok out =>
        if out.levelEmpty then
          matchSellLoop out.inc rest (keyErase out.lv.limit_price keys) out.idm out.buf
        else
          if out.inc.is_fulfilled then .ok ⟨out.inc, out.lv :: rest, keys, out.idm, out.buf⟩
          else .error .stuck
    else .ok ⟨inc, lv :: rest, keys, idm, buf⟩

/-- `Book::insert_resting_order` composed with `Book::get_or_create_level`
from `Book.cpp`: fetch or create the level for (price, side) — creation
registers the price in the side's map and splices the level into the sorted
list — push the order to that level's tail, and record the id in
`id_to_order`.  (The C++ creates the empty level, links it, and then pushes
through the aliasing pointer; the model pushes into the freshly spliced
level, which yields the same list.) -/
def Book.insert_resting_order (o : Order) (b : Book) : Book :=
  let price := o.order_price
  let idm := assocSet o.order_id o.uid b.id_to_order
  match o.order_type with
  | .BUY =>
    if b.buy_map_keys.contains price then
      { b with
        buy_levels := updateLevelByPrice price (Level.push_back o) b.buy_levels
        id_to_order := idm }
    else
      { b with
        buy_levels := insert_level_sorted_buy (Level.push_back o ⟨price, 0, 0, []⟩) b.buy_levels
        buy_map_keys := price :: b.buy_map_keys
        id_to_order := idm }
  | .SELL =>
    if b.sell_map_keys.contains price then
      { b with
        sell_levels := updateLevelByPrice price (Level.push_back o) b.sell_levels
        id_to_order := idm }
    else
      { b with
        sell_levels := insert_level_sorted_sell (Level.push_back o ⟨price, 0, 0, []⟩) b.sell_levels
        sell_map_keys := price :: b.sell_map_keys
        id_to_order := idm }

/-- `Book::place_order` from `Book.cpp`.  The `uint32_t` / `uint64_t`
parameter types reduce the incoming price and volume; `price <= 0` on the
unsigned `PRICE` is `price == 0`.  The cleared-and-refilled trade buffer is
returned as a fresh list.  Allocation from the order pool stamps the fresh
pool identity `next_uid`. -/
def Book.place_order (b : Book) (order_id agent_id : Nat) (order_type : OrderType)
    (price volume : Nat) : Except EngineErr (List Trade × Book) :=
  let price := price % U32
  let volume := volume % U64
  if price = 0 ∨ volume = 0 then .ok ([], b)
  else
    let order : Order := ⟨order_id, agent_id, order_type, price, volume, volume, .ACTIVE, b.next_uid⟩
    let b1 : Book := { b with next_uid := b.next_uid + 1 }
    match order_type with
    | .BUY =>
      match matchBuyLoop order b1.sell_levels b1.sell_map_keys b1.id_to_order [] with
      | .error e => .error e
      | .ok out =>
        let b2 : Book := { b1 with sell_levels := out.levels, sell_map_keys := out.keys,
                                   id_to_order := out.idm }
        if ¬ out.inc.is_fulfilled then .ok (out.buf, b2.insert_resting_order out.inc)
        else .ok (out.buf, b2)
    | .SELL =>
      match matchSellLoop order b1.buy_levels b1.buy_map_keys b1.id_to_order [] with
      | .error e => .error e
      | .ok out =>
        let b2 : Book := { b1 with buy_levels := out.levels, buy_map_keys := out.keys,
                                   id_to_order := out.idm }
        if ¬ out.inc.is_fulfilled then .ok (out.buf, b2.insert_resting_order out.inc)
        else .ok (out.buf, b2)

/-- `Book::remove_order_from_level` from `Book.cpp`: locate the level by
price in the side's map (silent return when absent), `erase` the order from
it (the order's status is then set to `DELETED`, observable nowhere since
the order is deallocated), and when the level drained, unlink it, erase its
price from the map and deallocate it. -/
def Book.remove_order_from_level (o : Order) (is_buy : Bool) (b : Book) : Book :=
  let price := o.order_price
  if is_buy then
    if b.buy_map_keys.contains price then
      match findLevelByPrice price b.buy_levels with
      | none => b
      | some lv =>
        let lv' := Level.erase o lv
        if lv'.is_empty then
          { b with buy_levels := removeLevelByPrice price b.buy_levels
                   buy_map_keys := keyErase price b.buy_map_keys }
        else
          { b with buy_levels := updateLevelByPrice price (fun _ => lv') b.buy_levels }
    else b
  else
    if b.sell_map_keys.contains price then
      match findLevelByPrice price b.sell_levels with
      | none => b
      | some lv =>
        let lv' := Level.erase o lv
        if lv'.is_empty then
          { b with sell_levels := removeLevelByPrice price b.sell_levels
                   sell_map_keys := keyErase price b.sell_map_keys }
        else
          { b with sell_levels := updateLevelByPrice price (fun _ => lv') b.sell_levels }
    else b

/-- `Book::delete_order` from `Book.cpp`: silent return on an unknown id;
an ACTIVE order is removed from its level, its id erased, and the order
deallocated; a non-ACTIVE order (defensive, unreachable) only has its id
erased.  A mapped pointer that resolves to no live order would be a
dangling dereference in C++; the case is unreachable and modelled as the
defensive erase. -/
def Book.delete_order (b : Book) (id : Nat) : Book :=
  match assocGet id b.id_to_order with
  | none => b
  | some u =>
    match b.findOrderByUid u with
    | none => { b with id_to_order := assocErase id b.id_to_order }
    | some o =>
      if o.order_status = .ACTIVE then
        let b1 := b.remove_order_from_level o (o.order_type = .BUY)
        { b1 with id_to_order := assocErase id b1.id_to_order }
      else
        { b with id_to_order := assocErase id b.id_to_order }

/-- `Book::get_best_buy`: price of `best_bid` (the buy-list head) or 0. -/
def Book.get_best_buy (b : Book) : Nat :=
  match b.buy_levels with
  | [] => 0
  | lv :: _ => lv.limit_price

/-- `Book::get_best_sell`: price of `best_ask` (the sell-list head) or 0. -/
def Book.get_best_sell (b : Book) : Nat :=
  match b.sell_levels with
  | [] => 0
  | lv :: _ => lv.limit_price

/-- `Book::get_spread`: `ask - bid` in `uint32_t` arithmetic, or 0 when a
side is empty. -/
def Book.get_spread (b : Book) : Nat :=
  let bid := b.get_best_buy
  let ask := b.get_best_sell
  if bid = 0 ∨ ask = 0 then 0 else (ask + (U32 - bid % U32)) % U32

/-- `Book::get_mid_price`: `(bid + ask) / 2.0` where `bid + ask` is
`unsigned int` addition (wraps modulo `2^32`) and the division is IEEE
double division by 2.  Since the wrapped sum is below `2^32 ≤ 2^53`, the
conversion to `double` and the halving are exact, so the value is faithfully
carried in `ℚ`. -/
def Book.get_mid_price (b : Book) : ℚ :=
  let bid := b.get_best_buy
  let ask := b.get_best_sell
  if bid = 0 ∨ ask = 0 then 0 else (((bid + ask) % U32 : Nat) : ℚ) / 2

/-- Walk of `Book::get_buy_prices` / `get_sell_prices`: collect the price of
every non-empty level in list order. -/
def collectPrices : List Level → List Nat
  | [] => []
  | lv :: t => if lv.is_empty then collectPrices t else lv.limit_price :: collectPrices t

/-- `Book::get_buy_prices`. -/
def Book.get_buy_prices (b : Book) : List Nat := collectPrices b.buy_levels

/-- `Book::get_sell_prices`. -/
def Book.get_sell_prices (b : Book) : List Nat := collectPrices b.sell_levels

/-- `Book::get_order_status`: `DELETED` for an unknown id, otherwise the
status read through the mapped pointer.  (A mapped pointer resolving to no
live order would be a dangling dereference; the case is unreachable and
modelled as `DELETED`.) -/
def Book.get_order_status (b : Book) (id : Nat) : OrderStatus :=
  match assocGet id b.id_to_order with
  | none => .DELETED
  | some u =>
    match b.findOrderByUid u with
    | none => .DELETED
    | some o => o.order_status

/-- The book states reachable from a fresh `Book` by the public mutating
API, each `place_order` call running to normal completion. -/
inductive Reachable : Book → Prop where
  | empty : Reachable Book.emptyBook
  | place {b : Book} {id agent price volume : Nat} {ty : OrderType} {t : List Trade}
      {b' : Book} : Reachable b →
      b.place_order id agent ty price volume = .ok (t, b') → Reachable b'
  | del {b : Book} (id : Nat) : Reachable b → Reachable (b.delete_order id)

/-! ## SlabPool (`SlabPool.h`)

The pool's observable allocation behaviour is governed by three counters:
`total_capacity_`, `allocated_count_` and the length of the free list.  The
slot contents (placement-new storage, free-list threading) do not affect
them, so the model carries exactly the counters. -/

/-- `SlabPool::SLAB_SIZE` (`SlabPool.h` line 37): a fixed
`static constexpr` of 1024 objects per slab, identical for every
instantiation of the template — in particular for both `SlabPool<Order>`
and `SlabPool<Level>`. -/
def SlabPool.SLAB_SIZE : Nat := 1024

/-- Counter state of a `SlabPool<T>`. -/
structure SlabPool where
  total_capacity : Nat
  allocated_count : Nat
  free_count : Nat
deriving DecidableEq, Repr

/-- `SlabPool::add_slab`: append one slab and push all its slots onto the
free list. -/
def SlabPool.add_slab (p : SlabPool) : SlabPool :=
  { p with
    total_capacity := p.total_capacity + SlabPool.SLAB_SIZE
    free_count := p.free_count + SlabPool.SLAB_SIZE }

/-- `SlabPool::SlabPool(initial_capacity)`: pre-allocate
`⌈initial_capacity / SLAB_SIZE⌉` slabs. -/
def SlabPool.init (initial_capacity : Nat) : SlabPool :=
  SlabPool.add_slab^[(initial_capacity + SlabPool.SLAB_SIZE - 1) / SlabPool.SLAB_SIZE]
    ⟨0, 0, 0⟩

/-- `SlabPool::allocate`: append a new slab exactly when the free list is
empty, then pop the free-list head. -/
def SlabPool.allocate (p : SlabPool) : SlabPool :=
  let p := if p.free_count = 0 then p.add_slab else p
  { p with free_count := p.free_count - 1, allocated_count := p.allocated_count + 1 }

/-- `SlabPool::deallocate` on a valid (hence live) object: destruct and push
the slot onto the free list. -/
def SlabPool.deallocate (p : SlabPool) : SlabPool :=
  { p with free_count := p.free_count + 1, allocated_count := p.allocated_count - 1 }

/-- Pool states reachable through the `SlabPool` API; `deallocate` requires
a live object, hence a positive allocation count. -/
inductive SlabPool.Reach : SlabPool → Prop where
  | init (n : Nat) : SlabPool.Reach (SlabPool.init n)
  | alloc {p : SlabPool} : SlabPool.Reach p → SlabPool.Reach p.allocate
  | dealloc {p : SlabPool} : SlabPool.Reach p → 0 < p.allocated_count →
      SlabPool.Reach p.deallocate

/-! ## Spec-side reference description of matching (for claim C2)

These two definitions follow the specification's words, not the source:
"levels are consumed best resting price first, and within each level
resting orders are consumed strictly in FIFO (insertion) order, each fill
volume being the minimum of the resting head's and the incoming order's
remaining volumes", with every trade carrying the resting level's price. -/

/-- Reference fills of one level's FIFO by a taker with `v` remaining:
walk the queue in insertion order, each fill being
`min(resting remaining, v)`, at the level's price; returns the trades and
the taker's leftover volume. -/
def specFillsLevel (inc_id p v : Nat) : List Order → List Trade × Nat
  | [] => ([], v)
  | r :: rest =>
    if v = 0 then ([], 0)
    else
      let fv := min r.remaining_volume v
      if r.remaining_volume ≤ v then
        let out := specFillsLevel inc_id p (v - fv) rest
        (⟨inc_id, r.order_id, p, fv⟩ :: out.1, out.2)
      else ([⟨inc_id, r.order_id, p, fv⟩], v - fv)

/-- Reference trade stream of one `place_order` call: walk the opposite
side's levels from the best resting price, consuming each crossing level's
FIFO while taker volume remains. -/
def specTrades (inc_id : Nat) (side : OrderType) (p v : Nat) : List Level → List Trade
  | [] => []
  | lv :: rest =>
    let crosses : Bool := match side with
      | .BUY => lv.limit_price ≤ p
      | .SELL => p ≤ lv.limit_price
    if crosses ∧ v ≠ 0 then
      let out := specFillsLevel inc_id lv.limit_price v lv.fifo
      out.1 ++ specTrades inc_id side p out.2 rest
    else []

/-- The opposite-side level list an incoming order matches against. -/
def Book.oppLevels (b : Book) : OrderType → List Level
  | .BUY => b.sell_levels
  | .SELL => b.buy_levels

/-! ## Well-formedness invariants -/

/-- Constraints every order resting in a level of price `p` on side `s`
satisfies in a reachable book. -/
def OrderOK (s : OrderType) (p : Nat) (o : Order) : Prop :=
  o.order_status = .ACTIVE ∧ 0 < o.remaining_volume ∧ o.remaining_volume < U64 ∧
    o.order_price = p ∧ o.order_type = s

/-- Per-level invariant: the queue is non-empty, the counters agree with it
(`total_volume` as the 64-bit value of the sum), and every queued order is
well-formed for this level. -/
def LevelWF (s : OrderType) (lv : Level) : Prop :=
  lv.fifo ≠ [] ∧
  lv.order_number = lv.fifo.length ∧
  lv.total_volume = (lv.fifo.map Order.remaining_volume).sum % U64 ∧
  0 < lv.limit_price ∧ lv.limit_price < U32 ∧
  ∀ o ∈ lv.fifo, OrderOK s lv.limit_price o

/-- Price ordering along a side's sorted list: strictly descending for the
buy side, strictly ascending for the sell side. -/
def priceOrd : OrderType → Nat → Nat → Prop
  | .BUY, a, b => b < a
  | .SELL, a, b => a < b

/-- Per-side invariant: sorted level list, well-formed levels, and a map key
set that is exactly (and without duplicates) the set of listed prices. -/
def SideWF (s : OrderType) (keys : List Nat) (levels : List Level) : Prop :=
  levels.Pairwise (fun x y => priceOrd s x.limit_price y.limit_price) ∧
  (∀ lv ∈ levels, LevelWF s lv) ∧
  keys.Nodup ∧
  (∀ p, p ∈ keys ↔ p ∈ levels.map Level.limit_price)

/-- Whole-book invariant. -/
structure BookWF (b : Book) : Prop where
  buy : SideWF .BUY b.buy_map_keys b.buy_levels
  sell : SideWF .SELL b.sell_map_keys b.sell_levels
  cross : ∀ lb ∈ b.buy_levels.head?, ∀ ls ∈ b.sell_levels.head?,
    lb.limit_price < ls.limit_price
  uids_nodup : (b.allOrders.map Order.uid).Nodup
  uids_lt : ∀ o ∈ b.allOrders, o.uid < b.next_uid
  idm_nodup : (b.id_to_order.map Prod.fst).Nodup
  idm_resolves : ∀ id u, (id, u) ∈ b.id_to_order →
    ∃ o ∈ b.allOrders, o.uid = u ∧ o.order_id = id

/-! ## Arithmetic and container helper lemmas -/

theorem U64_pos : 0 < U64 := by decide

theorem u64sub_mod_left {s a : Nat} (h1 : a ≤ s) (h2 : a < U64) :
    u64sub (s % U64) a = (s - a) % U64 := by
  unfold u64sub
  rw [Nat.mod_eq_of_lt h2, Nat.mod_add_mod]
  have h3 : s + (U64 - a) = (s - a) + U64 := by omega
  rw [h3, Nat.add_mod_right]

theorem u64add_mod_left (s a : Nat) : u64add (s % U64) a = (s + a) % U64 := by
  simp [u64add, Nat.mod_add_mod]

theorem assocErase_sublist (k : Nat) (m : List (Nat × Nat)) :
    List.Sublist (assocErase k m) m := by
  induction m with
  | nil => simp [assocErase]
  | cons e t ih =>
    obtain ⟨k', v'⟩ := e
    simp only [assocErase]
    split
    · exact (List.sublist_cons_self _ _)
    · exact List.Sublist.cons₂ _ ih

theorem assocErase_fst_nodup {k : Nat} {m : List (Nat × Nat)}
    (h : (m.map Prod.fst).Nodup) : ((assocErase k m).map Prod.fst).Nodup :=
  h.sublist ((assocErase_sublist k m).map Prod.fst)

theorem mem_assocErase {k : Nat} {m : List (Nat × Nat)} (hnd : (m.map Prod.fst).Nodup)
    (a b : Nat) : (a, b) ∈ assocErase k m ↔ (a, b) ∈ m ∧ a ≠ k := by
  induction m with
  | nil => simp [assocErase]
  | cons e t ih =>
    obtain ⟨k', v'⟩ := e
    simp only [List.map_cons, List.nodup_cons] at hnd
    simp only [assocErase]
    split
    · rename_i hk
      subst hk
      constructor
      · intro hm
        refine ⟨List.mem_cons_of_mem _ hm, ?_⟩
        intro hak
        subst hak
        exact hnd.1 (List.mem_map_of_mem Prod.fst hm)
      · rintro ⟨hm, hak⟩
        rcases List.mem_cons.mp hm with h | h
        · cases h; simp at hak
        · exact h
    · rename_i hk
      rw [List.mem_cons, ih hnd.2]
      constructor
      · rintro (h | ⟨h1, h2⟩)
        · cases h
          exact ⟨List.mem_cons_self _ _, fun hh => hk hh⟩
        · exact ⟨List.mem_cons_of_mem _ h1, h2⟩
      · rintro ⟨hm, hak⟩
        rcases List.mem_cons.mp hm with h | h
        · exact Or.inl h
        · exact Or.inr ⟨h, hak⟩

theorem keyErase_sublist (p : Nat) (ks : List Nat) : List.Sublist (keyErase p ks) ks := by
  induction ks with
  | nil => simp [keyErase]
  | cons q t ih =>
    simp only [keyErase]
    split
    · exact List.sublist_cons_self _ _
    · exact List.Sublist.cons₂ _ ih

theorem keyErase_nodup {p : Nat} {ks : List Nat} (h : ks.Nodup) : (keyErase p ks).Nodup :=
  h.sublist (keyErase_sublist p ks)

theorem mem_keyErase {p : Nat} {ks : List Nat} (hnd : ks.Nodup) (q : Nat) :
    q ∈ keyErase p ks ↔ q ∈ ks ∧ q ≠ p := by
  induction ks with
  | nil => simp [keyErase]
  | cons a t ih =>
    simp only [List.nodup_cons] at hnd
    simp only [keyErase]
    split
    · rename_i ha
      subst ha
      constructor
      · intro hm
        refine ⟨List.mem_cons_of_mem _ hm, ?_⟩
        intro hq
        subst hq
        exact hnd.1 hm
      · rintro ⟨hm, hq⟩
        rcases List.mem_cons.mp hm with h | h
        · exact absurd h hq
        · exact h
    · rename_i ha
      rw [List.mem_cons, ih hnd.2, List.mem_cons]
      constructor
      · rintro (h | ⟨h1, h2⟩)
        · subst h; exact ⟨Or.inl rfl, fun hh => ha hh⟩
        · exact ⟨Or.inr h1, h2⟩
      · rintro ⟨h1 | h1, h2⟩
        · exact Or.inl h1
        · exact Or.inr ⟨h1, h2⟩

/-! ## Fill lemmas -/

theorem Order.fill_of_le {o : Order} {fv : Nat} (h : fv ≤ o.remaining_volume) :
    o.fill fv = some { o with
      remaining_volume := o.remaining_volume - fv
      order_status := if o.remaining_volume - fv = 0 then .FULFILLED else o.order_status } := by
  simp [Order.fill, Nat.not_lt.mpr h]

theorem Order.is_fulfilled_iff (o : Order) : o.is_fulfilled ↔ o.remaining_volume = 0 := by
  simp [Order.is_fulfilled]

/-- Identity-and-static-field projection of an order (pool identity, id,
price, side); `Order.fill` preserves it. -/
def okey (o : Order) : Nat × Nat × Nat × OrderType :=
  (o.uid, o.order_id, o.order_price, o.order_type)

/-- The inner matching loop never throws: every fill volume is
`min(resting remaining, incoming remaining)`, which satisfies the `fill`
precondition on both sides. -/
theorem matchFifo_isOk (inc : Order) (price : Nat) (fifo : List Order)
    (count total : Nat) (idm : List (Nat × Nat)) (buf : List Trade) :
    ∃ out, matchFifo inc price fifo count total idm buf = .ok out := by
  induction fifo generalizing inc count total idm buf with
  | nil => exact ⟨_, rfl⟩
  | cons r rest ih =>
    simp only [matchFifo]
    by_cases hf : inc.is_fulfilled = true
    · rw [if_pos hf]
      exact ⟨_, rfl⟩
    · rw [if_neg hf]
      simp only [Order.fill_of_le (Nat.min_le_left _ _), Order.fill_of_le (Nat.min_le_right _ _)]
      by_cases hr : r.remaining_volume - min r.remaining_volume inc.remaining_volume = 0
      · simp only [Order.is_fulfilled, hr, beq_self_eq_true, if_true, eq_self_iff_true]
        exact ih _ _ _ _ _
      · rw [if_neg (by simp [Order.is_fulfilled, hr])]
        exact ⟨_, rfl⟩

/-- Postcondition of the inner matching loop relating its result to the
initial incoming order, FIFO queue, and id map. -/
structure FifoPost (inc : Order) (fifo : List Order) (idm : List (Nat × Nat))
    (out : FifoOut) : Prop where
  inc_uid : out.inc.uid = inc.uid
  inc_id : out.inc.order_id = inc.order_id
  inc_price : out.inc.order_price = inc.order_price
  inc_type : out.inc.order_type = inc.order_type
  inc_rem_le : out.inc.remaining_volume ≤ inc.remaining_volume
  inc_status : out.inc.remaining_volume ≠ 0 → out.inc.order_status = inc.order_status
  count_eq : out.count = out.fifo.length
  total_eq : out.total = (out.fifo.map Order.remaining_volume).sum % U64
  orders_ok : ∀ o ∈ out.fifo,
    0 < o.remaining_volume ∧ o.remaining_volume < U64 ∧ o.order_status = .ACTIVE
  key_suffix : List.IsSuffix (out.fifo.map okey) (fifo.map okey)
  idm_sub : ∀ e ∈ out.idm, e ∈ idm
  idm_nodup : (out.idm.map Prod.fst).Nodup
  idm_resolve : ∀ id u, (id, u) ∈ out.idm → ∀ o ∈ fifo, o.uid = u → o.order_id = id →
    ∃ o2 ∈ out.fifo, o2.uid = u ∧ o2.order_id = o.order_id
  exit_fulfilled : out.fifo ≠ [] →
    out.inc.is_fulfilled = true ∨ inc.is_fulfilled = true

/-- Main invariant-preservation lemma for the inner matching loop. -/
theorem matchFifo_wf {inc : Order} {price : Nat} {fifo : List Order}
    {count total : Nat} {idm : List (Nat × Nat)} {buf : List Trade} {out : FifoOut}
    (hrun : matchFifo inc price fifo count total idm buf = .ok out)
    (hcount : count = fifo.length)
    (htotal : total = (fifo.map Order.remaining_volume).sum % U64)
    (horders : ∀ o ∈ fifo,
      0 < o.remaining_volume ∧ o.remaining_volume < U64 ∧ o.order_status = .ACTIVE)
    (hinc : inc.remaining_volume < U64)
    (hidm : (idm.map Prod.fst).Nodup) :
    FifoPost inc fifo idm out := by
  induction fifo generalizing inc count total idm buf out with
  | nil =>
    simp only [matchFifo] at hrun
    cases hrun
    exact {
      inc_uid := rfl, inc_id := rfl, inc_price := rfl, inc_type := rfl
      inc_rem_le := le_refl _
      inc_status := fun _ => rfl
      count_eq := by simpa using hcount
      total_eq := by simpa using htotal
      orders_ok := by intro o ho; simp at ho
      key_suffix := List.nil_suffix
      idm_sub := fun e he => he
      idm_nodup := hidm
      idm_resolve := by intro id u hm o ho; simp at ho
      exit_fulfilled := by intro h; simp at h }
  | cons r rest ih =>
    simp only [matchFifo] at hrun
    by_cases hf : inc.is_fulfilled = true
    · rw [if_pos hf] at hrun
      cases hrun
      exact {
        inc_uid := rfl, inc_id := rfl, inc_price := rfl, inc_type := rfl
        inc_rem_le := le_refl _
        inc_status := fun _ => rfl
        count_eq := hcount
        total_eq := htotal
        orders_ok := horders
        key_suffix := List.suffix_refl _
        idm_sub := fun e he => he
        idm_nodup := hidm
        idm_resolve := fun id u hm o ho huid hid => ⟨o, ho, huid, rfl⟩
        exit_fulfilled := fun _ => Or.inl hf }
    · rw [if_neg hf] at hrun
      simp only [Order.fill_of_le (Nat.min_le_left _ _),
        Order.fill_of_le (Nat.min_le_right _ _)] at hrun
      obtain ⟨hrpos, hrlt, hract⟩ := horders r (List.mem_cons_self _ _)
      by_cases hr : r.remaining_volume - min r.remaining_volume inc.remaining_volume = 0
      · -- resting head fulfilled: popped and recursion continues
        simp only [Order.is_fulfilled, hr, beq_self_eq_true, if_true, eq_self_iff_true] at hrun
        have hfv_le_r : min r.remaining_volume inc.remaining_volume ≤ r.remaining_volume :=
          Nat.min_le_left _ _
        have hfv_eq : min r.remaining_volume inc.remaining_volume = r.remaining_volume := by
          omega
        have hcount' : count - 1 = rest.length := by
          simp only [List.length_cons] at hcount; omega
        have htotal' :
            u64sub (u64sub total (min r.remaining_volume inc.remaining_volume)) 0 =
              (rest.map Order.remaining_volume).sum % U64 := by
          rw [htotal]
          simp only [List.map_cons, List.sum_cons, hfv_eq]
          rw [u64sub_mod_left (Nat.le_add_right _ _) hrlt]
          rw [Nat.add_sub_cancel_left]
          rw [u64sub_mod_left (Nat.zero_le _) U64_pos]
          simp
        have post := ih hrun hcount' htotal'
          (fun o ho => horders o (List.mem_cons_of_mem _ ho))
          (lt_of_le_of_lt (Nat.sub_le _ _) hinc)
          (assocErase_fst_nodup hidm)
        refine {
          inc_uid := post.inc_uid, inc_id := post.inc_id
          inc_price := post.inc_price, inc_type := post.inc_type
          inc_rem_le := le_trans post.inc_rem_le (Nat.sub_le _ _)
          inc_status := ?_
          count_eq := post.count_eq
          total_eq := post.total_eq
          orders_ok := post.orders_ok
          key_suffix := post.key_suffix.trans ?_
          idm_sub := fun e he => (assocErase_sublist r.order_id idm).subset (post.idm_sub e he)
          idm_nodup := post.idm_nodup
          idm_resolve := ?_
          exit_fulfilled := ?_ }
        · intro hne
          rw [post.inc_status hne]
          have h2 : out.inc.remaining_volume ≤
              inc.remaining_volume - min r.remaining_volume inc.remaining_volume :=
            post.inc_rem_le
          have hcne : inc.remaining_volume - min r.remaining_volume inc.remaining_volume
              ≠ 0 := by
            intro hc
            rw [hc] at h2
            exact hne (Nat.le_zero.mp h2)
          show (if inc.remaining_volume - min r.remaining_volume inc.remaining_volume = 0
              then OrderStatus.FULFILLED else inc.order_status) = inc.order_status
          rw [if_neg hcne]
        · rw [List.map_cons]
          exact List.suffix_cons _ _
        · intro id u hm o ho huid hid
          rcases List.mem_cons.mp ho with h | h
          · exfalso
            have h1 : (id, u) ∈ assocErase r.order_id idm := post.idm_sub _ hm
            have h2 := (mem_assocErase hidm id u).mp h1
            subst h
            exact h2.2 hid.symm
          · exact post.idm_resolve id u hm o h huid hid
        · intro hne
          rcases post.exit_fulfilled hne with h | h
          · exact Or.inl h
          · refine Or.inl ?_
            have h0 : out.inc.remaining_volume = 0 := by
              have := post.inc_rem_le
              simp only [Order.is_fulfilled, beq_iff_eq] at h
              simp only [h] at this
              omega
            simp [Order.is_fulfilled, h0]
      · -- resting head survives; the incoming order is exhausted
        rw [if_neg (by simp [Order.is_fulfilled, hr])] at hrun
        cases hrun
        have hfv_le_i : min r.remaining_volume inc.remaining_volume ≤ inc.remaining_volume :=
          Nat.min_le_right _ _
        have hfv_eq : min r.remaining_volume inc.remaining_volume = inc.remaining_volume := by
          omega
        refine {
          inc_uid := rfl, inc_id := rfl, inc_price := rfl, inc_type := rfl
          inc_rem_le := Nat.sub_le _ _
          inc_status := ?_
          count_eq := hcount
          total_eq := ?_
          orders_ok := ?_
          key_suffix := ?_
          idm_sub := fun e he => he
          idm_nodup := hidm
          idm_resolve := ?_
          exit_fulfilled := ?_ }
        · intro hne
          exfalso
          apply hne
          show inc.remaining_volume - min r.remaining_volume inc.remaining_volume = 0
          omega
        · rw [htotal]
          simp only [List.map_cons, List.sum_cons]
          rw [u64sub_mod_left
            (le_trans (Nat.min_le_left _ _) (Nat.le_add_right _ _))
            (lt_of_le_of_lt (Nat.min_le_left _ _) hrlt)]
          congr 1
          omega
        · intro o ho
          rcases List.mem_cons.mp ho with h | h
          · subst h
            refine ⟨?_, ?_, ?_⟩
            · show 0 < r.remaining_volume - min r.remaining_volume inc.remaining_volume
              omega
            · show r.remaining_volume - min r.remaining_volume inc.remaining_volume < U64
              exact lt_of_le_of_lt (Nat.sub_le _ _) hrlt
            · show (if r.remaining_volume - min r.remaining_volume inc.remaining_volume = 0
                  then OrderStatus.FULFILLED else r.order_status) = OrderStatus.ACTIVE
              rw [if_neg hr]
              exact hract
          · exact horders o (List.mem_cons_of_mem _ h)
        · simp only [List.map_cons, okey]
          exact List.suffix_refl _
        · intro id u hm o ho huid hid
          rcases List.mem_cons.mp ho with h | h
          · subst h
            exact ⟨_, List.mem_cons_self _ _, huid, rfl⟩
          · exact ⟨o, List.mem_cons_of_mem _ h, huid, rfl⟩
        · intro hne
          refine Or.inl ?_
          simp [Order.is_fulfilled, hfv_eq]

/-- `match_against_level` never throws (its fills are guarded by `min`). -/
theorem match_against_level_isOk (inc : Order) (lv : Level) (idm : List (Nat × Nat))
    (buf : List Trade) : ∃ mal, match_against_level inc lv idm buf = .ok mal := by
  unfold match_against_level
  by_cases he : lv.is_empty = true
  · rw [if_pos he]
    exact ⟨_, rfl⟩
  · rw [if_neg he]
    obtain ⟨out, hout⟩ :=
      matchFifo_isOk inc lv.limit_price lv.fifo lv.order_number lv.total_volume idm buf
    rw [hout]
    exact ⟨_, rfl⟩

/-- Description of a successful `match_against_level` on a well-formed,
non-empty level: it behaves as the inner loop on the level's FIFO, keeps
the level's price, and reports emptiness faithfully. -/
theorem match_against_level_wf {s : OrderType} {inc : Order} {lv : Level}
    {idm : List (Nat × Nat)} {buf : List Trade} {mal : MalOut}
    (hrun : match_against_level inc lv idm buf = .ok mal)
    (hwf : LevelWF s lv)
    (hinc : inc.remaining_volume < U64)
    (hidm : (idm.map Prod.fst).Nodup) :
    mal.lv.limit_price = lv.limit_price ∧
    FifoPost inc lv.fifo idm ⟨mal.inc, mal.lv.fifo, mal.lv.order_number,
      mal.lv.total_volume, mal.idm, mal.buf⟩ ∧
    (mal.levelEmpty = true ↔ mal.lv.fifo = []) := by
  obtain ⟨hne, hcount, htotal, hp0, hpU, horders⟩ := hwf
  have hemp : lv.is_empty = false := by
    simp only [Level.is_empty, hcount, beq_eq_false_iff_ne, ne_eq, List.length_eq_zero]
    exact hne
  unfold match_against_level at hrun
  rw [hemp] at hrun
  rw [if_neg (by simp)] at hrun
  obtain ⟨out, hout⟩ :=
    matchFifo_isOk inc lv.limit_price lv.fifo lv.order_number lv.total_volume idm buf
  rw [hout] at hrun
  simp only [] at hrun
  cases hrun
  have post := matchFifo_wf hout hcount htotal
    (fun o ho => ⟨(horders o ho).2.1, (horders o ho).2.2.1, (horders o ho).1⟩) hinc hidm
  refine ⟨rfl, post, ?_⟩
  simp only [Level.is_empty, beq_iff_eq]
  rw [post.count_eq]
  exact List.length_eq_zero

/-- Rebuilding a well-formed level from the inner loop's output, provided
the queue did not drain. -/
theorem LevelWF_of_fifoPost {s : OrderType} {inc : Order} {lv : Level}
    {idm : List (Nat × Nat)} {out : FifoOut}
    (hwf : LevelWF s lv) (post : FifoPost inc lv.fifo idm out) (hne : out.fifo ≠ []) :
    LevelWF s { lv with fifo := out.fifo, order_number := out.count,
                        total_volume := out.total } := by
  obtain ⟨hne0, hcount, htotal, hp0, hpU, horders⟩ := hwf
  refine ⟨hne, post.count_eq, post.total_eq, hp0, hpU, ?_⟩
  intro o ho
  obtain ⟨hpos, hlt, hact⟩ := post.orders_ok o ho
  have hkey : okey o ∈ lv.fifo.map okey :=
    post.key_suffix.sublist.subset (List.mem_map_of_mem okey ho)
  obtain ⟨o0, ho0, hk⟩ := List.mem_map.mp hkey
  obtain ⟨-, -, -, hop, hot⟩ := horders o0 ho0
  simp only [okey, Prod.mk.injEq] at hk
  refine ⟨hact, hpos, hlt, ?_, ?_⟩
  · show o.order_price = lv.limit_price
    rw [← hk.2.2.1]
    exact hop
  · rw [← hk.2.2.2]
    exact hot

theorem ordersOf_nil : ordersOf [] = [] := rfl

theorem ordersOf_cons (lv : Level) (rest : List Level) :
    ordersOf (lv :: rest) = lv.fifo ++ ordersOf rest := by
  simp [ordersOf]

theorem ordersOf_append (l1 l2 : List Level) :
    ordersOf (l1 ++ l2) = ordersOf l1 ++ ordersOf l2 := by
  simp [ordersOf]

/-- Postcondition of the outer matching loop of `place_order` over the
opposite side `s`. -/
structure LoopPost (s : OrderType) (inc : Order) (levels : List Level)
    (keys : List Nat) (idm : List (Nat × Nat)) (out : LoopOut) : Prop where
  inc_uid : out.inc.uid = inc.uid
  inc_id : out.inc.order_id = inc.order_id
  inc_price : out.inc.order_price = inc.order_price
  inc_type : out.inc.order_type = inc.order_type
  inc_rem_le : out.inc.remaining_volume ≤ inc.remaining_volume
  inc_status : out.inc.remaining_volume ≠ 0 → out.inc.order_status = inc.order_status
  price_suffix : List.IsSuffix (out.levels.map Level.limit_price)
    (levels.map Level.limit_price)
  levels_wf : ∀ lv ∈ out.levels, LevelWF s lv
  keys_nodup : out.keys.Nodup
  keys_iff : ∀ p, p ∈ out.keys ↔ p ∈ out.levels.map Level.limit_price
  okey_sublist : List.Sublist ((ordersOf out.levels).map okey)
    ((ordersOf levels).map okey)
  idm_sub : ∀ e ∈ out.idm, e ∈ idm
  idm_nodup : (out.idm.map Prod.fst).Nodup
  idm_resolve : ∀ id u, (id, u) ∈ out.idm → ∀ o ∈ ordersOf levels,
    o.uid = u → o.order_id = id →
    ∃ o2 ∈ ordersOf out.levels, o2.uid = u ∧ o2.order_id = id
  exit_cross : ∀ lv ∈ out.levels.head?, ¬ out.inc.is_fulfilled = true →
    priceOrd s inc.order_price lv.limit_price

/-- Invariant preservation of the BUY-side matching loop (walking the sell
list). -/
theorem matchBuyLoop_wf {inc : Order} {levels : List Level} {keys : List Nat}
    {idm : List (Nat × Nat)} {buf : List Trade} {out : LoopOut}
    (hrun : matchBuyLoop inc levels keys idm buf = .ok out)
    (hlv : ∀ lv ∈ levels, LevelWF .SELL lv)
    (hpn : (levels.map Level.limit_price).Nodup)
    (hkn : keys.Nodup)
    (hki : ∀ p, p ∈ keys ↔ p ∈ levels.map Level.limit_price)
    (hinc : inc.remaining_volume < U64)
    (hidm : (idm.map Prod.fst).Nodup) :
    LoopPost .SELL inc levels keys idm out := by
  induction levels generalizing inc keys idm buf out with
  | nil =>
    simp only [matchBuyLoop] at hrun
    cases hrun
    exact {
      inc_uid := rfl, inc_id := rfl, inc_price := rfl, inc_type := rfl
      inc_rem_le := le_refl _
      inc_status := fun _ => rfl
      price_suffix := List.suffix_refl _
      levels_wf := hlv
      keys_nodup := hkn, keys_iff := hki
      okey_sublist := List.Sublist.refl _
      idm_sub := fun e he => he, idm_nodup := hidm
      idm_resolve := fun id u hm o ho huid hid => ⟨o, ho, huid, hid⟩
      exit_cross := by intro lv h; simp at h }
  | cons lv rest ih =>
    simp only [matchBuyLoop] at hrun
    by_cases hg : inc.order_price ≥ lv.limit_price ∧ ¬ inc.is_fulfilled = true
    · rw [if_pos hg] at hrun
      obtain ⟨mal, hmal⟩ := match_against_level_isOk inc lv idm buf
      rw [hmal] at hrun
      simp only [] at hrun
      have hlv0 := hlv lv (List.mem_cons_self _ _)
      obtain ⟨hprice, postm, hiff⟩ := match_against_level_wf hmal hlv0 hinc hidm
      simp only [List.map_cons, List.nodup_cons] at hpn
      by_cases hle : mal.levelEmpty = true
      · rw [if_pos hle] at hrun
        have hdrained : mal.lv.fifo = [] := hiff.mp hle
        have hki2 : ∀ p, p ∈ keyErase mal.lv.limit_price keys ↔
            p ∈ rest.map Level.limit_price := by
          intro p
          rw [hprice, mem_keyErase hkn p, hki p, List.map_cons, List.mem_cons]
          constructor
          · rintro ⟨h1 | h1, h2⟩
            · exact absurd h1 h2
            · exact h1
          · intro h1
            exact ⟨Or.inr h1, fun hc => hpn.1 (hc ▸ h1)⟩
        have post := ih hrun (fun l hl => hlv l (List.mem_cons_of_mem _ hl)) hpn.2
          (keyErase_nodup hkn) hki2
          (lt_of_le_of_lt postm.inc_rem_le hinc) postm.idm_nodup
        refine {
          inc_uid := post.inc_uid.trans postm.inc_uid
          inc_id := post.inc_id.trans postm.inc_id
          inc_price := post.inc_price.trans postm.inc_price
          inc_type := post.inc_type.trans postm.inc_type
          inc_rem_le := le_trans post.inc_rem_le postm.inc_rem_le
          inc_status := ?_
          price_suffix := post.price_suffix.trans
            (by rw [List.map_cons]; exact List.suffix_cons _ _)
          levels_wf := post.levels_wf
          keys_nodup := post.keys_nodup
          keys_iff := post.keys_iff
          okey_sublist := ?_
          idm_sub := fun e he => postm.idm_sub e (post.idm_sub e he)
          idm_nodup := post.idm_nodup
          idm_resolve := ?_
          exit_cross := ?_ }
        · intro hne
          rw [post.inc_status hne]
          refine postm.inc_status ?_
          intro hc
          have h2 := post.inc_rem_le
          rw [hc] at h2
          exact hne (Nat.le_zero.mp h2)
        · refine post.okey_sublist.trans ?_
          rw [ordersOf_cons, List.map_append]
          exact (List.suffix_append _ _).sublist
        · intro id u hm o ho huid hid
          rw [ordersOf_cons, List.mem_append] at ho
          rcases ho with h | h
          · exfalso
            have h1 : (id, u) ∈ mal.idm := post.idm_sub _ hm
            obtain ⟨o2, ho2, -⟩ := postm.idm_resolve id u h1 o h huid hid
            rw [hdrained] at ho2
            simp at ho2
          · obtain ⟨o2, ho2, h3, h4⟩ := post.idm_resolve id u hm o h huid hid
            exact ⟨o2, ho2, h3, h4⟩
        · intro l hl hnf
          have := post.exit_cross l hl hnf
          rwa [postm.inc_price] at this
      · rw [if_neg hle] at hrun
        by_cases hful : mal.inc.is_fulfilled = true
        · rw [if_pos hful] at hrun
          cases hrun
          have hne : mal.lv.fifo ≠ [] := fun hc => hle (hiff.mpr hc)
          have hlvwf : LevelWF .SELL mal.lv := by
            have h1 := LevelWF_of_fifoPost hlv0 postm hne
            dsimp only at h1
            have h2 : mal.lv = Level.mk lv.limit_price mal.lv.order_number
                mal.lv.total_volume mal.lv.fifo := by
              rw [← hprice]
            rwa [← h2] at h1
          refine {
            inc_uid := postm.inc_uid
            inc_id := postm.inc_id
            inc_price := postm.inc_price
            inc_type := postm.inc_type
            inc_rem_le := postm.inc_rem_le
            inc_status := postm.inc_status
            price_suffix := by
              simp only [List.map_cons, hprice]
              exact List.suffix_refl _
            levels_wf := ?_
            keys_nodup := hkn
            keys_iff := by
              intro p
              rw [hki p]
              simp [hprice]
            okey_sublist := by
              rw [ordersOf_cons, ordersOf_cons, List.map_append, List.map_append]
              exact (postm.key_suffix.sublist).append_right _
            idm_sub := postm.idm_sub
            idm_nodup := postm.idm_nodup
            idm_resolve := ?_
            exit_cross := by
              intro l hl hnf
              exact absurd hful hnf }
          · intro l hl
            rcases List.mem_cons.mp hl with h | h
            · rw [h]; exact hlvwf
            · exact hlv l (List.mem_cons_of_mem _ h)
          · intro id u hm o ho huid hid
            rw [ordersOf_cons, List.mem_append] at ho
            rcases ho with h | h
            · obtain ⟨o2, ho2, h3, h4⟩ := postm.idm_resolve id u hm o h huid hid
              refine ⟨o2, ?_, h3, hid ▸ h4⟩
              rw [ordersOf_cons, List.mem_append]
              exact Or.inl ho2
            · refine ⟨o, ?_, huid, hid⟩
              rw [ordersOf_cons, List.mem_append]
              exact Or.inr h
        · rw [if_neg hful] at hrun
          simp at hrun
    · rw [if_neg hg] at hrun
      cases hrun
      refine {
        inc_uid := rfl, inc_id := rfl, inc_price := rfl, inc_type := rfl
        inc_rem_le := le_refl _
        inc_status := fun _ => rfl
        price_suffix := List.suffix_refl _
        levels_wf := hlv
        keys_nodup := hkn, keys_iff := hki
        okey_sublist := List.Sublist.refl _
        idm_sub := fun e he => he, idm_nodup := hidm
        idm_resolve := fun id u hm o ho huid hid => ⟨o, ho, huid, hid⟩
        exit_cross := ?_ }
      intro l hl hnf
      have hl2 : l = lv := by
        simp only [List.head?_cons, Option.mem_def, Option.some.injEq] at hl
        exact hl.symm
      subst hl2
      push_neg at hg
      rcases Nat.lt_or_ge inc.order_price l.limit_price with h | h
      · exact h
      · exact absurd (hg h) hnf

/-- Invariant preservation of the SELL-side matching loop (walking the buy
list); mirror image of `matchBuyLoop_wf`. -/
theorem matchSellLoop_wf {inc : Order} {levels : List Level} {keys : List Nat}
    {idm : List (Nat × Nat)} {buf : List Trade} {out : LoopOut}
    (hrun : matchSellLoop inc levels keys idm buf = .ok out)
    (hlv : ∀ lv ∈ levels, LevelWF .BUY lv)
    (hpn : (levels.map Level.limit_price).Nodup)
    (hkn : keys.Nodup)
    (hki : ∀ p, p ∈ keys ↔ p ∈ levels.map Level.limit_price)
    (hinc : inc.remaining_volume < U64)
    (hidm : (idm.map Prod.fst).Nodup) :
    LoopPost .BUY inc levels keys idm out := by
  induction levels generalizing inc keys idm buf out with
  | nil =>
    simp only [matchSellLoop] at hrun
    cases hrun
    exact {
      inc_uid := rfl, inc_id := rfl, inc_price := rfl, inc_type := rfl
      inc_rem_le := le_refl _
      inc_status := fun _ => rfl
      price_suffix := List.suffix_refl _
      levels_wf := hlv
      keys_nodup := hkn, keys_iff := hki
      okey_sublist := List.Sublist.refl _
      idm_sub := fun e he => he, idm_nodup := hidm
      idm_resolve := fun id u hm o ho huid hid => ⟨o, ho, huid, hid⟩
      exit_cross := by intro lv h; simp at h }
  | cons lv rest ih =>
    simp only [matchSellLoop] at hrun
    by_cases hg : inc.order_price ≤ lv.limit_price ∧ ¬ inc.is_fulfilled = true
    · rw [if_pos hg] at hrun
      obtain ⟨mal, hmal⟩ := match_against_level_isOk inc lv idm buf
      rw [hmal] at hrun
      simp only [] at hrun
      have hlv0 := hlv lv (List.mem_cons_self _ _)
      obtain ⟨hprice, postm, hiff⟩ := match_against_level_wf hmal hlv0 hinc hidm
      simp only [List.map_cons, List.nodup_cons] at hpn
      by_cases hle : mal.levelEmpty = true
      · rw [if_pos hle] at hrun
        have hdrained : mal.lv.fifo = [] := hiff.mp hle
        have hki2 : ∀ p, p ∈ keyErase mal.lv.limit_price keys ↔
            p ∈ rest.map Level.limit_price := by
          intro p
          rw [hprice, mem_keyErase hkn p, hki p, List.map_cons, List.mem_cons]
          constructor
          · rintro ⟨h1 | h1, h2⟩
            · exact absurd h1 h2
            · exact h1
          · intro h1
            exact ⟨Or.inr h1, fun hc => hpn.1 (hc ▸ h1)⟩
        have post := ih hrun (fun l hl => hlv l (List.mem_cons_of_mem _ hl)) hpn.2
          (keyErase_nodup hkn) hki2
          (lt_of_le_of_lt postm.inc_rem_le hinc) postm.idm_nodup
        refine {
          inc_uid := post.inc_uid.trans postm.inc_uid
          inc_id := post.inc_id.trans postm.inc_id
          inc_price := post.inc_price.trans postm.inc_price
          inc_type := post.inc_type.trans postm.inc_type
          inc_rem_le := le_trans post.inc_rem_le postm.inc_rem_le
          inc_status := ?_
          price_suffix := post.price_suffix.trans
            (by rw [List.map_cons]; exact List.suffix_cons _ _)
          levels_wf := post.levels_wf
          keys_nodup := post.keys_nodup
          keys_iff := post.keys_iff
          okey_sublist := ?_
          idm_sub := fun e he => postm.idm_sub e (post.idm_sub e he)
          idm_nodup := post.idm_nodup
          idm_resolve := ?_
          exit_cross := ?_ }
        · intro hne
          rw [post.inc_status hne]
          refine postm.inc_status ?_
          intro hc
          have h2 := post.inc_rem_le
          rw [hc] at h2
          exact hne (Nat.le_zero.mp h2)
        · refine post.okey_sublist.trans ?_
          rw [ordersOf_cons, List.map_append]
          exact (List.suffix_append _ _).sublist
        · intro id u hm o ho huid hid
          rw [ordersOf_cons, List.mem_append] at ho
          rcases ho with h | h
          · exfalso
            have h1 : (id, u) ∈ mal.idm := post.idm_sub _ hm
            obtain ⟨o2, ho2, -⟩ := postm.idm_resolve id u h1 o h huid hid
            rw [hdrained] at ho2
            simp at ho2
          · obtain ⟨o2, ho2, h3, h4⟩ := post.idm_resolve id u hm o h huid hid
            exact ⟨o2, ho2, h3, h4⟩
        · intro l hl hnf
          have := post.exit_cross l hl hnf
          rwa [postm.inc_price] at this
      · rw [if_neg hle] at hrun
        by_cases hful : mal.inc.is_fulfilled = true
        · rw [if_pos hful] at hrun
          cases hrun
          have hne : mal.lv.fifo ≠ [] := fun hc => hle (hiff.mpr hc)
          have hlvwf : LevelWF .BUY mal.lv := by
            have h1 := LevelWF_of_fifoPost hlv0 postm hne
            dsimp only at h1
            have h2 : mal.lv = Level.mk lv.limit_price mal.lv.order_number
                mal.lv.total_volume mal.lv.fifo := by
              rw [← hprice]
            rwa [← h2] at h1
          refine {
            inc_uid := postm.inc_uid
            inc_id := postm.inc_id
            inc_price := postm.inc_price
            inc_type := postm.inc_type
            inc_rem_le := postm.inc_rem_le
            inc_status := postm.inc_status
            price_suffix := by
              simp only [List.map_cons, hprice]
              exact List.suffix_refl _
            levels_wf := ?_
            keys_nodup := hkn
            keys_iff := by
              intro p
              rw [hki p]
              simp [hprice]
            okey_sublist := by
              rw [ordersOf_cons, ordersOf_cons, List.map_append, List.map_append]
              exact (postm.key_suffix.sublist).append_right _
            idm_sub := postm.idm_sub
            idm_nodup := postm.idm_nodup
            idm_resolve := ?_
            exit_cross := by
              intro l hl hnf
              exact absurd hful hnf }
          · intro l hl
            rcases List.mem_cons.mp hl with h | h
            · rw [h]; exact hlvwf
            · exact hlv l (List.mem_cons_of_mem _ h)
          · intro id u hm o ho huid hid
            rw [ordersOf_cons, List.mem_append] at ho
            rcases ho with h | h
            · obtain ⟨o2, ho2, h3, h4⟩ := postm.idm_resolve id u hm o h huid hid
              refine ⟨o2, ?_, h3, hid ▸ h4⟩
              rw [ordersOf_cons, List.mem_append]
              exact Or.inl ho2
            · refine ⟨o, ?_, huid, hid⟩
              rw [ordersOf_cons, List.mem_append]
              exact Or.inr h
        · rw [if_neg hful] at hrun
          simp at hrun
    · rw [if_neg hg] at hrun
      cases hrun
      refine {
        inc_uid := rfl, inc_id := rfl, inc_price := rfl, inc_type := rfl
        inc_rem_le := le_refl _
        inc_status := fun _ => rfl
        price_suffix := List.suffix_refl _
        levels_wf := hlv
        keys_nodup := hkn, keys_iff := hki
        okey_sublist := List.Sublist.refl _
        idm_sub := fun e he => he, idm_nodup := hidm
        idm_resolve := fun id u hm o ho huid hid => ⟨o, ho, huid, hid⟩
        exit_cross := ?_ }
      intro l hl hnf
      have hl2 : l = lv := by
        simp only [List.head?_cons, Option.mem_def, Option.some.injEq] at hl
        exact hl.symm
      subst hl2
      push_neg at hg
      rcases Nat.lt_or_ge l.limit_price inc.order_price with h | h
      · exact h
      · exact absurd (hg h) hnf

/-! ## Level-list surgery lemmas -/

/-- Decomposition of a level list at the first level carrying price `p`,
describing `findLevelByPrice`, `updateLevelByPrice` and
`removeLevelByPrice` at once. -/
theorem levelSplit {p : Nat} {ls : List Level} (h : p ∈ ls.map Level.limit_price) :
    ∃ l1 l0 l2, ls = l1 ++ l0 :: l2 ∧ l0.limit_price = p ∧
      (∀ x ∈ l1, x.limit_price ≠ p) ∧
      findLevelByPrice p ls = some l0 ∧
      (∀ f, updateLevelByPrice p f ls = l1 ++ f l0 :: l2) ∧
      removeLevelByPrice p ls = l1 ++ l2 := by
  induction ls with
  | nil => simp at h
  | cons lv rest ih =>
    by_cases hp : lv.limit_price = p
    · refine ⟨[], lv, rest, by simp, hp, by simp, ?_, ?_, ?_⟩
      · simp [findLevelByPrice, hp]
      · intro f; simp [updateLevelByPrice, hp]
      · simp [removeLevelByPrice, hp]
    · have h2 : p ∈ rest.map Level.limit_price := by
        simp only [List.map_cons, List.mem_cons] at h
        rcases h with h1 | h1
        · exact absurd h1.symm hp
        · exact h1
      obtain ⟨l1, l0, l2, he, hl0, hl1, hfind, hupd, hrem⟩ := ih h2
      refine ⟨lv :: l1, l0, l2, by simp [he], hl0, ?_, ?_, ?_, ?_⟩
      · intro x hx
        rcases List.mem_cons.mp hx with h1 | h1
        · rw [h1]; exact hp
        · exact hl1 x h1
      · simp [findLevelByPrice, hp, hfind]
      · intro f
        simp [updateLevelByPrice, hp, hupd f]
      · simp [removeLevelByPrice, hp, hrem]

/-- When no level carries price `p`, the surgery operations are no-ops. -/
theorem levelSplit_none {p : Nat} {ls : List Level}
    (h : p ∉ ls.map Level.limit_price) :
    findLevelByPrice p ls = none ∧
    (∀ f, updateLevelByPrice p f ls = ls) ∧
    removeLevelByPrice p ls = ls := by
  induction ls with
  | nil => exact ⟨rfl, fun f => rfl, rfl⟩
  | cons lv rest ih =>
    simp only [List.map_cons, List.mem_cons] at h
    push_neg at h
    obtain ⟨hfind, hupd, hrem⟩ := ih h.2
    have hne : ¬ lv.limit_price = p := fun hc => h.1 hc.symm
    refine ⟨?_, ?_, ?_⟩
    · simp [findLevelByPrice, hne, hfind]
    · intro f
      simp [updateLevelByPrice, hne, hupd f]
    · simp [removeLevelByPrice, hne, hrem]

/-- The walk of the buy-side sorted insertion keeps `cur` in front. -/
theorem insertAfterBuy_cons (lv cur : Level) (t : List Level) :
    ∃ t2, insertAfterBuy lv cur t = cur :: t2 := by
  cases t with
  | nil => exact ⟨[lv], rfl⟩
  | cons n t' =>
    simp only [insertAfterBuy]
    split
    · exact ⟨_, rfl⟩
    · exact ⟨_, rfl⟩

theorem insertAfterSell_cons (lv cur : Level) (t : List Level) :
    ∃ t2, insertAfterSell lv cur t = cur :: t2 := by
  cases t with
  | nil => exact ⟨[lv], rfl⟩
  | cons n t' =>
    simp only [insertAfterSell]
    split
    · exact ⟨_, rfl⟩
    · exact ⟨_, rfl⟩

/-- Correctness of the buy-side insertion walk on a strictly descending
list headed by `cur`, for a fresh price below `cur`'s. -/
theorem insertAfterBuy_spec {lv cur : Level} {t : List Level}
    (hlt : lv.limit_price < cur.limit_price)
    (hsort : (cur :: t).Pairwise (fun x y => y.limit_price < x.limit_price))
    (hfresh : lv.limit_price ∉ (cur :: t).map Level.limit_price) :
    (insertAfterBuy lv cur t).Pairwise (fun x y => y.limit_price < x.limit_price) ∧
    List.Perm (insertAfterBuy lv cur t) (lv :: cur :: t) := by
  induction t generalizing cur with
  | nil =>
    refine ⟨?_, List.Perm.swap _ _ _⟩
    simp [insertAfterBuy, hlt]
  | cons n t' ih =>
    simp only [List.map_cons, List.mem_cons, not_or] at hfresh
    obtain ⟨hcur, hsort'⟩ := List.pairwise_cons.mp hsort
    by_cases hn : n.limit_price > lv.limit_price
    · simp only [insertAfterBuy, if_pos hn]
      have hfresh' : lv.limit_price ∉ (n :: t').map Level.limit_price := by
        simp only [List.map_cons, List.mem_cons, not_or]
        exact ⟨hfresh.2.1, hfresh.2.2⟩
      obtain ⟨hs, hperm⟩ := ih hn hsort' hfresh'
      constructor
      · rw [List.pairwise_cons]
        refine ⟨?_, hs⟩
        intro x hx
        have hx2 : x ∈ lv :: n :: t' := hperm.subset hx
        rcases List.mem_cons.mp hx2 with h1 | h1
        · rw [h1]; exact hlt
        · exact hcur x h1
      · exact (hperm.cons cur).trans (List.Perm.swap lv cur (n :: t'))
    · simp only [insertAfterBuy, if_neg hn]
      push_neg at hn
      have hn2 : n.limit_price < lv.limit_price := by
        rcases Nat.lt_or_ge n.limit_price lv.limit_price with h | h
        · exact h
        · exact absurd (Nat.le_antisymm hn h).symm hfresh.2.1
      have hnall : ∀ a ∈ t', a.limit_price < n.limit_price :=
        (List.pairwise_cons.mp hsort').1
      constructor
      · rw [List.pairwise_cons, List.pairwise_cons]
        refine ⟨?_, ?_, hsort'⟩
        · intro x hx
          rcases List.mem_cons.mp hx with h1 | h1
          · rw [h1]; exact hlt
          · exact hcur x h1
        · intro x hx
          rcases List.mem_cons.mp hx with h1 | h1
          · rw [h1]; exact hn2
          · exact lt_trans (hnall x h1) hn2
      · exact List.Perm.swap _ _ _

/-- Correctness of the sell-side insertion walk on a strictly ascending
list headed by `cur`, for a fresh price above `cur`'s. -/
theorem insertAfterSell_spec {lv cur : Level} {t : List Level}
    (hlt : cur.limit_price < lv.limit_price)
    (hsort : (cur :: t).Pairwise (fun x y => x.limit_price < y.limit_price))
    (hfresh : lv.limit_price ∉ (cur :: t).map Level.limit_price) :
    (insertAfterSell lv cur t).Pairwise (fun x y => x.limit_price < y.limit_price) ∧
    List.Perm (insertAfterSell lv cur t) (lv :: cur :: t) := by
  induction t generalizing cur with
  | nil =>
    refine ⟨?_, List.Perm.swap _ _ _⟩
    simp [insertAfterSell, hlt]
  | cons n t' ih =>
    simp only [List.map_cons, List.mem_cons, not_or] at hfresh
    obtain ⟨hcur, hsort'⟩ := List.pairwise_cons.mp hsort
    by_cases hn : n.limit_price < lv.limit_price
    · simp only [insertAfterSell, if_pos hn]
      have hfresh' : lv.limit_price ∉ (n :: t').map Level.limit_price := by
        simp only [List.map_cons, List.mem_cons, not_or]
        exact ⟨hfresh.2.1, hfresh.2.2⟩
      obtain ⟨hs, hperm⟩ := ih hn hsort' hfresh'
      constructor
      · rw [List.pairwise_cons]
        refine ⟨?_, hs⟩
        intro x hx
        have hx2 : x ∈ lv :: n :: t' := hperm.subset hx
        rcases List.mem_cons.mp hx2 with h1 | h1
        · rw [h1]; exact hlt
        · exact hcur x h1
      · exact (hperm.cons cur).trans (List.Perm.swap lv cur (n :: t'))
    · simp only [insertAfterSell, if_neg hn]
      push_neg at hn
      have hn2 : lv.limit_price < n.limit_price := by
        rcases Nat.lt_or_ge lv.limit_price n.limit_price with h | h
        · exact h
        · exact absurd (Nat.le_antisymm hn h) hfresh.2.1
      have hnall : ∀ a ∈ t', n.limit_price < a.limit_price :=
        (List.pairwise_cons.mp hsort').1
      constructor
      · rw [List.pairwise_cons, List.pairwise_cons]
        refine ⟨?_, ?_, hsort'⟩
        · intro x hx
          rcases List.mem_cons.mp hx with h1 | h1
          · rw [h1]; exact hlt
          · exact hcur x h1
        · intro x hx
          rcases List.mem_cons.mp hx with h1 | h1
          · rw [h1]; exact hn2
          · exact lt_trans hn2 (hnall x h1)
      · exact List.Perm.swap _ _ _

/-- Correctness of `insert_level_sorted_buy` on a strictly descending list
for a fresh price: sortedness is preserved, the resulting list is the old
one plus the new level, and the head is either the new level or the old
head. -/
theorem insert_level_sorted_buy_spec {lv : Level} {ls : List Level}
    (hsort : ls.Pairwise (fun x y => y.limit_price < x.limit_price))
    (hfresh : lv.limit_price ∉ ls.map Level.limit_price) :
    (insert_level_sorted_buy lv ls).Pairwise
      (fun x y => y.limit_price < x.limit_price) ∧
    List.Perm (insert_level_sorted_buy lv ls) (lv :: ls) ∧
    ((insert_level_sorted_buy lv ls).head? = some lv ∨
      (insert_level_sorted_buy lv ls).head? = ls.head?) := by
  cases ls with
  | nil => exact ⟨by simp [insert_level_sorted_buy], by simp [insert_level_sorted_buy],
      Or.inl rfl⟩
  | cons h t =>
    simp only [List.map_cons, List.mem_cons, not_or] at hfresh
    by_cases hgt : lv.limit_price > h.limit_price
    · simp only [insert_level_sorted_buy, if_pos hgt]
      refine ⟨?_, List.Perm.refl _, Or.inl rfl⟩
      rw [List.pairwise_cons]
      refine ⟨?_, hsort⟩
      intro x hx
      rcases List.mem_cons.mp hx with h1 | h1
      · rw [h1]; exact hgt
      · exact lt_trans ((List.pairwise_cons.mp hsort).1 x h1) hgt
    · simp only [insert_level_sorted_buy, if_neg hgt]
      push_neg at hgt
      have hlt : lv.limit_price < h.limit_price :=
        lt_of_le_of_ne hgt (fun hc => hfresh.1 hc)
      obtain ⟨hs, hperm⟩ := insertAfterBuy_spec hlt hsort
        (by simp only [List.map_cons, List.mem_cons, not_or]; exact hfresh)
      obtain ⟨t2, ht2⟩ := insertAfterBuy_cons lv h t
      exact ⟨hs, hperm, Or.inr (by rw [ht2]; rfl)⟩

/-- Correctness of `insert_level_sorted_sell`; mirror image of
`insert_level_sorted_buy_spec`. -/
theorem insert_level_sorted_sell_spec {lv : Level} {ls : List Level}
    (hsort : ls.Pairwise (fun x y => x.limit_price < y.limit_price))
    (hfresh : lv.limit_price ∉ ls.map Level.limit_price) :
    (insert_level_sorted_sell lv ls).Pairwise
      (fun x y => x.limit_price < y.limit_price) ∧
    List.Perm (insert_level_sorted_sell lv ls) (lv :: ls) ∧
    ((insert_level_sorted_sell lv ls).head? = some lv ∨
      (insert_level_sorted_sell lv ls).head? = ls.head?) := by
  cases ls with
  | nil => exact ⟨by simp [insert_level_sorted_sell], by simp [insert_level_sorted_sell],
      Or.inl rfl⟩
  | cons h t =>
    simp only [List.map_cons, List.mem_cons, not_or] at hfresh
    by_cases hgt : lv.limit_price < h.limit_price
    · simp only [insert_level_sorted_sell, if_pos hgt]
      refine ⟨?_, List.Perm.refl _, Or.inl rfl⟩
      rw [List.pairwise_cons]
      refine ⟨?_, hsort⟩
      intro x hx
      rcases List.mem_cons.mp hx with h1 | h1
      · rw [h1]; exact hgt
      · exact lt_trans hgt ((List.pairwise_cons.mp hsort).1 x h1)
    · simp only [insert_level_sorted_sell, if_neg hgt]
      push_neg at hgt
      have hlt : h.limit_price < lv.limit_price :=
        lt_of_le_of_ne hgt (fun hc => hfresh.1 hc.symm)
      obtain ⟨hs, hperm⟩ := insertAfterSell_spec hlt hsort
        (by simp only [List.map_cons, List.mem_cons, not_or]; exact hfresh)
      obtain ⟨t2, ht2⟩ := insertAfterSell_cons lv h t
      exact ⟨hs, hperm, Or.inr (by rw [ht2]; rfl)⟩

/-! ## assocSet and push_back lemmas -/

theorem mem_fst_assocSet {k v a : Nat} {m : List (Nat × Nat)} :
    a ∈ (assocSet k v m).map Prod.fst ↔ a = k ∨ a ∈ m.map Prod.fst := by
  induction m with
  | nil => simp [assocSet]
  | cons e t ih =>
    obtain ⟨k', v'⟩ := e
    simp only [assocSet]
    split
    · rename_i hk
      subst hk
      simp
    · simp only [List.map_cons, List.mem_cons, ih]
      tauto

theorem assocSet_fst_nodup {k v : Nat} {m : List (Nat × Nat)}
    (hnd : (m.map Prod.fst).Nodup) : ((assocSet k v m).map Prod.fst).Nodup := by
  induction m with
  | nil => simp [assocSet]
  | cons e t ih =>
    obtain ⟨k', v'⟩ := e
    simp only [List.map_cons, List.nodup_cons] at hnd
    simp only [assocSet]
    split
    · rename_i hk
      subst hk
      simp only [List.map_cons, List.nodup_cons]
      exact hnd
    · rename_i hk
      simp only [List.map_cons, List.nodup_cons]
      refine ⟨?_, ih hnd.2⟩
      rw [mem_fst_assocSet]
      rintro (h | h)
      · exact hk h
      · exact hnd.1 h

theorem mem_assocSet {k v : Nat} {m : List (Nat × Nat)}
    (hnd : (m.map Prod.fst).Nodup) (a b : Nat) :
    (a, b) ∈ assocSet k v m ↔ (a = k ∧ b = v) ∨ ((a, b) ∈ m ∧ a ≠ k) := by
  induction m with
  | nil => simp [assocSet]
  | cons e t ih =>
    obtain ⟨k', v'⟩ := e
    simp only [List.map_cons, List.nodup_cons] at hnd
    simp only [assocSet]
    split
    · rename_i hk
      constructor
      · intro h
        rcases List.mem_cons.mp h with h1 | h1
        · simp only [Prod.mk.injEq] at h1
          exact Or.inl h1
        · refine Or.inr ⟨List.mem_cons_of_mem _ h1, ?_⟩
          intro hc
          apply hnd.1
          rw [hk, ← hc]
          exact List.mem_map_of_mem Prod.fst h1
      · intro h
        rcases h with ⟨h1, h2⟩ | ⟨h1, h2⟩
        · rw [h1, h2]
          exact List.mem_cons_self _ _
        · rcases List.mem_cons.mp h1 with h3 | h3
          · simp only [Prod.mk.injEq] at h3
            exact absurd (h3.1.trans hk) h2
          · exact List.mem_cons_of_mem _ h3
    · rename_i hk
      constructor
      · intro h
        rcases List.mem_cons.mp h with h1 | h1
        · simp only [Prod.mk.injEq] at h1
          refine Or.inr ⟨?_, ?_⟩
          · rw [h1.1, h1.2]
            exact List.mem_cons_self _ _
          · rw [h1.1]
            exact fun hc => hk hc
        · rcases (ih hnd.2).mp h1 with ⟨h2, h3⟩ | ⟨h2, h3⟩
          · exact Or.inl ⟨h2, h3⟩
          · exact Or.inr ⟨List.mem_cons_of_mem _ h2, h3⟩
      · intro h
        rcases h with ⟨h1, h2⟩ | ⟨h1, h2⟩
        · exact List.mem_cons_of_mem _ ((ih hnd.2).mpr (Or.inl ⟨h1, h2⟩))
        · rcases List.mem_cons.mp h1 with h3 | h3
          · rw [h3]
            exact List.mem_cons_self _ _
          · exact List.mem_cons_of_mem _ ((ih hnd.2).mpr (Or.inr ⟨h3, h2⟩))

theorem Level.push_back_price (o : Order) (lv : Level) :
    (Level.push_back o lv).limit_price = lv.limit_price := rfl

/-- `push_back` preserves the per-level invariant when pushing a
well-formed order of the level's price and side. -/
theorem LevelWF_push_back {s : OrderType} {lv : Level} {o : Order}
    (hwf : LevelWF s lv)
    (hact : o.order_status = .ACTIVE) (hpos : 0 < o.remaining_volume)
    (hlt : o.remaining_volume < U64) (hp : o.order_price = lv.limit_price)
    (hty : o.order_type = s) :
    LevelWF s (Level.push_back o lv) := by
  obtain ⟨hne, hcount, htotal, hp0, hpU, horders⟩ := hwf
  refine ⟨by simp [Level.push_back], ?_, ?_, hp0, hpU, ?_⟩
  · simp [Level.push_back, hcount]
  · show u64add lv.total_volume o.remaining_volume =
      ((lv.fifo ++ [o]).map Order.remaining_volume).sum % U64
    rw [htotal, u64add_mod_left]
    simp
  · intro x hx
    rcases List.mem_append.mp hx with h | h
    · exact horders x h
    · rcases List.mem_singleton.mp h with h1
      rw [h1]
      exact ⟨hact, hpos, hlt, hp, hty⟩

/-- The level freshly created by `get_or_create_level` and filled with one
order is well-formed. -/
theorem LevelWF_singleton {s : OrderType} {o : Order}
    (hact : o.order_status = .ACTIVE) (hpos : 0 < o.remaining_volume)
    (hlt : o.remaining_volume < U64) (hp0 : 0 < o.order_price)
    (hpU : o.order_price < U32) (hty : o.order_type = s) :
    LevelWF s (Level.push_back o ⟨o.order_price, 0, 0, []⟩) := by
  refine ⟨by simp [Level.push_back], by simp [Level.push_back], ?_, hp0, hpU, ?_⟩
  · show u64add 0 o.remaining_volume = ([o].map Order.remaining_volume).sum % U64
    simp [u64add]
  · intro x hx
    simp only [Level.push_back, List.nil_append, List.mem_singleton] at hx
    rw [hx]
    exact ⟨hact, hpos, hlt, rfl, hty⟩

/-- Pairwise comparison of levels by price transfers to the price list. -/
theorem pairwise_price_iff {r : Nat → Nat → Prop} {ls : List Level} :
    ls.Pairwise (fun x y => r x.limit_price y.limit_price) ↔
      (ls.map Level.limit_price).Pairwise r := (List.pairwise_map).symm

/-- Branch-level unfolding of `insert_resting_order` for a BUY order. -/
theorem Book.insert_resting_order_buy_def (b : Book) (o : Order)
    (hty : o.order_type = .BUY) :
    Book.insert_resting_order o b =
      if b.buy_map_keys.contains o.order_price then
        { b with buy_levels := updateLevelByPrice o.order_price (Level.push_back o)
                   b.buy_levels
                 id_to_order := assocSet o.order_id o.uid b.id_to_order }
      else
        { b with buy_levels := insert_level_sorted_buy
                   (Level.push_back o ⟨o.order_price, 0, 0, []⟩) b.buy_levels
                 buy_map_keys := o.order_price :: b.buy_map_keys
                 id_to_order := assocSet o.order_id o.uid b.id_to_order } := by
  unfold Book.insert_resting_order
  rw [hty]

/-- Branch-level unfolding of `insert_resting_order` for a SELL order. -/
theorem Book.insert_resting_order_sell_def (b : Book) (o : Order)
    (hty : o.order_type = .SELL) :
    Book.insert_resting_order o b =
      if b.sell_map_keys.contains o.order_price then
        { b with sell_levels := updateLevelByPrice o.order_price (Level.push_back o)
                   b.sell_levels
                 id_to_order := assocSet o.order_id o.uid b.id_to_order }
      else
        { b with sell_levels := insert_level_sorted_sell
                   (Level.push_back o ⟨o.order_price, 0, 0, []⟩) b.sell_levels
                 sell_map_keys := o.order_price :: b.sell_map_keys
                 id_to_order := assocSet o.order_id o.uid b.id_to_order } := by
  unfold Book.insert_resting_order
  rw [hty]

/-- State of the book after resting a well-formed BUY order: the buy side
stays well formed, gains exactly the new order, and its best price is the
new order's price or the previous best; nothing else changes except the id
map entry. -/
theorem insert_resting_order_buy_wf {b : Book} {o : Order}
    (hside : SideWF .BUY b.buy_map_keys b.buy_levels)
    (hact : o.order_status = .ACTIVE) (hpos : 0 < o.remaining_volume)
    (hltU : o.remaining_volume < U64) (hp0 : 0 < o.order_price)
    (hpU : o.order_price < U32) (hty : o.order_type = .BUY) :
    SideWF .BUY (Book.insert_resting_order o b).buy_map_keys
      (Book.insert_resting_order o b).buy_levels ∧
    List.Perm (ordersOf (Book.insert_resting_order o b).buy_levels)
      (o :: ordersOf b.buy_levels) ∧
    (∀ q ∈ ((Book.insert_resting_order o b).buy_levels.map Level.limit_price).head?,
      q = o.order_price ∨ q ∈ (b.buy_levels.map Level.limit_price).head?) ∧
    (Book.insert_resting_order o b).sell_levels = b.sell_levels ∧
    (Book.insert_resting_order o b).sell_map_keys = b.sell_map_keys ∧
    (Book.insert_resting_order o b).id_to_order =
      assocSet o.order_id o.uid b.id_to_order ∧
    (Book.insert_resting_order o b).next_uid = b.next_uid := by
  obtain ⟨hsort, hlv, hkn, hki⟩ := hside
  rw [Book.insert_resting_order_buy_def b o hty]
  by_cases hc : b.buy_map_keys.contains o.order_price = true
  · rw [if_pos hc]
    have hmem : o.order_price ∈ b.buy_map_keys := by simpa using hc
    have hmemp : o.order_price ∈ b.buy_levels.map Level.limit_price := (hki _).mp hmem
    obtain ⟨l1, l0, l2, hsplit, hl0p, hl1ne, hfind, hupd, hrem⟩ := levelSplit hmemp
    have hupd2 : updateLevelByPrice o.order_price (Level.push_back o) b.buy_levels
        = l1 ++ Level.push_back o l0 :: l2 := hupd _
    have hmap : (l1 ++ Level.push_back o l0 :: l2).map Level.limit_price
        = b.buy_levels.map Level.limit_price := by
      rw [hsplit]
      simp [Level.push_back_price]
    refine ⟨⟨?_, ?_, hkn, ?_⟩, ?_, ?_, rfl, rfl, rfl, rfl⟩
    · rw [pairwise_price_iff]
      dsimp only
      rw [hupd2, hmap]
      exact pairwise_price_iff.mp hsort
    · intro l' hl'
      dsimp only at hl'
      rw [hupd2] at hl'
      rcases List.mem_append.mp hl' with h | h
      · exact hlv l' (by rw [hsplit]; exact List.mem_append_left _ h)
      · rcases List.mem_cons.mp h with h1 | h1
        · rw [h1]
          exact LevelWF_push_back
            (hlv l0 (by rw [hsplit]; exact List.mem_append_right _ (List.mem_cons_self _ _)))
            hact hpos hltU hl0p.symm hty
        · exact hlv l' (by rw [hsplit]; exact List.mem_append_right _ (List.mem_cons_of_mem _ h1))
    · intro p
      dsimp only
      rw [hupd2, hmap]
      exact hki p
    · dsimp only
      rw [hupd2, hsplit, ordersOf_append, ordersOf_append, ordersOf_cons, ordersOf_cons]
      have hfifo : (Level.push_back o l0).fifo = l0.fifo ++ [o] := rfl
      rw [hfifo]
      have h2 : ordersOf l1 ++ (l0.fifo ++ [o] ++ ordersOf l2)
          = (ordersOf l1 ++ l0.fifo) ++ o :: ordersOf l2 := by
        simp
      have h3 : o :: (ordersOf l1 ++ (l0.fifo ++ ordersOf l2))
          = o :: ((ordersOf l1 ++ l0.fifo) ++ ordersOf l2) := by
        simp
      rw [h2, h3]
      exact List.perm_middle
    · intro q hq
      dsimp only at hq
      rw [hupd2, hmap] at hq
      exact Or.inr hq
  · rw [if_neg hc]
    have hmem : o.order_price ∉ b.buy_map_keys := by
      intro hx
      exact hc (by simpa using hx)
    have hfreshp : o.order_price ∉ b.buy_levels.map Level.limit_price :=
      fun hx => hmem ((hki _).mpr hx)
    have hnp : (Level.push_back o ⟨o.order_price, 0, 0, []⟩).limit_price = o.order_price := rfl
    obtain ⟨hs, hperm, hhead⟩ := insert_level_sorted_buy_spec hsort (by rw [hnp]; exact hfreshp)
    refine ⟨⟨hs, ?_, ?_, ?_⟩, ?_, ?_, rfl, rfl, rfl, rfl⟩
    · intro l' hl'
      dsimp only at hl'
      rcases List.mem_cons.mp (hperm.subset hl') with h | h
      · rw [h]
        exact LevelWF_singleton hact hpos hltU hp0 hpU hty
      · exact hlv l' h
    · dsimp only
      simp only [List.nodup_cons]
      exact ⟨hmem, hkn⟩
    · intro p
      dsimp only
      have hpm : List.Perm ((insert_level_sorted_buy
          (Level.push_back o ⟨o.order_price, 0, 0, []⟩) b.buy_levels).map Level.limit_price)
          (o.order_price :: b.buy_levels.map Level.limit_price) := by
        have := hperm.map Level.limit_price
        simpa [hnp] using this
      rw [List.mem_cons, hki p, ← List.mem_cons]
      exact ⟨fun h => hpm.mem_iff.mpr (by simpa using h),
        fun h => by simpa using hpm.mem_iff.mp (by simpa using h)⟩
    · dsimp only
      have h1 : List.Perm (ordersOf (insert_level_sorted_buy
          (Level.push_back o ⟨o.order_price, 0, 0, []⟩) b.buy_levels))
          (ordersOf ((Level.push_back o ⟨o.order_price, 0, 0, []⟩) :: b.buy_levels)) := by
        exact ((hperm.map Level.fifo).flatten)
      refine h1.trans ?_
      rw [ordersOf_cons]
      exact List.Perm.refl _
    · intro q hq
      dsimp only at hq
      rcases hhead with h | h
      · rw [List.head?_map, h] at hq
        simp at hq
        exact Or.inl hq.symm
      · rw [List.head?_map, h, ← List.head?_map] at hq
        exact Or.inr hq

/-- State of the book after resting a well-formed SELL order; mirror image
of `insert_resting_order_buy_wf`. -/
theorem insert_resting_order_sell_wf {b : Book} {o : Order}
    (hside : SideWF .SELL b.sell_map_keys b.sell_levels)
    (hact : o.order_status = .ACTIVE) (hpos : 0 < o.remaining_volume)
    (hltU : o.remaining_volume < U64) (hp0 : 0 < o.order_price)
    (hpU : o.order_price < U32) (hty : o.order_type = .SELL) :
    SideWF .SELL (Book.insert_resting_order o b).sell_map_keys
      (Book.insert_resting_order o b).sell_levels ∧
    List.Perm (ordersOf (Book.insert_resting_order o b).sell_levels)
      (o :: ordersOf b.sell_levels) ∧
    (∀ q ∈ ((Book.insert_resting_order o b).sell_levels.map Level.limit_price).head?,
      q = o.order_price ∨ q ∈ (b.sell_levels.map Level.limit_price).head?) ∧
    (Book.insert_resting_order o b).buy_levels = b.buy_levels ∧
    (Book.insert_resting_order o b).buy_map_keys = b.buy_map_keys ∧
    (Book.insert_resting_order o b).id_to_order =
      assocSet o.order_id o.uid b.id_to_order ∧
    (Book.insert_resting_order o b).next_uid = b.next_uid := by
  obtain ⟨hsort, hlv, hkn, hki⟩ := hside
  rw [Book.insert_resting_order_sell_def b o hty]
  by_cases hc : b.sell_map_keys.contains o.order_price = true
  · rw [if_pos hc]
    have hmem : o.order_price ∈ b.sell_map_keys := by simpa using hc
    have hmemp : o.order_price ∈ b.sell_levels.map Level.limit_price := (hki _).mp hmem
    obtain ⟨l1, l0, l2, hsplit, hl0p, hl1ne, hfind, hupd, hrem⟩ := levelSplit hmemp
    have hupd2 : updateLevelByPrice o.order_price (Level.push_back o) b.sell_levels
        = l1 ++ Level.push_back o l0 :: l2 := hupd _
    have hmap : (l1 ++ Level.push_back o l0 :: l2).map Level.limit_price
        = b.sell_levels.map Level.limit_price := by
      rw [hsplit]
      simp [Level.push_back_price]
    refine ⟨⟨?_, ?_, hkn, ?_⟩, ?_, ?_, rfl, rfl, rfl, rfl⟩
    · rw [pairwise_price_iff]
      dsimp only
      rw [hupd2, hmap]
      exact pairwise_price_iff.mp hsort
    · intro l' hl'
      dsimp only at hl'
      rw [hupd2] at hl'
      rcases List.mem_append.mp hl' with h | h
      · exact hlv l' (by rw [hsplit]; exact List.mem_append_left _ h)
      · rcases List.mem_cons.mp h with h1 | h1
        · rw [h1]
          exact LevelWF_push_back
            (hlv l0 (by rw [hsplit]; exact List.mem_append_right _ (List.mem_cons_self _ _)))
            hact hpos hltU hl0p.symm hty
        · exact hlv l' (by rw [hsplit]; exact List.mem_append_right _ (List.mem_cons_of_mem _ h1))
    · intro p
      dsimp only
      rw [hupd2, hmap]
      exact hki p
    · dsimp only
      rw [hupd2, hsplit, ordersOf_append, ordersOf_append, ordersOf_cons, ordersOf_cons]
      have hfifo : (Level.push_back o l0).fifo = l0.fifo ++ [o] := rfl
      rw [hfifo]
      have h2 : ordersOf l1 ++ (l0.fifo ++ [o] ++ ordersOf l2)
          = (ordersOf l1 ++ l0.fifo) ++ o :: ordersOf l2 := by
        simp
      have h3 : o :: (ordersOf l1 ++ (l0.fifo ++ ordersOf l2))
          = o :: ((ordersOf l1 ++ l0.fifo) ++ ordersOf l2) := by
        simp
      rw [h2, h3]
      exact List.perm_middle
    · intro q hq
      dsimp only at hq
      rw [hupd2, hmap] at hq
      exact Or.inr hq
  · rw [if_neg hc]
    have hmem : o.order_price ∉ b.sell_map_keys := by
      intro hx
      exact hc (by simpa using hx)
    have hfreshp : o.order_price ∉ b.sell_levels.map Level.limit_price :=
      fun hx => hmem ((hki _).mpr hx)
    have hnp : (Level.push_back o ⟨o.order_price, 0, 0, []⟩).limit_price = o.order_price := rfl
    obtain ⟨hs, hperm, hhead⟩ := insert_level_sorted_sell_spec hsort (by rw [hnp]; exact hfreshp)
    refine ⟨⟨hs, ?_, ?_, ?_⟩, ?_, ?_, rfl, rfl, rfl, rfl⟩
    · intro l' hl'
      dsimp only at hl'
      rcases List.mem_cons.mp (hperm.subset hl') with h | h
      · rw [h]
        exact LevelWF_singleton hact hpos hltU hp0 hpU hty
      · exact hlv l' h
    · dsimp only
      simp only [List.nodup_cons]
      exact ⟨hmem, hkn⟩
    · intro p
      dsimp only
      have hpm : List.Perm ((insert_level_sorted_sell
          (Level.push_back o ⟨o.order_price, 0, 0, []⟩) b.sell_levels).map Level.limit_price)
          (o.order_price :: b.sell_levels.map Level.limit_price) := by
        have := hperm.map Level.limit_price
        simpa [hnp] using this
      rw [List.mem_cons, hki p, ← List.mem_cons]
      exact ⟨fun h => hpm.mem_iff.mpr (by simpa using h),
        fun h => by simpa using hpm.mem_iff.mp (by simpa using h)⟩
    · dsimp only
      have h1 : List.Perm (ordersOf (insert_level_sorted_sell
          (Level.push_back o ⟨o.order_price, 0, 0, []⟩) b.sell_levels))
          (ordersOf ((Level.push_back o ⟨o.order_price, 0, 0, []⟩) :: b.sell_levels)) := by
        exact ((hperm.map Level.fifo).flatten)
      refine h1.trans ?_
      rw [ordersOf_cons]
      exact List.Perm.refl _
    · intro q hq
      dsimp only at hq
      rcases hhead with h | h
      · rw [List.head?_map, h] at hq
        simp at hq
        exact Or.inl hq.symm
      · rw [List.head?_map, h, ← List.head?_map] at hq
        exact Or.inr hq

/-! ## Delete-path lemmas -/

/-- Sorted sides carry pairwise-distinct prices. -/
theorem nodup_of_sorted {s : OrderType} {ls : List Level}
    (hsort : ls.Pairwise (fun x y => priceOrd s x.limit_price y.limit_price)) :
    (ls.map Level.limit_price).Nodup := by
  have h2 : (ls.map Level.limit_price).Pairwise (fun a b => a ≠ b) := by
    rw [List.pairwise_map]
    refine hsort.imp ?_
    intro a b h
    cases s with
    | BUY => exact Nat.ne_of_gt h
    | SELL => exact Nat.ne_of_lt h
  exact h2

/-- Decomposition of a FIFO queue at the first order carrying pool identity
`u`, describing `eraseUid`. -/
theorem fifoSplit {u : Nat} {fifo : List Order} (h : u ∈ fifo.map Order.uid) :
    ∃ f1 o0 f2, fifo = f1 ++ o0 :: f2 ∧ o0.uid = u ∧ (∀ x ∈ f1, x.uid ≠ u) ∧
      eraseUid u fifo = f1 ++ f2 := by
  induction fifo with
  | nil => simp at h
  | cons r rest ih =>
    by_cases hr : r.uid = u
    · exact ⟨[], r, rest, by simp, hr, by simp, by simp [eraseUid, hr]⟩
    · have h2 : u ∈ rest.map Order.uid := by
        simp only [List.map_cons, List.mem_cons] at h
        rcases h with h1 | h1
        · exact absurd h1.symm hr
        · exact h1
      obtain ⟨f1, o0, f2, he, ho0, hf1, herase⟩ := ih h2
      refine ⟨r :: f1, o0, f2, by simp [he], ho0, ?_, by simp [eraseUid, hr, herase]⟩
      intro x hx
      rcases List.mem_cons.mp hx with h1 | h1
      · rw [h1]; exact hr
      · exact hf1 x h1

/-- `findOrderInLevels` returns an order of the requested identity resting
in one of the levels. -/
theorem findOrderInLevels_some {u : Nat} {ls : List Level} {o : Order}
    (h : findOrderInLevels u ls = some o) :
    o.uid = u ∧ ∃ lv ∈ ls, o ∈ lv.fifo := by
  induction ls with
  | nil => simp [findOrderInLevels] at h
  | cons lv rest ih =>
    simp only [findOrderInLevels] at h
    rcases hf : lv.fifo.find? (fun x => x.uid = u) with _ | o2
    · rw [hf] at h
      obtain ⟨h1, lv2, h2, h3⟩ := ih h
      exact ⟨h1, lv2, List.mem_cons_of_mem _ h2, h3⟩
    · rw [hf] at h
      cases h
      have h1 := List.find?_some hf
      have h2 := List.mem_of_find?_eq_some hf
      simp at h1
      exact ⟨h1, lv, List.mem_cons_self _ _, h2⟩

/-- The search by identity succeeds whenever an order with that identity
rests in the levels. -/
theorem findOrderInLevels_mem {u : Nat} {ls : List Level}
    (h : u ∈ (ordersOf ls).map Order.uid) :
    ∃ o, findOrderInLevels u ls = some o := by
  induction ls with
  | nil => simp [ordersOf] at h
  | cons lv rest ih =>
    rw [ordersOf_cons, List.map_append] at h
    simp only [findOrderInLevels]
    rcases hf : lv.fifo.find? (fun x => x.uid = u) with _ | o2
    · rcases List.mem_append.mp h with h1 | h1
      · exfalso
        obtain ⟨o3, ho3, ho3u⟩ := List.mem_map.mp h1
        have := List.find?_eq_none.mp hf o3 ho3
        simp at this
        exact this ho3u
      · obtain ⟨o4, ho4⟩ := ih h1
        refine ⟨o4, ?_⟩
        rw [hf]
        show findOrderInLevels u rest = some o4
        exact ho4
    · refine ⟨o2, ?_⟩
      rw [hf]

/-- Removing the middle element of a concatenation is a permutation with a
front cons. -/
theorem perm_erase_middle (o : Order) (A F1 F2 C : List Order) :
    List.Perm (o :: (A ++ ((F1 ++ F2) ++ C))) (A ++ ((F1 ++ o :: F2) ++ C)) := by
  have h2 : List.Perm ((F1 ++ o :: F2) ++ C) (o :: ((F1 ++ F2) ++ C)) := by
    have h := (@List.perm_middle Order o F1 F2).append_right C
    simpa using h
  have h3 := h2.append_left A
  exact List.perm_middle.symm.trans h3.symm

/-- State of the book after unlinking a resting BUY order from its level:
the buy side stays well formed and loses exactly that order, its price list
shrinks (or not), and nothing else changes. -/
theorem remove_order_from_level_buy_wf {b : Book} {o : Order}
    (hside : SideWF .BUY b.buy_map_keys b.buy_levels)
    (huidn : ((ordersOf b.buy_levels).map Order.uid).Nodup)
    (hlvmem : ∃ lv ∈ b.buy_levels, o ∈ lv.fifo) :
    SideWF .BUY (b.remove_order_from_level o true).buy_map_keys
      (b.remove_order_from_level o true).buy_levels ∧
    List.Perm (o :: ordersOf (b.remove_order_from_level o true).buy_levels)
      (ordersOf b.buy_levels) ∧
    List.Sublist ((b.remove_order_from_level o true).buy_levels.map Level.limit_price)
      (b.buy_levels.map Level.limit_price) ∧
    (b.remove_order_from_level o true).sell_levels = b.sell_levels ∧
    (b.remove_order_from_level o true).sell_map_keys = b.sell_map_keys ∧
    (b.remove_order_from_level o true).id_to_order = b.id_to_order ∧
    (b.remove_order_from_level o true).next_uid = b.next_uid := by
  obtain ⟨hsort, hlv, hkn, hki⟩ := hside
  obtain ⟨lvc, hlvc, ho_in⟩ := hlvmem
  have hpnd : (b.buy_levels.map Level.limit_price).Nodup := nodup_of_sorted hsort
  have hocp : o.order_price = lvc.limit_price :=
    ((hlv lvc hlvc).2.2.2.2.2 o ho_in).2.2.2.1
  have hmemp : o.order_price ∈ b.buy_levels.map Level.limit_price := by
    rw [hocp]
    exact List.mem_map_of_mem _ hlvc
  have hc : b.buy_map_keys.contains o.order_price = true := by
    simpa using (hki _).mpr hmemp
  obtain ⟨l1, l0, l2, hsplit, hl0p, hl1ne, hfind, hupd, hrem⟩ := levelSplit hmemp
  have hl0mem : l0 ∈ b.buy_levels := by
    rw [hsplit]
    exact List.mem_append_right _ (List.mem_cons_self _ _)
  have hl0c : l0 = lvc :=
    List.inj_on_of_nodup_map hpnd hl0mem hlvc (by rw [hl0p, hocp])
  have ho_in0 : o ∈ l0.fifo := by rw [hl0c]; exact ho_in
  obtain ⟨hne0, hcnt, htot, hp0, hpU, hords⟩ := hlv l0 hl0mem
  have hordsA : ordersOf b.buy_levels
      = ordersOf l1 ++ (l0.fifo ++ ordersOf l2) := by
    rw [hsplit, ordersOf_append, ordersOf_cons]
  have hfund : (l0.fifo.map Order.uid).Nodup := by
    refine huidn.sublist ?_
    rw [hordsA]
    simp only [List.map_append]
    exact (List.sublist_append_left _ _).trans (List.sublist_append_right _ _)
  obtain ⟨f1, o0, f2, hfs, ho0, hf1ne, herase⟩ :=
    fifoSplit (List.mem_map_of_mem Order.uid ho_in0)
  have ho0mem : o0 ∈ l0.fifo := by
    rw [hfs]
    exact List.mem_append_right _ (List.mem_cons_self _ _)
  have ho0eq : o0 = o := List.inj_on_of_nodup_map hfund ho0mem ho_in0 ho0
  rw [ho0eq] at hfs
  have hcountne : ¬ l0.order_number = 0 := by
    rw [hcnt]
    simpa [List.length_eq_zero] using hne0
  have herase2 : Level.erase o l0 =
      ⟨l0.limit_price, l0.order_number - 1,
        u64sub l0.total_volume o.remaining_volume, f1 ++ f2⟩ := by
    simp [Level.erase, hcountne, herase]
  have hremlt : o.remaining_volume < U64 := ((hords o ho_in0).2.2.1)
  have hsum : (l0.fifo.map Order.remaining_volume).sum
      = ((f1 ++ f2).map Order.remaining_volume).sum + o.remaining_volume := by
    rw [hfs]
    simp only [List.map_append, List.map_cons, List.sum_append, List.sum_cons]
    omega
  have hcnt2 : l0.order_number - 1 = (f1 ++ f2).length := by
    rw [hcnt, hfs]
    simp only [List.length_append, List.length_cons]
    omega
  have htot2 : u64sub l0.total_volume o.remaining_volume
      = ((f1 ++ f2).map Order.remaining_volume).sum % U64 := by
    rw [htot, hsum, u64sub_mod_left (Nat.le_add_left _ _) hremlt, Nat.add_sub_cancel]
  have hLWerase : ∀ x ∈ f1 ++ f2, OrderOK .BUY l0.limit_price x := by
    intro x hx
    refine hords x ?_
    rw [hfs]
    rcases List.mem_append.mp hx with h | h
    · exact List.mem_append_left _ h
    · exact List.mem_append_right _ (List.mem_cons_of_mem _ h)
  have hrununf : b.remove_order_from_level o true =
      (if (Level.erase o l0).is_empty then
        { b with buy_levels := removeLevelByPrice o.order_price b.buy_levels
                 buy_map_keys := keyErase o.order_price b.buy_map_keys }
      else
        { b with buy_levels := updateLevelByPrice o.order_price
                   (fun _ => Level.erase o l0) b.buy_levels }) := by
    unfold Book.remove_order_from_level
    rw [if_pos rfl, if_pos hc, hfind]
  have hpnotl1 : o.order_price ∉ l1.map Level.limit_price := by
    intro hq
    obtain ⟨x, hx, hxp⟩ := List.mem_map.mp hq
    exact hl1ne x hx hxp
  have hpnotl2 : o.order_price ∉ l2.map Level.limit_price := by
    have h1 : (l0.limit_price :: l2.map Level.limit_price).Nodup := by
      refine hpnd.sublist ?_
      rw [hsplit]
      simp only [List.map_append, List.map_cons]
      exact List.sublist_append_right _ _
    rw [← hl0p]
    exact (List.nodup_cons.mp h1).1
  by_cases hE : (Level.erase o l0).is_empty = true
  · rw [hrununf, if_pos hE]
    have hff : f1 ++ f2 = [] := by
      rw [herase2] at hE
      simp only [Level.is_empty, beq_iff_eq] at hE
      rw [hcnt2] at hE
      exact List.length_eq_zero.mp hE
    obtain ⟨hff1, hff2⟩ := List.append_eq_nil.mp hff
    refine ⟨⟨?_, ?_, keyErase_nodup hkn, ?_⟩, ?_, ?_, rfl, rfl, rfl, rfl⟩
    · dsimp only
      rw [hrem]
      refine hsort.sublist ?_
      rw [hsplit]
      exact (List.sublist_cons_self l0 l2).append_left l1
    · intro l' hl'
      dsimp only at hl'
      rw [hrem] at hl'
      refine hlv l' ?_
      rw [hsplit]
      rcases List.mem_append.mp hl' with h | h
      · exact List.mem_append_left _ h
      · exact List.mem_append_right _ (List.mem_cons_of_mem _ h)
    · intro p
      dsimp only
      rw [hrem, mem_keyErase hkn p, hki p, hsplit]
      simp only [List.map_append, List.map_cons, List.mem_append, List.mem_cons]
      constructor
      · rintro ⟨h1 | h1 | h1, h2⟩
        · exact Or.inl h1
        · exact absurd (h1.trans hl0p) h2
        · exact Or.inr h1
      · rintro (h1 | h1)
        · refine ⟨Or.inl h1, ?_⟩
          intro hcq
          exact hpnotl1 (hcq ▸ h1)
        · refine ⟨Or.inr (Or.inr h1), ?_⟩
          intro hcq
          exact hpnotl2 (hcq ▸ h1)
    · dsimp only
      rw [hrem, hordsA, hfs, hff1, hff2, ordersOf_append]
      simpa using (perm_erase_middle o (ordersOf l1) [] [] (ordersOf l2))
    · dsimp only
      rw [hrem, hsplit]
      simp only [List.map_append, List.map_cons]
      exact (List.sublist_cons_self _ _).append_left _
  · rw [hrununf, if_neg hE]
    have hupd2 : updateLevelByPrice o.order_price (fun _ => Level.erase o l0) b.buy_levels
        = l1 ++ Level.erase o l0 :: l2 := hupd _
    have hmap : (l1 ++ Level.erase o l0 :: l2).map Level.limit_price
        = b.buy_levels.map Level.limit_price := by
      rw [hsplit, herase2]
      simp
    have hffne : f1 ++ f2 ≠ [] := by
      intro hcq
      apply hE
      rw [herase2]
      simp only [Level.is_empty, beq_iff_eq]
      rw [hcnt2, hcq]
      rfl
    refine ⟨⟨?_, ?_, hkn, ?_⟩, ?_, ?_, rfl, rfl, rfl, rfl⟩
    · rw [pairwise_price_iff]
      dsimp only
      rw [hupd2, hmap]
      exact pairwise_price_iff.mp hsort
    · intro l' hl'
      dsimp only at hl'
      rw [hupd2] at hl'
      rcases List.mem_append.mp hl' with h | h
      · exact hlv l' (by rw [hsplit]; exact List.mem_append_left _ h)
      · rcases List.mem_cons.mp h with h1 | h1
        · rw [h1, herase2]
          exact ⟨hffne, hcnt2, htot2, hp0, hpU, hLWerase⟩
        · exact hlv l' (by rw [hsplit]; exact List.mem_append_right _ (List.mem_cons_of_mem _ h1))
    · intro p
      dsimp only
      rw [hupd2, hmap]
      exact hki p
    · dsimp only
      rw [hupd2, hordsA, hfs, ordersOf_append, ordersOf_cons, herase2]
      exact perm_erase_middle o (ordersOf l1) f1 f2 (ordersOf l2)
    · dsimp only
      rw [hupd2, hmap]

/-- State of the book after unlinking a resting SELL order from its level;
mirror image of `remove_order_from_level_buy_wf`. -/
theorem remove_order_from_level_sell_wf {b : Book} {o : Order}
    (hside : SideWF .SELL b.sell_map_keys b.sell_levels)
    (huidn : ((ordersOf b.sell_levels).map Order.uid).Nodup)
    (hlvmem : ∃ lv ∈ b.sell_levels, o ∈ lv.fifo) :
    SideWF .SELL (b.remove_order_from_level o false).sell_map_keys
      (b.remove_order_from_level o false).sell_levels ∧
    List.Perm (o :: ordersOf (b.remove_order_from_level o false).sell_levels)
      (ordersOf b.sell_levels) ∧
    List.Sublist ((b.remove_order_from_level o false).sell_levels.map Level.limit_price)
      (b.sell_levels.map Level.limit_price) ∧
    (b.remove_order_from_level o false).buy_levels = b.buy_levels ∧
    (b.remove_order_from_level o false).buy_map_keys = b.buy_map_keys ∧
    (b.remove_order_from_level o false).id_to_order = b.id_to_order ∧
    (b.remove_order_from_level o false).next_uid = b.next_uid := by
  obtain ⟨hsort, hlv, hkn, hki⟩ := hside
  obtain ⟨lvc, hlvc, ho_in⟩ := hlvmem
  have hpnd : (b.sell_levels.map Level.limit_price).Nodup := nodup_of_sorted hsort
  have hocp : o.order_price = lvc.limit_price :=
    ((hlv lvc hlvc).2.2.2.2.2 o ho_in).2.2.2.1
  have hmemp : o.order_price ∈ b.sell_levels.map Level.limit_price := by
    rw [hocp]
    exact List.mem_map_of_mem _ hlvc
  have hc : b.sell_map_keys.contains o.order_price = true := by
    simpa using (hki _).mpr hmemp
  obtain ⟨l1, l0, l2, hsplit, hl0p, hl1ne, hfind, hupd, hrem⟩ := levelSplit hmemp
  have hl0mem : l0 ∈ b.sell_levels := by
    rw [hsplit]
    exact List.mem_append_right _ (List.mem_cons_self _ _)
  have hl0c : l0 = lvc :=
    List.inj_on_of_nodup_map hpnd hl0mem hlvc (by rw [hl0p, hocp])
  have ho_in0 : o ∈ l0.fifo := by rw [hl0c]; exact ho_in
  obtain ⟨hne0, hcnt, htot, hp0, hpU, hords⟩ := hlv l0 hl0mem
  have hordsA : ordersOf b.sell_levels
      = ordersOf l1 ++ (l0.fifo ++ ordersOf l2) := by
    rw [hsplit, ordersOf_append, ordersOf_cons]
  have hfund : (l0.fifo.map Order.uid).Nodup := by
    refine huidn.sublist ?_
    rw [hordsA]
    simp only [List.map_append]
    exact (List.sublist_append_left _ _).trans (List.sublist_append_right _ _)
  obtain ⟨f1, o0, f2, hfs, ho0, hf1ne, herase⟩ :=
    fifoSplit (List.mem_map_of_mem Order.uid ho_in0)
  have ho0mem : o0 ∈ l0.fifo := by
    rw [hfs]
    exact List.mem_append_right _ (List.mem_cons_self _ _)
  have ho0eq : o0 = o := List.inj_on_of_nodup_map hfund ho0mem ho_in0 ho0
  rw [ho0eq] at hfs
  have hcountne : ¬ l0.order_number = 0 := by
    rw [hcnt]
    simpa [List.length_eq_zero] using hne0
  have herase2 : Level.erase o l0 =
      ⟨l0.limit_price, l0.order_number - 1,
        u64sub l0.total_volume o.remaining_volume, f1 ++ f2⟩ := by
    simp [Level.erase, hcountne, herase]
  have hremlt : o.remaining_volume < U64 := ((hords o ho_in0).2.2.1)
  have hsum : (l0.fifo.map Order.remaining_volume).sum
      = ((f1 ++ f2).map Order.remaining_volume).sum + o.remaining_volume := by
    rw [hfs]
    simp only [List.map_append, List.map_cons, List.sum_append, List.sum_cons]
    omega
  have hcnt2 : l0.order_number - 1 = (f1 ++ f2).length := by
    rw [hcnt, hfs]
    simp only [List.length_append, List.length_cons]
    omega
  have htot2 : u64sub l0.total_volume o.remaining_volume
      = ((f1 ++ f2).map Order.remaining_volume).sum % U64 := by
    rw [htot, hsum, u64sub_mod_left (Nat.le_add_left _ _) hremlt, Nat.add_sub_cancel]
  have hLWerase : ∀ x ∈ f1 ++ f2, OrderOK .SELL l0.limit_price x := by
    intro x hx
    refine hords x ?_
    rw [hfs]
    rcases List.mem_append.mp hx with h | h
    · exact List.mem_append_left _ h
    · exact List.mem_append_right _ (List.mem_cons_of_mem _ h)
  have hrununf : b.remove_order_from_level o false =
      (if (Level.erase o l0).is_empty then
        { b with sell_levels := removeLevelByPrice o.order_price b.sell_levels
                 sell_map_keys := keyErase o.order_price b.sell_map_keys }
      else
        { b with sell_levels := updateLevelByPrice o.order_price
                   (fun _ => Level.erase o l0) b.sell_levels }) := by
    unfold Book.remove_order_from_level
    rw [if_neg (by simp), if_pos hc, hfind]
  have hpnotl1 : o.order_price ∉ l1.map Level.limit_price := by
    intro hq
    obtain ⟨x, hx, hxp⟩ := List.mem_map.mp hq
    exact hl1ne x hx hxp
  have hpnotl2 : o.order_price ∉ l2.map Level.limit_price := by
    have h1 : (l0.limit_price :: l2.map Level.limit_price).Nodup := by
      refine hpnd.sublist ?_
      rw [hsplit]
      simp only [List.map_append, List.map_cons]
      exact List.sublist_append_right _ _
    rw [← hl0p]
    exact (List.nodup_cons.mp h1).1
  by_cases hE : (Level.erase o l0).is_empty = true
  · rw [hrununf, if_pos hE]
    have hff : f1 ++ f2 = [] := by
      rw [herase2] at hE
      simp only [Level.is_empty, beq_iff_eq] at hE
      rw [hcnt2] at hE
      exact List.length_eq_zero.mp hE
    obtain ⟨hff1, hff2⟩ := List.append_eq_nil.mp hff
    refine ⟨⟨?_, ?_, keyErase_nodup hkn, ?_⟩, ?_, ?_, rfl, rfl, rfl, rfl⟩
    · dsimp only
      rw [hrem]
      refine hsort.sublist ?_
      rw [hsplit]
      exact (List.sublist_cons_self l0 l2).append_left l1
    · intro l' hl'
      dsimp only at hl'
      rw [hrem] at hl'
      refine hlv l' ?_
      rw [hsplit]
      rcases List.mem_append.mp hl' with h | h
      · exact List.mem_append_left _ h
      · exact List.mem_append_right _ (List.mem_cons_of_mem _ h)
    · intro p
      dsimp only
      rw [hrem, mem_keyErase hkn p, hki p, hsplit]
      simp only [List.map_append, List.map_cons, List.mem_append, List.mem_cons]
      constructor
      · rintro ⟨h1 | h1 | h1, h2⟩
        · exact Or.inl h1
        · exact absurd (h1.trans hl0p) h2
        · exact Or.inr h1
      · rintro (h1 | h1)
        · refine ⟨Or.inl h1, ?_⟩
          intro hcq
          exact hpnotl1 (hcq ▸ h1)
        · refine ⟨Or.inr (Or.inr h1), ?_⟩
          intro hcq
          exact hpnotl2 (hcq ▸ h1)
    · dsimp only
      rw [hrem, hordsA, hfs, hff1, hff2, ordersOf_append]
      simpa using (perm_erase_middle o (ordersOf l1) [] [] (ordersOf l2))
    · dsimp only
      rw [hrem, hsplit]
      simp only [List.map_append, List.map_cons]
      exact (List.sublist_cons_self _ _).append_left _
  · rw [hrununf, if_neg hE]
    have hupd2 : updateLevelByPrice o.order_price (fun _ => Level.erase o l0) b.sell_levels
        = l1 ++ Level.erase o l0 :: l2 := hupd _
    have hmap : (l1 ++ Level.erase o l0 :: l2).map Level.limit_price
        = b.sell_levels.map Level.limit_price := by
      rw [hsplit, herase2]
      simp
    have hffne : f1 ++ f2 ≠ [] := by
      intro hcq
      apply hE
      rw [herase2]
      simp only [Level.is_empty, beq_iff_eq]
      rw [hcnt2, hcq]
      rfl
    refine ⟨⟨?_, ?_, hkn, ?_⟩, ?_, ?_, rfl, rfl, rfl, rfl⟩
    · rw [pairwise_price_iff]
      dsimp only
      rw [hupd2, hmap]
      exact pairwise_price_iff.mp hsort
    · intro l' hl'
      dsimp only at hl'
      rw [hupd2] at hl'
      rcases List.mem_append.mp hl' with h | h
      · exact hlv l' (by rw [hsplit]; exact List.mem_append_left _ h)
      · rcases List.mem_cons.mp h with h1 | h1
        · rw [h1, herase2]
          exact ⟨hffne, hcnt2, htot2, hp0, hpU, hLWerase⟩
        · exact hlv l' (by rw [hsplit]; exact List.mem_append_right _ (List.mem_cons_of_mem _ h1))
    · intro p
      dsimp only
      rw [hupd2, hmap]
      exact hki p
    · dsimp only
      rw [hupd2, hordsA, hfs, ordersOf_append, ordersOf_cons, herase2]
      exact perm_erase_middle o (ordersOf l1) f1 f2 (ordersOf l2)
    · dsimp only
      rw [hupd2, hmap]

/-! ## Helpers for the master invariant -/

theorem assocGet_mem {k v : Nat} {m : List (Nat × Nat)}
    (h : assocGet k m = some v) : (k, v) ∈ m := by
  induction m with
  | nil => simp [assocGet] at h
  | cons e t ih =>
    obtain ⟨k', v'⟩ := e
    simp only [assocGet] at h
    split at h
    · rename_i hk
      cases h
      rw [hk]
      exact List.mem_cons_self _ _
    · exact List.mem_cons_of_mem _ (ih h)

theorem mem_ordersOf {o : Order} {ls : List Level} :
    o ∈ ordersOf ls ↔ ∃ lv ∈ ls, o ∈ lv.fifo := by
  simp [ordersOf, List.mem_flatten]

theorem sorted_asc_head_le {h q : Nat} {rest : List Nat}
    (hs : (h :: rest).Pairwise (fun a b => a < b)) (hq : q ∈ h :: rest) : h ≤ q := by
  rcases List.mem_cons.mp hq with h1 | h1
  · rw [h1]
  · exact le_of_lt ((List.pairwise_cons.mp hs).1 q h1)

theorem sorted_desc_le_head {h q : Nat} {rest : List Nat}
    (hs : (h :: rest).Pairwise (fun a b => b < a)) (hq : q ∈ h :: rest) : q ≤ h := by
  rcases List.mem_cons.mp hq with h1 | h1
  · rw [h1]
  · exact le_of_lt ((List.pairwise_cons.mp hs).1 q h1)

theorem uid_sublist_of_okey {X Y : List Order}
    (h : List.Sublist (X.map okey) (Y.map okey)) :
    List.Sublist (X.map Order.uid) (Y.map Order.uid) := by
  have h2 := h.map (fun k : Nat × Nat × Nat × OrderType => k.1)
  rw [List.map_map, List.map_map] at h2
  exact h2

theorem okey_mem_exists {X Y : List Order}
    (h : List.Sublist (X.map okey) (Y.map okey)) {o2 : Order} (ho2 : o2 ∈ X) :
    ∃ o ∈ Y, o2.uid = o.uid ∧ o2.order_id = o.order_id ∧
      o2.order_price = o.order_price ∧ o2.order_type = o.order_type := by
  have h1 : okey o2 ∈ Y.map okey := h.subset (List.mem_map_of_mem okey ho2)
  obtain ⟨o, ho, hk⟩ := List.mem_map.mp h1
  simp only [okey, Prod.mk.injEq] at hk
  exact ⟨o, ho, hk.1.symm, hk.2.1.symm, hk.2.2.1.symm, hk.2.2.2.symm⟩

/-- With globally unique identities, looking up a resting order's pool
pointer finds exactly that order. -/
theorem findOrderByUid_spec {b : Book}
    (hnodup : (b.allOrders.map Order.uid).Nodup) {o : Order}
    (ho : o ∈ b.allOrders) : b.findOrderByUid o.uid = some o := by
  have hsplitmem := ho
  rw [Book.allOrders, List.mem_append] at hsplitmem
  unfold Book.findOrderByUid
  rcases hfb : findOrderInLevels o.uid b.buy_levels with _ | o2
  · rcases hsplitmem with h1 | h1
    · exfalso
      obtain ⟨o3, ho3⟩ := findOrderInLevels_mem (List.mem_map_of_mem Order.uid h1)
      rw [ho3] at hfb
      cases hfb
    · obtain ⟨o4, ho4⟩ := findOrderInLevels_mem (List.mem_map_of_mem Order.uid h1)
      rw [ho4]
      obtain ⟨ho4u, lv4, hlv4, ho4in⟩ := findOrderInLevels_some ho4
      have ho4all : o4 ∈ b.allOrders := by
        rw [Book.allOrders, List.mem_append]
        exact Or.inr (mem_ordersOf.mpr ⟨lv4, hlv4, ho4in⟩)
      rw [List.inj_on_of_nodup_map hnodup ho4all ho ho4u]
  · obtain ⟨ho2u, lv2, hlv2, ho2in⟩ := findOrderInLevels_some hfb
    have ho2all : o2 ∈ b.allOrders := by
      rw [Book.allOrders, List.mem_append]
      exact Or.inl (mem_ordersOf.mpr ⟨lv2, hlv2, ho2in⟩)
    rw [List.inj_on_of_nodup_map hnodup ho2all ho ho2u]

/-- The book state right after the BUY matching loop (sell side replaced by
the loop's output, id map filtered, a fresh uid consumed) is well formed. -/
theorem BookWF_after_loop_buy {b : Book} {order : Order} {out : LoopOut}
    (hwf : BookWF b)
    (post : LoopPost .SELL order b.sell_levels b.sell_map_keys b.id_to_order out) :
    BookWF { b with next_uid := b.next_uid + 1, sell_levels := out.levels,
                    sell_map_keys := out.keys, id_to_order := out.idm } := by
  obtain ⟨hbuy, hsell, hcross, hun, hul, hin, hir⟩ := hwf
  obtain ⟨hssort, hslv, hskn, hski⟩ := hsell
  refine ⟨hbuy, ⟨?_, post.levels_wf, post.keys_nodup, post.keys_iff⟩, ?_, ?_, ?_,
    post.idm_nodup, ?_⟩
  · exact pairwise_price_iff.mpr
      ((pairwise_price_iff.mp hssort).sublist post.price_suffix.sublist)
  · intro lb hlb ls2 hls2
    dsimp only at hlb hls2
    have h1 : ls2.limit_price ∈ out.levels.map Level.limit_price :=
      List.mem_map_of_mem _ (List.mem_of_mem_head? hls2)
    have h2 : ls2.limit_price ∈ b.sell_levels.map Level.limit_price :=
      post.price_suffix.sublist.subset h1
    cases hsl : b.sell_levels with
    | nil => rw [hsl] at h2; simp at h2
    | cons h0 rest0 =>
      have hle : h0.limit_price ≤ ls2.limit_price := by
        have hp := pairwise_price_iff.mp hssort
        rw [hsl] at hp h2
        simp only [List.map_cons] at hp h2
        exact sorted_asc_head_le hp h2
      have hlt : lb.limit_price < h0.limit_price := by
        refine hcross lb hlb h0 ?_
        rw [hsl]
        rfl
      exact lt_of_lt_of_le hlt hle
  · show ((ordersOf b.buy_levels ++ ordersOf out.levels).map Order.uid).Nodup
    refine hun.sublist ?_
    show List.Sublist _ ((ordersOf b.buy_levels ++ ordersOf b.sell_levels).map Order.uid)
    rw [List.map_append, List.map_append]
    exact (uid_sublist_of_okey post.okey_sublist).append_left _
  · intro o' ho'
    have ho2 : o' ∈ ordersOf b.buy_levels ++ ordersOf out.levels := ho'
    rcases List.mem_append.mp ho2 with h | h
    · have := hul o' (by rw [Book.allOrders, List.mem_append]; exact Or.inl h)
      dsimp only
      omega
    · obtain ⟨o0, ho0, hu, -, -, -⟩ := okey_mem_exists post.okey_sublist h
      have := hul o0 (by rw [Book.allOrders, List.mem_append]; exact Or.inr ho0)
      dsimp only
      omega
  · intro id u hm
    have h1 : (id, u) ∈ b.id_to_order := post.idm_sub _ hm
    obtain ⟨o0, ho0, hu, hid⟩ := hir id u h1
    rw [Book.allOrders, List.mem_append] at ho0
    rcases ho0 with h | h
    · exact ⟨o0, by
        rw [Book.allOrders, List.mem_append]
        exact Or.inl h, hu, hid⟩
    · obtain ⟨o2, ho2, hu2, hid2⟩ := post.idm_resolve id u hm o0 h hu hid
      exact ⟨o2, by
        rw [Book.allOrders, List.mem_append]
        exact Or.inr ho2, hu2, hid2⟩

/-- The book state right after the SELL matching loop; mirror image of
`BookWF_after_loop_buy`. -/
theorem BookWF_after_loop_sell {b : Book} {order : Order} {out : LoopOut}
    (hwf : BookWF b)
    (post : LoopPost .BUY order b.buy_levels b.buy_map_keys b.id_to_order out) :
    BookWF { b with next_uid := b.next_uid + 1, buy_levels := out.levels,
                    buy_map_keys := out.keys, id_to_order := out.idm } := by
  obtain ⟨hbuy, hsell, hcross, hun, hul, hin, hir⟩ := hwf
  obtain ⟨hbsort, hblv, hbkn, hbki⟩ := hbuy
  refine ⟨⟨?_, post.levels_wf, post.keys_nodup, post.keys_iff⟩, hsell, ?_, ?_, ?_,
    post.idm_nodup, ?_⟩
  · exact pairwise_price_iff.mpr
      ((pairwise_price_iff.mp hbsort).sublist post.price_suffix.sublist)
  · intro lb hlb ls2 hls2
    dsimp only at hlb hls2
    have h1 : lb.limit_price ∈ out.levels.map Level.limit_price :=
      List.mem_map_of_mem _ (List.mem_of_mem_head? hlb)
    have h2 : lb.limit_price ∈ b.buy_levels.map Level.limit_price :=
      post.price_suffix.sublist.subset h1
    cases hbl : b.buy_levels with
    | nil => rw [hbl] at h2; simp at h2
    | cons h0 rest0 =>
      have hle : lb.limit_price ≤ h0.limit_price := by
        have hp := pairwise_price_iff.mp hbsort
        rw [hbl] at hp h2
        simp only [List.map_cons] at hp h2
        exact sorted_desc_le_head hp h2
      have hlt : h0.limit_price < ls2.limit_price := by
        refine hcross h0 ?_ ls2 hls2
        rw [hbl]
        rfl
      exact lt_of_le_of_lt hle hlt
  · show ((ordersOf out.levels ++ ordersOf b.sell_levels).map Order.uid).Nodup
    refine hun.sublist ?_
    show List.Sublist _ ((ordersOf b.buy_levels ++ ordersOf b.sell_levels).map Order.uid)
    rw [List.map_append, List.map_append]
    exact (uid_sublist_of_okey post.okey_sublist).append_right _
  · intro o' ho'
    have ho2 : o' ∈ ordersOf out.levels ++ ordersOf b.sell_levels := ho'
    rcases List.mem_append.mp ho2 with h | h
    · obtain ⟨o0, ho0, hu, -, -, -⟩ := okey_mem_exists post.okey_sublist h
      have := hul o0 (by rw [Book.allOrders, List.mem_append]; exact Or.inl ho0)
      dsimp only
      omega
    · have := hul o' (by rw [Book.allOrders, List.mem_append]; exact Or.inr h)
      dsimp only
      omega
  · intro id u hm
    have h1 : (id, u) ∈ b.id_to_order := post.idm_sub _ hm
    obtain ⟨o0, ho0, hu, hid⟩ := hir id u h1
    rw [Book.allOrders, List.mem_append] at ho0
    rcases ho0 with h | h
    · obtain ⟨o2, ho2, hu2, hid2⟩ := post.idm_resolve id u hm o0 h hu hid
      exact ⟨o2, by
        rw [Book.allOrders, List.mem_append]
        exact Or.inl ho2, hu2, hid2⟩
    · exact ⟨o0, by
        rw [Book.allOrders, List.mem_append]
        exact Or.inr h, hu, hid⟩

/-- Resting a fresh, well-formed, non-crossing BUY order preserves the
whole-book invariant. -/
theorem BookWF_insert_buy {b2 : Book} {o : Order}
    (hwf : BookWF b2)
    (hact : o.order_status = .ACTIVE) (hpos : 0 < o.remaining_volume)
    (hltU : o.remaining_volume < U64) (hp0 : 0 < o.order_price)
    (hpU : o.order_price < U32) (hty : o.order_type = .BUY)
    (hufresh : ∀ o2 ∈ b2.allOrders, o2.uid < o.uid)
    (hulow : o.uid < b2.next_uid)
    (hcrossnew : ∀ ls2 ∈ b2.sell_levels.head?, o.order_price < ls2.limit_price) :
    BookWF (b2.insert_resting_order o) := by
  obtain ⟨hside', hpermB, hheadB, hsellEq, hsKeysEq, hidmEq, hnuEq⟩ :=
    insert_resting_order_buy_wf hwf.buy hact hpos hltU hp0 hpU hty
  have hperm2 : List.Perm (b2.insert_resting_order o).allOrders (o :: b2.allOrders) := by
    rw [Book.allOrders, Book.allOrders, hsellEq]
    refine (hpermB.append_right _).trans ?_
    rw [List.cons_append]
  refine ⟨hside', ?_, ?_, ?_, ?_, ?_, ?_⟩
  · rw [hsellEq, hsKeysEq]
    exact hwf.sell
  · intro lb hlb ls2 hls2
    rw [hsellEq] at hls2
    have hlb0 : (b2.insert_resting_order o).buy_levels.head? = some lb := hlb
    have hq : lb.limit_price ∈
        ((b2.insert_resting_order o).buy_levels.map Level.limit_price).head? := by
      rw [List.head?_map, hlb0]
      rfl
    rcases hheadB lb.limit_price hq with h | h
    · rw [h]
      exact hcrossnew ls2 hls2
    · cases hb2 : b2.buy_levels with
      | nil =>
        rw [hb2] at h
        simp at h
      | cons h0 r0 =>
        rw [hb2] at h
        simp only [List.map_cons, List.head?_cons, Option.mem_def,
          Option.some.injEq] at h
        have h2 := hwf.cross h0 (by rw [hb2]; rfl) ls2 hls2
        omega
  · refine ((hperm2.map Order.uid).nodup_iff).mpr ?_
    simp only [List.map_cons, List.nodup_cons]
    refine ⟨?_, hwf.uids_nodup⟩
    intro hc
    obtain ⟨o2, ho2, hueq⟩ := List.mem_map.mp hc
    exact absurd hueq (Nat.ne_of_lt (hufresh o2 ho2))
  · intro o' ho'
    have h1 := hperm2.mem_iff.mp ho'
    rw [hnuEq]
    rcases List.mem_cons.mp h1 with h | h
    · rw [h]
      exact hulow
    · exact hwf.uids_lt o' h
  · rw [hidmEq]
    exact assocSet_fst_nodup hwf.idm_nodup
  · intro a v hm
    rw [hidmEq] at hm
    rcases (mem_assocSet hwf.idm_nodup a v).mp hm with ⟨ha, hv⟩ | ⟨hmem, hne⟩
    · refine ⟨o, hperm2.mem_iff.mpr (List.mem_cons_self _ _), hv.symm, ha.symm⟩
    · obtain ⟨o3, ho3, hu3, hid3⟩ := hwf.idm_resolves a v hmem
      exact ⟨o3, hperm2.mem_iff.mpr (List.mem_cons_of_mem _ ho3), hu3, hid3⟩

/-- Resting a fresh, well-formed, non-crossing SELL order preserves the
whole-book invariant; mirror image of `BookWF_insert_buy`. -/
theorem BookWF_insert_sell {b2 : Book} {o : Order}
    (hwf : BookWF b2)
    (hact : o.order_status = .ACTIVE) (hpos : 0 < o.remaining_volume)
    (hltU : o.remaining_volume < U64) (hp0 : 0 < o.order_price)
    (hpU : o.order_price < U32) (hty : o.order_type = .SELL)
    (hufresh : ∀ o2 ∈ b2.allOrders, o2.uid < o.uid)
    (hulow : o.uid < b2.next_uid)
    (hcrossnew : ∀ lb2 ∈ b2.buy_levels.head?, lb2.limit_price < o.order_price) :
    BookWF (b2.insert_resting_order o) := by
  obtain ⟨hside', hpermS, hheadS, hbuyEq, hbKeysEq, hidmEq, hnuEq⟩ :=
    insert_resting_order_sell_wf hwf.sell hact hpos hltU hp0 hpU hty
  have hperm2 : List.Perm (b2.insert_resting_order o).allOrders (o :: b2.allOrders) := by
    rw [Book.allOrders, Book.allOrders, hbuyEq]
    exact (hpermS.append_left _).trans List.perm_middle
  refine ⟨?_, hside', ?_, ?_, ?_, ?_, ?_⟩
  · rw [hbuyEq, hbKeysEq]
    exact hwf.buy
  · intro lb hlb ls2 hls2
    rw [hbuyEq] at hlb
    have hls0 : (b2.insert_resting_order o).sell_levels.head? = some ls2 := hls2
    have hq : ls2.limit_price ∈
        ((b2.insert_resting_order o).sell_levels.map Level.limit_price).head? := by
      rw [List.head?_map, hls0]
      rfl
    rcases hheadS ls2.limit_price hq with h | h
    · rw [h]
      exact hcrossnew lb hlb
    · cases hb2 : b2.sell_levels with
      | nil =>
        rw [hb2] at h
        simp at h
      | cons h0 r0 =>
        rw [hb2] at h
        simp only [List.map_cons, List.head?_cons, Option.mem_def,
          Option.some.injEq] at h
        have h2 := hwf.cross lb hlb h0 (by rw [hb2]; rfl)
        omega
  · refine ((hperm2.map Order.uid).nodup_iff).mpr ?_
    simp only [List.map_cons, List.nodup_cons]
    refine ⟨?_, hwf.uids_nodup⟩
    intro hc
    obtain ⟨o2, ho2, hueq⟩ := List.mem_map.mp hc
    exact absurd hueq (Nat.ne_of_lt (hufresh o2 ho2))
  · intro o' ho'
    have h1 := hperm2.mem_iff.mp ho'
    rw [hnuEq]
    rcases List.mem_cons.mp h1 with h | h
    · rw [h]
      exact hulow
    · exact hwf.uids_lt o' h
  · rw [hidmEq]
    exact assocSet_fst_nodup hwf.idm_nodup
  · intro a v hm
    rw [hidmEq] at hm
    rcases (mem_assocSet hwf.idm_nodup a v).mp hm with ⟨ha, hv⟩ | ⟨hmem, hne⟩
    · refine ⟨o, hperm2.mem_iff.mpr (List.mem_cons_self _ _), hv.symm, ha.symm⟩
    · obtain ⟨o3, ho3, hu3, hid3⟩ := hwf.idm_resolves a v hmem
      exact ⟨o3, hperm2.mem_iff.mpr (List.mem_cons_of_mem _ ho3), hu3, hid3⟩

/-- `Book::place_order` preserves the whole-book invariant. -/
theorem BookWF_place {b : Book} {oid agent pr vol : Nat} {ty : OrderType}
    {t : List Trade} {b' : Book} (hwf : BookWF b)
    (hrun : b.place_order oid agent ty pr vol = .ok (t, b')) : BookWF b' := by
  rw [Book.place_order] at hrun
  by_cases hval : pr % U32 = 0 ∨ vol % U64 = 0
  · rw [if_pos hval] at hrun
    simp only [Except.ok.injEq, Prod.mk.injEq] at hrun
    obtain ⟨-, h2⟩ := hrun
    subst h2
    exact hwf
  · rw [if_neg hval] at hrun
    push_neg at hval
    obtain ⟨hp0, hv0⟩ := hval
    obtain ⟨hbsort, hblv, hbkn, hbki⟩ := hwf.buy
    obtain ⟨hssort, hslv, hskn, hski⟩ := hwf.sell
    cases ty with
    | BUY =>
      dsimp only at hrun
      rcases hm : matchBuyLoop
          (⟨oid, agent, .BUY, pr % U32, vol % U64, vol % U64, .ACTIVE, b.next_uid⟩ : Order)
          b.sell_levels b.sell_map_keys b.id_to_order ([] : List Trade) with e | out
      · rw [hm] at hrun
        exact absurd hrun (by simp)
      · rw [hm] at hrun
        dsimp only at hrun
        have post := matchBuyLoop_wf hm hslv (nodup_of_sorted hssort) hskn hski
          (Nat.mod_lt vol U64_pos) hwf.idm_nodup
        by_cases hful : out.inc.is_fulfilled = true
        · rw [if_neg (not_not_intro hful)] at hrun
          simp only [Except.ok.injEq, Prod.mk.injEq] at hrun
          obtain ⟨-, h2⟩ := hrun
          subst h2
          exact BookWF_after_loop_buy hwf post
        · rw [if_pos hful] at hrun
          simp only [Except.ok.injEq, Prod.mk.injEq] at hrun
          obtain ⟨-, h2⟩ := hrun
          subst h2
          have hrne : out.inc.remaining_volume ≠ 0 := by
            simpa [Order.is_fulfilled] using hful
          have hwf2 := BookWF_after_loop_buy hwf post
          refine BookWF_insert_buy hwf2 (post.inc_status hrne)
            (Nat.pos_of_ne_zero hrne)
            (Nat.lt_of_le_of_lt post.inc_rem_le (Nat.mod_lt vol U64_pos))
            ?_ ?_ post.inc_type ?_ ?_ ?_
          · rw [post.inc_price]
            exact Nat.pos_of_ne_zero hp0
          · rw [post.inc_price]
            exact Nat.mod_lt pr (by decide)
          · intro o2 ho2
            rw [post.inc_uid]
            show o2.uid < b.next_uid
            have ho2' : o2 ∈ ordersOf b.buy_levels ++ ordersOf out.levels := ho2
            rcases List.mem_append.mp ho2' with h | h
            · exact hwf.uids_lt o2 (by
                rw [Book.allOrders, List.mem_append]
                exact Or.inl h)
            · obtain ⟨o0, ho0, hu, -, -, -⟩ := okey_mem_exists post.okey_sublist h
              have := hwf.uids_lt o0 (by
                rw [Book.allOrders, List.mem_append]
                exact Or.inr ho0)
              omega
          · rw [post.inc_uid]
            exact Nat.lt_succ_self b.next_uid
          · intro ls2 hls2
            rw [post.inc_price]
            exact post.exit_cross ls2 hls2 hful
    | SELL =>
      dsimp only at hrun
      rcases hm : matchSellLoop
          (⟨oid, agent, .SELL, pr % U32, vol % U64, vol % U64, .ACTIVE, b.next_uid⟩ : Order)
          b.buy_levels b.buy_map_keys b.id_to_order ([] : List Trade) with e | out
      · rw [hm] at hrun
        exact absurd hrun (by simp)
      · rw [hm] at hrun
        dsimp only at hrun
        have post := matchSellLoop_wf hm hblv (nodup_of_sorted hbsort) hbkn hbki
          (Nat.mod_lt vol U64_pos) hwf.idm_nodup
        by_cases hful : out.inc.is_fulfilled = true
        · rw [if_neg (not_not_intro hful)] at hrun
          simp only [Except.ok.injEq, Prod.mk.injEq] at hrun
          obtain ⟨-, h2⟩ := hrun
          subst h2
          exact BookWF_after_loop_sell hwf post
        · rw [if_pos hful] at hrun
          simp only [Except.ok.injEq, Prod.mk.injEq] at hrun
          obtain ⟨-, h2⟩ := hrun
          subst h2
          have hrne : out.inc.remaining_volume ≠ 0 := by
            simpa [Order.is_fulfilled] using hful
          have hwf2 := BookWF_after_loop_sell hwf post
          refine BookWF_insert_sell hwf2 (post.inc_status hrne)
            (Nat.pos_of_ne_zero hrne)
            (Nat.lt_of_le_of_lt post.inc_rem_le (Nat.mod_lt vol U64_pos))
            ?_ ?_ post.inc_type ?_ ?_ ?_
          · rw [post.inc_price]
            exact Nat.pos_of_ne_zero hp0
          · rw [post.inc_price]
            exact Nat.mod_lt pr (by decide)
          · intro o2 ho2
            rw [post.inc_uid]
            show o2.uid < b.next_uid
            have ho2' : o2 ∈ ordersOf out.levels ++ ordersOf b.sell_levels := ho2
            rcases List.mem_append.mp ho2' with h | h
            · obtain ⟨o0, ho0, hu, -, -, -⟩ := okey_mem_exists post.okey_sublist h
              have := hwf.uids_lt o0 (by
                rw [Book.allOrders, List.mem_append]
                exact Or.inl ho0)
              omega
            · exact hwf.uids_lt o2 (by
                rw [Book.allOrders, List.mem_append]
                exact Or.inr h)
          · rw [post.inc_uid]
            exact Nat.lt_succ_self b.next_uid
          · intro lb2 hlb2
            rw [post.inc_price]
            exact post.exit_cross lb2 hlb2 hful

/-- `Book::delete_order` preserves the whole-book invariant. -/
theorem BookWF_delete {b : Book} {did : Nat} (hwf : BookWF b) :
    BookWF (b.delete_order did) := by
  unfold Book.delete_order
  rcases hg : assocGet did b.id_to_order with _ | u
  · exact hwf
  · dsimp only
    rcases hf : b.findOrderByUid u with _ | o
    · refine ⟨hwf.buy, hwf.sell, hwf.cross, hwf.uids_nodup, hwf.uids_lt,
        assocErase_fst_nodup hwf.idm_nodup, ?_⟩
      intro a v hm
      exact hwf.idm_resolves a v ((assocErase_sublist did b.id_to_order).subset hm)
    · obtain ⟨hu_eq, hid_eq, ho_mem⟩ :
          o.uid = u ∧ o.order_id = did ∧ o ∈ b.allOrders := by
        have h1 := assocGet_mem hg
        obtain ⟨o3, ho3, hu3, hid3⟩ := hwf.idm_resolves did u h1
        have h2 := findOrderByUid_spec hwf.uids_nodup ho3
        rw [hu3] at h2
        rw [h2] at hf
        injection hf with hf2
        subst hf2
        exact ⟨hu3, hid3, ho3⟩
      have huidb : ((ordersOf b.buy_levels).map Order.uid).Nodup := by
        refine hwf.uids_nodup.sublist ?_
        rw [Book.allOrders, List.map_append]
        exact List.sublist_append_left _ _
      have huids : ((ordersOf b.sell_levels).map Order.uid).Nodup := by
        refine hwf.uids_nodup.sublist ?_
        rw [Book.allOrders, List.map_append]
        exact List.sublist_append_right _ _
      dsimp only
      by_cases hact : o.order_status = OrderStatus.ACTIVE
      · rw [if_pos hact]
        cases hty : o.order_type with
        | BUY =>
          have hb1 : (decide (OrderType.BUY = OrderType.BUY)) = true := rfl
          rw [hb1]
          have hlvmem : ∃ lv ∈ b.buy_levels, o ∈ lv.fifo := by
            have h1 := ho_mem
            rw [Book.allOrders, List.mem_append] at h1
            rcases h1 with h | h
            · exact mem_ordersOf.mp h
            · exfalso
              obtain ⟨lv, hlv', hin⟩ := mem_ordersOf.mp h
              have h3 := ((hwf.sell.2.1 lv hlv').2.2.2.2.2 o hin).2.2.2.2
              rw [hty] at h3
              exact OrderType.noConfusion h3
          obtain ⟨hside', hperm, hsub, hsEq, hskEq, hidmEq, hnuEq⟩ :=
            remove_order_from_level_buy_wf hwf.buy huidb hlvmem
          have hpermA : List.Perm
              ((o :: ordersOf (b.remove_order_from_level o true).buy_levels) ++
                ordersOf b.sell_levels)
              (ordersOf b.buy_levels ++ ordersOf b.sell_levels) :=
            hperm.append_right _
          refine ⟨hside', ?_, ?_, ?_, ?_, ?_, ?_⟩
          · dsimp only
            rw [hsEq, hskEq]
            exact hwf.sell
          · intro lb hlb ls hls
            dsimp only at hlb hls
            rw [hsEq] at hls
            have h1 : lb.limit_price ∈ b.buy_levels.map Level.limit_price :=
              hsub.subset (List.mem_map_of_mem _ (List.mem_of_mem_head? hlb))
            cases hbl : b.buy_levels with
            | nil =>
              rw [hbl] at h1
              simp at h1
            | cons h0 r0 =>
              have hle : lb.limit_price ≤ h0.limit_price := by
                have hp := pairwise_price_iff.mp hwf.buy.1
                rw [hbl] at hp h1
                simp only [List.map_cons] at hp h1
                exact sorted_desc_le_head hp h1
              have hlt : h0.limit_price < ls.limit_price := by
                refine hwf.cross h0 ?_ ls hls
                rw [hbl]
                rfl
              exact lt_of_le_of_lt hle hlt
          · show ((ordersOf (b.remove_order_from_level o true).buy_levels ++
              ordersOf (b.remove_order_from_level o true).sell_levels).map Order.uid).Nodup
            rw [hsEq]
            have hA : (((o :: ordersOf (b.remove_order_from_level o true).buy_levels) ++
                ordersOf b.sell_levels).map Order.uid).Nodup :=
              ((hpermA.map Order.uid).nodup_iff).mpr hwf.uids_nodup
            rw [List.cons_append, List.map_cons] at hA
            exact hA.of_cons
          · intro o' ho'
            have ho2 : o' ∈ ordersOf (b.remove_order_from_level o true).buy_levels ++
                ordersOf (b.remove_order_from_level o true).sell_levels := ho'
            rw [hsEq] at ho2
            have ho3 : o' ∈ b.allOrders := by
              rw [Book.allOrders]
              refine hpermA.subset ?_
              rw [List.cons_append]
              exact List.mem_cons_of_mem _ ho2
            have := hwf.uids_lt o' ho3
            dsimp only
            rw [hnuEq]
            exact this
          · dsimp only
            rw [hidmEq]
            exact assocErase_fst_nodup hwf.idm_nodup
          · intro a v hm
            dsimp only at hm
            rw [hidmEq] at hm
            show ∃ o2 ∈ ordersOf (b.remove_order_from_level o true).buy_levels ++
              ordersOf (b.remove_order_from_level o true).sell_levels,
              o2.uid = v ∧ o2.order_id = a
            rw [hsEq]
            obtain ⟨hmem, hne⟩ := (mem_assocErase hwf.idm_nodup a v).mp hm
            obtain ⟨o3, ho3, hu3, hid3⟩ := hwf.idm_resolves a v hmem
            rw [Book.allOrders, List.mem_append] at ho3
            rcases ho3 with h | h
            · have h4 : o3 ∈ o :: ordersOf (b.remove_order_from_level o true).buy_levels :=
                hperm.mem_iff.mpr h
              rcases List.mem_cons.mp h4 with h5 | h5
              · exfalso
                rw [h5] at hid3
                rw [hid3] at hid_eq
                exact hne hid_eq
              · exact ⟨o3, List.mem_append.mpr (Or.inl h5), hu3, hid3⟩
            · exact ⟨o3, List.mem_append.mpr (Or.inr h), hu3, hid3⟩
        | SELL =>
          have hb1 : (decide (OrderType.SELL = OrderType.BUY)) = false := rfl
          rw [hb1]
          have hlvmem : ∃ lv ∈ b.sell_levels, o ∈ lv.fifo := by
            have h1 := ho_mem
            rw [Book.allOrders, List.mem_append] at h1
            rcases h1 with h | h
            · exfalso
              obtain ⟨lv, hlv', hin⟩ := mem_ordersOf.mp h
              have h3 := ((hwf.buy.2.1 lv hlv').2.2.2.2.2 o hin).2.2.2.2
              rw [hty] at h3
              exact OrderType.noConfusion h3
            · exact mem_ordersOf.mp h
          obtain ⟨hside', hperm, hsub, hbEq, hbkEq, hidmEq, hnuEq⟩ :=
            remove_order_from_level_sell_wf hwf.sell huids hlvmem
          have hpermA : List.Perm
              (ordersOf b.buy_levels ++
                (o :: ordersOf (b.remove_order_from_level o false).sell_levels))
              (ordersOf b.buy_levels ++ ordersOf b.sell_levels) :=
            hperm.append_left _
          refine ⟨?_, hside', ?_, ?_, ?_, ?_, ?_⟩
          · dsimp only
            rw [hbEq, hbkEq]
            exact hwf.buy
          · intro lb hlb ls hls
            dsimp only at hlb hls
            rw [hbEq] at hlb
            have h1 : ls.limit_price ∈ b.sell_levels.map Level.limit_price :=
              hsub.subset (List.mem_map_of_mem _ (List.mem_of_mem_head? hls))
            cases hsl : b.sell_levels with
            | nil =>
              rw [hsl] at h1
              simp at h1
            | cons h0 r0 =>
              have hle : h0.limit_price ≤ ls.limit_price := by
                have hp := pairwise_price_iff.mp hwf.sell.1
                rw [hsl] at hp h1
                simp only [List.map_cons] at hp h1
                exact sorted_asc_head_le hp h1
              have hlt : lb.limit_price < h0.limit_price := by
                refine hwf.cross lb hlb h0 ?_
                rw [hsl]
                rfl
              exact lt_of_lt_of_le hlt hle
          · show ((ordersOf (b.remove_order_from_level o false).buy_levels ++
              ordersOf (b.remove_order_from_level o false).sell_levels).map Order.uid).Nodup
            rw [hbEq]
            have hA : ((ordersOf b.buy_levels ++
                (o :: ordersOf (b.remove_order_from_level o false).sell_levels)).map
                  Order.uid).Nodup :=
              ((hpermA.map Order.uid).nodup_iff).mpr hwf.uids_nodup
            have hmid : List.Sublist
                (ordersOf b.buy_levels ++
                  ordersOf (b.remove_order_from_level o false).sell_levels)
                (ordersOf b.buy_levels ++
                  (o :: ordersOf (b.remove_order_from_level o false).sell_levels)) :=
              List.Sublist.append_left (List.sublist_cons_self _ _) _
            exact hA.sublist (hmid.map Order.uid)
          · intro o' ho'
            have ho2 : o' ∈ ordersOf (b.remove_order_from_level o false).buy_levels ++
                ordersOf (b.remove_order_from_level o false).sell_levels := ho'
            rw [hbEq] at ho2
            have ho3 : o' ∈ b.allOrders := by
              rw [Book.allOrders]
              refine hpermA.subset ?_
              rcases List.mem_append.mp ho2 with h | h
              · exact List.mem_append.mpr (Or.inl h)
              · exact List.mem_append.mpr (Or.inr (List.mem_cons_of_mem _ h))
            have := hwf.uids_lt o' ho3
            dsimp only
            rw [hnuEq]
            exact this
          · dsimp only
            rw [hidmEq]
            exact assocErase_fst_nodup hwf.idm_nodup
          · intro a v hm
            dsimp only at hm
            rw [hidmEq] at hm
            show ∃ o2 ∈ ordersOf (b.remove_order_from_level o false).buy_levels ++
              ordersOf (b.remove_order_from_level o false).sell_levels,
              o2.uid = v ∧ o2.order_id = a
            rw [hbEq]
            obtain ⟨hmem, hne⟩ := (mem_assocErase hwf.idm_nodup a v).mp hm
            obtain ⟨o3, ho3, hu3, hid3⟩ := hwf.idm_resolves a v hmem
            rw [Book.allOrders, List.mem_append] at ho3
            rcases ho3 with h | h
            · exact ⟨o3, List.mem_append.mpr (Or.inl h), hu3, hid3⟩
            · have h4 : o3 ∈ o :: ordersOf (b.remove_order_from_level o false).sell_levels :=
                hperm.mem_iff.mpr h
              rcases List.mem_cons.mp h4 with h5 | h5
              · exfalso
                rw [h5] at hid3
                rw [hid3] at hid_eq
                exact hne hid_eq
              · exact ⟨o3, List.mem_append.mpr (Or.inr h5), hu3, hid3⟩
      · rw [if_neg hact]
        refine ⟨hwf.buy, hwf.sell, hwf.cross, hwf.uids_nodup, hwf.uids_lt,
          assocErase_fst_nodup hwf.idm_nodup, ?_⟩
        intro a v hm
        exact hwf.idm_resolves a v ((assocErase_sublist did b.id_to_order).subset hm)

/-- The empty book satisfies the whole-book invariant. -/
theorem BookWF_empty : BookWF Book.emptyBook := by
  refine ⟨?_, ?_, ?_, ?_, ?_, ?_, ?_⟩ <;> simp [SideWF, Book.emptyBook, Book.allOrders, ordersOf]

/-- Every book reachable through the public API satisfies the whole-book
invariant. -/
theorem Reachable_BookWF {b : Book} (h : Reachable b) : BookWF b := by
  induction h with
  | empty => exact BookWF_empty
  | place hr hrun ih => exact BookWF_place ih hrun
  | del id hr ih => exact BookWF_delete ih

/-- With no taker volume left the reference trade stream is empty. -/
theorem specTrades_zero (i : Nat) (s : OrderType) (p : Nat) (ls : List Level) :
    specTrades i s p 0 ls = [] := by
  cases ls with
  | nil => rfl
  | cons lv rest =>
    simp only [specTrades]
    rw [if_neg]
    intro hc
    exact hc.2 rfl

/-- A level satisfying the per-level invariant is not empty (its
`order_number` counter is positive). -/
theorem LevelWF_not_empty {s : OrderType} {lv : Level} (h : LevelWF s lv) :
    lv.is_empty = false := by
  obtain ⟨hne, hcount, -⟩ := h
  simp only [Level.is_empty, hcount, beq_eq_false_iff_ne, ne_eq,
    List.length_eq_zero]
  exact hne

/-- The inner FIFO loop appends exactly the reference per-level fill
sequence to the trade buffer and leaves the taker with the reference
residual volume. -/
theorem matchFifo_buf {inc : Order} {price : Nat} {fifo : List Order}
    {count total : Nat} {idm : List (Nat × Nat)} {buf : List Trade} {out : FifoOut}
    (hrun : matchFifo inc price fifo count total idm buf = .ok out) :
    out.buf = buf ++ (specFillsLevel inc.order_id price inc.remaining_volume fifo).1 ∧
    out.inc.remaining_volume =
      (specFillsLevel inc.order_id price inc.remaining_volume fifo).2 ∧
    out.inc.order_id = inc.order_id ∧ out.inc.order_price = inc.order_price := by
  induction fifo generalizing inc count total idm buf out with
  | nil =>
    simp only [matchFifo] at hrun
    cases hrun
    simp [specFillsLevel]
  | cons r rest ih =>
    simp only [matchFifo] at hrun
    by_cases hf : inc.is_fulfilled = true
    · rw [if_pos hf] at hrun
      cases hrun
      have hv0 : inc.remaining_volume = 0 := by
        simpa [Order.is_fulfilled] using hf
      simp [specFillsLevel, hv0]
    · rw [if_neg hf] at hrun
      have hv0 : ¬ inc.remaining_volume = 0 := by
        simpa [Order.is_fulfilled] using hf
      simp only [Order.fill_of_le (Nat.min_le_left _ _),
        Order.fill_of_le (Nat.min_le_right _ _)] at hrun
      by_cases hr : r.remaining_volume - min r.remaining_volume inc.remaining_volume = 0
      · simp only [Order.is_fulfilled, hr, beq_self_eq_true, if_true,
          eq_self_iff_true] at hrun
        have hle : r.remaining_volume ≤ inc.remaining_volume := by omega
        have h := ih hrun
        dsimp only at h
        obtain ⟨hbuf, hrem, hid, hpr⟩ := h
        simp only [specFillsLevel]
        rw [if_neg hv0, if_pos hle]
        dsimp only
        refine ⟨?_, hrem, hid, hpr⟩
        rw [hbuf]
        simp
      · rw [if_neg (by simp [Order.is_fulfilled, hr])] at hrun
        cases hrun
        simp only [specFillsLevel]
        have hlt : ¬ r.remaining_volume ≤ inc.remaining_volume := by omega
        rw [if_neg hv0, if_neg hlt]
        simp

/-- `Book::match_against_level` on a well-formed level appends exactly the
reference per-level fill sequence. -/
theorem match_against_level_buf {inc : Order} {lv : Level}
    {idm : List (Nat × Nat)} {buf : List Trade} {mal : MalOut}
    (hrun : match_against_level inc lv idm buf = .ok mal)
    (hne : lv.is_empty = false) :
    mal.buf = buf ++
      (specFillsLevel inc.order_id lv.limit_price inc.remaining_volume lv.fifo).1 ∧
    mal.inc.remaining_volume =
      (specFillsLevel inc.order_id lv.limit_price inc.remaining_volume lv.fifo).2 ∧
    mal.inc.order_id = inc.order_id ∧ mal.inc.order_price = inc.order_price := by
  unfold match_against_level at hrun
  rw [hne] at hrun
  rw [if_neg (by simp)] at hrun
  rcases hm : matchFifo inc lv.limit_price lv.fifo lv.order_number lv.total_volume
      idm buf with e | fout
  · rw [hm] at hrun
    exact absurd hrun (by simp)
  · rw [hm] at hrun
    dsimp only at hrun
    cases hrun
    dsimp only
    exact matchFifo_buf hm

/-- The BUY matching loop produces exactly the reference trade stream
`specTrades` over the sell list. -/
theorem matchBuyLoop_buf {inc : Order} {levels : List Level} {keys : List Nat}
    {idm : List (Nat × Nat)} {buf : List Trade} {out : LoopOut}
    (hrun : matchBuyLoop inc levels keys idm buf = .ok out)
    (hlv : ∀ lv ∈ levels, LevelWF .SELL lv) :
    out.buf = buf ++
      specTrades inc.order_id .BUY inc.order_price inc.remaining_volume levels := by
  induction levels generalizing inc keys idm buf out with
  | nil =>
    simp only [matchBuyLoop] at hrun
    cases hrun
    simp [specTrades]
  | cons lv rest ih =>
    simp only [matchBuyLoop] at hrun
    simp only [specTrades]
    by_cases hcond : inc.order_price ≥ lv.limit_price ∧ ¬ inc.is_fulfilled = true
    · rw [if_pos hcond] at hrun
      have hv0 : inc.remaining_volume ≠ 0 := by
        simpa [Order.is_fulfilled] using hcond.2
      rw [if_pos (by exact ⟨by simpa using hcond.1, hv0⟩)]
      rcases hm : match_against_level inc lv idm buf with e | malout
      · rw [hm] at hrun
        exact absurd hrun (by simp)
      · rw [hm] at hrun
        dsimp only at hrun
        obtain ⟨hbuf, hrem, hid, hpr⟩ :=
          match_against_level_buf hm (LevelWF_not_empty (hlv lv (List.mem_cons_self _ _)))
        by_cases hemp : malout.levelEmpty = true
        · rw [if_pos hemp] at hrun
          have hrec := ih hrun (fun l hl => hlv l (List.mem_cons_of_mem _ hl))
          rw [hid, hpr, hrem, hbuf] at hrec
          rw [hrec]
          rw [List.append_assoc]
        · rw [if_neg hemp] at hrun
          by_cases hff : malout.inc.is_fulfilled = true
          · rw [if_pos hff] at hrun
            cases hrun
            dsimp only
            have hz : (specFillsLevel inc.order_id lv.limit_price
                inc.remaining_volume lv.fifo).2 = 0 := by
              rw [← hrem]
              simpa [Order.is_fulfilled] using hff
            rw [hz, specTrades_zero, hbuf]
            simp
          · rw [if_neg hff] at hrun
            exact absurd hrun (by simp)
    · rw [if_neg hcond] at hrun
      cases hrun
      rw [if_neg (fun hc => hcond ⟨by simpa using hc.1, by
        simp only [Order.is_fulfilled, ne_eq, beq_iff_eq]
        exact hc.2⟩)]
      simp

/-- The SELL matching loop produces exactly the reference trade stream
`specTrades` over the buy list; mirror image of `matchBuyLoop_buf`. -/
theorem matchSellLoop_buf {inc : Order} {levels : List Level} {keys : List Nat}
    {idm : List (Nat × Nat)} {buf : List Trade} {out : LoopOut}
    (hrun : matchSellLoop inc levels keys idm buf = .ok out)
    (hlv : ∀ lv ∈ levels, LevelWF .BUY lv) :
    out.buf = buf ++
      specTrades inc.order_id .SELL inc.order_price inc.remaining_volume levels := by
  induction levels generalizing inc keys idm buf out with
  | nil =>
    simp only [matchSellLoop] at hrun
    cases hrun
    simp [specTrades]
  | cons lv rest ih =>
    simp only [matchSellLoop] at hrun
    simp only [specTrades]
    by_cases hcond : inc.order_price ≤ lv.limit_price ∧ ¬ inc.is_fulfilled = true
    · rw [if_pos hcond] at hrun
      have hv0 : inc.remaining_volume ≠ 0 := by
        simpa [Order.is_fulfilled] using hcond.2
      rw [if_pos (by exact ⟨by simpa using hcond.1, hv0⟩)]
      rcases hm : match_against_level inc lv idm buf with e | malout
      · rw [hm] at hrun
        exact absurd hrun (by simp)
      · rw [hm] at hrun
        dsimp only at hrun
        obtain ⟨hbuf, hrem, hid, hpr⟩ :=
          match_against_level_buf hm (LevelWF_not_empty (hlv lv (List.mem_cons_self _ _)))
        by_cases hemp : malout.levelEmpty = true
        · rw [if_pos hemp] at hrun
          have hrec := ih hrun (fun l hl => hlv l (List.mem_cons_of_mem _ hl))
          rw [hid, hpr, hrem, hbuf] at hrec
          rw [hrec]
          rw [List.append_assoc]
        · rw [if_neg hemp] at hrun
          by_cases hff : malout.inc.is_fulfilled = true
          · rw [if_pos hff] at hrun
            cases hrun
            dsimp only
            have hz : (specFillsLevel inc.order_id lv.limit_price
                inc.remaining_volume lv.fifo).2 = 0 := by
              rw [← hrem]
              simpa [Order.is_fulfilled] using hff
            rw [hz, specTrades_zero, hbuf]
            simp
          · rw [if_neg hff] at hrun
            exact absurd hrun (by simp)
    · rw [if_neg hcond] at hrun
      cases hrun
      rw [if_neg (fun hc => hcond ⟨by simpa using hc.1, by
        simp only [Order.is_fulfilled, ne_eq, beq_iff_eq]
        exact hc.2⟩)]
      simp

/-- The trade list returned by `Book::place_order` is exactly the reference
trade stream over the opposite side (and empty for rejected input). -/
theorem place_order_trades {b : Book} {oid agent pr vol : Nat} {ty : OrderType}
    {t : List Trade} {b' : Book} (hwf : BookWF b)
    (hrun : b.place_order oid agent ty pr vol = .ok (t, b')) :
    t = if pr % U32 = 0 ∨ vol % U64 = 0 then ([] : List Trade)
        else specTrades oid ty (pr % U32) (vol % U64) (b.oppLevels ty) := by
  rw [Book.place_order] at hrun
  by_cases hval : pr % U32 = 0 ∨ vol % U64 = 0
  · rw [if_pos hval] at hrun
    rw [if_pos hval]
    simp only [Except.ok.injEq, Prod.mk.injEq] at hrun
    exact hrun.1.symm
  · rw [if_neg hval] at hrun
    rw [if_neg hval]
    cases ty with
    | BUY =>
      dsimp only at hrun
      rcases hm : matchBuyLoop
          (⟨oid, agent, .BUY, pr % U32, vol % U64, vol % U64, .ACTIVE, b.next_uid⟩ : Order)
          b.sell_levels b.sell_map_keys b.id_to_order ([] : List Trade) with e | out
      · rw [hm] at hrun
        exact absurd hrun (by simp)
      · rw [hm] at hrun
        dsimp only at hrun
        have hbuf := matchBuyLoop_buf hm hwf.sell.2.1
        by_cases hful : out.inc.is_fulfilled = true
        · rw [if_neg (not_not_intro hful)] at hrun
          simp only [Except.ok.injEq, Prod.mk.injEq] at hrun
          rw [← hrun.1, hbuf]
          simp [Book.oppLevels]
        · rw [if_pos hful] at hrun
          simp only [Except.ok.injEq, Prod.mk.injEq] at hrun
          rw [← hrun.1, hbuf]
          simp [Book.oppLevels]
    | SELL =>
      dsimp only at hrun
      rcases hm : matchSellLoop
          (⟨oid, agent, .SELL, pr % U32, vol % U64, vol % U64, .ACTIVE, b.next_uid⟩ : Order)
          b.buy_levels b.buy_map_keys b.id_to_order ([] : List Trade) with e | out
      · rw [hm] at hrun
        exact absurd hrun (by simp)
      · rw [hm] at hrun
        dsimp only at hrun
        have hbuf := matchSellLoop_buf hm hwf.buy.2.1
        by_cases hful : out.inc.is_fulfilled = true
        · rw [if_neg (not_not_intro hful)] at hrun
          simp only [Except.ok.injEq, Prod.mk.injEq] at hrun
          rw [← hrun.1, hbuf]
          simp [Book.oppLevels]
        · rw [if_pos hful] at hrun
          simp only [Except.ok.injEq, Prod.mk.injEq] at hrun
          rw [← hrun.1, hbuf]
          simp [Book.oppLevels]

theorem assocGet_eq_none_of_not_mem {k : Nat} {m : List (Nat × Nat)}
    (h : k ∉ m.map Prod.fst) : assocGet k m = none := by
  induction m with
  | nil => rfl
  | cons e t ih =>
    obtain ⟨k', v'⟩ := e
    simp only [List.map_cons, List.mem_cons] at h
    push_neg at h
    simp only [assocGet]
    rw [if_neg (fun hc => h.1 hc.symm)]
    exact ih h.2

/-- Erasing a key from a duplicate-free association list removes it
entirely. -/
theorem assocGet_assocErase {k : Nat} {m : List (Nat × Nat)}
    (h : (m.map Prod.fst).Nodup) : assocGet k (assocErase k m) = none := by
  induction m with
  | nil => rfl
  | cons e t ih =>
    obtain ⟨k', v'⟩ := e
    simp only [List.map_cons, List.nodup_cons] at h
    simp only [assocErase]
    by_cases hk : k' = k
    · rw [if_pos hk]
      refine assocGet_eq_none_of_not_mem ?_
      rw [← hk]
      exact h.1
    · rw [if_neg hk]
      simp only [assocGet]
      rw [if_neg hk]
      exact ih h.2

/-- `remove_order_from_level` never touches the id map. -/
theorem remove_order_from_level_idm (o : Order) (ib : Bool) (b : Book) :
    (b.remove_order_from_level o ib).id_to_order = b.id_to_order := by
  unfold Book.remove_order_from_level
  dsimp only
  repeat' split
  all_goals rfl

/-- `delete_order` of an id absent from the map is the identity. -/
theorem delete_order_noop {b : Book} {did : Nat}
    (hg : assocGet did b.id_to_order = none) : b.delete_order did = b := by
  unfold Book.delete_order
  rw [hg]

/-- After a `delete_order`, either nothing happened (unknown id) or the id
has been erased from the map. -/
theorem delete_order_idm (b : Book) (did : Nat) :
    (b.delete_order did = b ∧ assocGet did b.id_to_order = none) ∨
    (b.delete_order did).id_to_order = assocErase did b.id_to_order := by
  unfold Book.delete_order
  rcases hg : assocGet did b.id_to_order with _ | u
  · exact Or.inl ⟨rfl, rfl⟩
  · dsimp only
    rcases hf : b.findOrderByUid u with _ | o
    · exact Or.inr rfl
    · dsimp only
      by_cases hact : o.order_status = OrderStatus.ACTIVE
      · rw [if_pos hact]
        refine Or.inr ?_
        dsimp only
        rw [remove_order_from_level_idm]
      · rw [if_neg hact]
        exact Or.inr rfl

/-- Cancelling the same id twice is the same as cancelling it once. -/
theorem delete_order_idem {b : Book} (hwf : BookWF b) (did : Nat) :
    (b.delete_order did).delete_order did = b.delete_order did := by
  rcases delete_order_idm b did with ⟨heq, hg⟩ | hidm
  · rw [heq]
    exact delete_order_noop hg
  · refine delete_order_noop ?_
    rw [hidm]
    exact assocGet_assocErase hwf.idm_nodup

/-- With every level non-empty the price walk returns every level's price. -/
theorem collectPrices_eq_map {s : OrderType} {ls : List Level}
    (h : ∀ lv ∈ ls, LevelWF s lv) :
    collectPrices ls = ls.map Level.limit_price := by
  induction ls with
  | nil => rfl
  | cons lv t ih =>
    simp only [collectPrices, List.map_cons]
    rw [LevelWF_not_empty (h lv (List.mem_cons_self _ _))]
    rw [if_neg (by simp)]
    rw [ih (fun l hl => h l (List.mem_cons_of_mem _ hl))]

/-- Every order resting in a well-formed book is `ACTIVE`. -/
theorem allOrders_active {b : Book} (hwf : BookWF b) {o : Order}
    (ho : o ∈ b.allOrders) : o.order_status = .ACTIVE := by
  rw [Book.allOrders, List.mem_append] at ho
  rcases ho with h | h
  · obtain ⟨lv, hlv, hin⟩ := mem_ordersOf.mp h
    exact ((hwf.buy.2.1 lv hlv).2.2.2.2.2 o hin).1
  · obtain ⟨lv, hlv, hin⟩ := mem_ordersOf.mp h
    exact ((hwf.sell.2.1 lv hlv).2.2.2.2.2 o hin).1

/-- On well-formed levels the BUY matching loop always terminates
normally. -/
theorem matchBuyLoop_isOk {inc : Order} {levels : List Level} (keys : List Nat)
    (idm : List (Nat × Nat)) (buf : List Trade)
    (hlv : ∀ lv ∈ levels, LevelWF .SELL lv)
    (hinc : inc.remaining_volume < U64)
    (hidm : (idm.map Prod.fst).Nodup) :
    ∃ out, matchBuyLoop inc levels keys idm buf = .ok out := by
  induction levels generalizing inc keys idm buf with
  | nil => exact ⟨_, rfl⟩
  | cons lv rest ih =>
    simp only [matchBuyLoop]
    by_cases hcond : inc.order_price ≥ lv.limit_price ∧ ¬ inc.is_fulfilled = true
    · rw [if_pos hcond]
      obtain ⟨mal, hm⟩ := match_against_level_isOk inc lv idm buf
      rw [hm]
      dsimp only
      obtain ⟨hpr, post, hiff⟩ :=
        match_against_level_wf hm (hlv lv (List.mem_cons_self _ _)) hinc hidm
      by_cases hemp : mal.levelEmpty = true
      · rw [if_pos hemp]
        exact ih _ _ _ (fun l hl => hlv l (List.mem_cons_of_mem _ hl))
          (lt_of_le_of_lt post.inc_rem_le hinc) post.idm_nodup
      · rw [if_neg hemp]
        have hne : mal.lv.fifo ≠ [] := by
          intro hc
          exact hemp (hiff.mpr hc)
        rcases post.exit_fulfilled hne with h | h
        · rw [if_pos h]
          exact ⟨_, rfl⟩
        · exact absurd h hcond.2
    · rw [if_neg hcond]
      exact ⟨_, rfl⟩

/-- On well-formed levels the SELL matching loop always terminates
normally. -/
theorem matchSellLoop_isOk {inc : Order} {levels : List Level} (keys : List Nat)
    (idm : List (Nat × Nat)) (buf : List Trade)
    (hlv : ∀ lv ∈ levels, LevelWF .BUY lv)
    (hinc : inc.remaining_volume < U64)
    (hidm : (idm.map Prod.fst).Nodup) :
    ∃ out, matchSellLoop inc levels keys idm buf = .ok out := by
  induction levels generalizing inc keys idm buf with
  | nil => exact ⟨_, rfl⟩
  | cons lv rest ih =>
    simp only [matchSellLoop]
    by_cases hcond : inc.order_price ≤ lv.limit_price ∧ ¬ inc.is_fulfilled = true
    · rw [if_pos hcond]
      obtain ⟨mal, hm⟩ := match_against_level_isOk inc lv idm buf
      rw [hm]
      dsimp only
      obtain ⟨hpr, post, hiff⟩ :=
        match_against_level_wf hm (hlv lv (List.mem_cons_self _ _)) hinc hidm
      by_cases hemp : mal.levelEmpty = true
      · rw [if_pos hemp]
        exact ih _ _ _ (fun l hl => hlv l (List.mem_cons_of_mem _ hl))
          (lt_of_le_of_lt post.inc_rem_le hinc) post.idm_nodup
      · rw [if_neg hemp]
        have hne : mal.lv.fifo ≠ [] := by
          intro hc
          exact hemp (hiff.mpr hc)
        rcases post.exit_fulfilled hne with h | h
        · rw [if_pos h]
          exact ⟨_, rfl⟩
        · exact absurd h hcond.2
    · rw [if_neg hcond]
      exact ⟨_, rfl⟩

/-- On a well-formed book `place_order` always returns normally. -/
theorem place_order_ok {b : Book} (hwf : BookWF b) (oid agent : Nat)
    (ty : OrderType) (pr vol : Nat) :
    ∃ t b', b.place_order oid agent ty pr vol = .ok (t, b') := by
  rw [Book.place_order]
  by_cases hval : pr % U32 = 0 ∨ vol % U64 = 0
  · rw [if_pos hval]
    exact ⟨_, _, rfl⟩
  · rw [if_neg hval]
    cases ty with
    | BUY =>
      dsimp only
      obtain ⟨out, hm⟩ := @matchBuyLoop_isOk
          ⟨oid, agent, .BUY, pr % U32, vol % U64, vol % U64, .ACTIVE, b.next_uid⟩
        b.sell_levels b.sell_map_keys b.id_to_order [] hwf.sell.2.1
        (Nat.mod_lt vol U64_pos) hwf.idm_nodup
      rw [hm]
      dsimp only
      by_cases hful : out.inc.is_fulfilled = true
      · rw [if_neg (not_not_intro hful)]
        exact ⟨_, _, rfl⟩
      · rw [if_pos hful]
        exact ⟨_, _, rfl⟩
    | SELL =>
      dsimp only
      obtain ⟨out, hm⟩ := @matchSellLoop_isOk
          ⟨oid, agent, .SELL, pr % U32, vol % U64, vol % U64, .ACTIVE, b.next_uid⟩
        b.buy_levels b.buy_map_keys b.id_to_order [] hwf.buy.2.1
        (Nat.mod_lt vol U64_pos) hwf.idm_nodup
      rw [hm]
      dsimp only
      by_cases hful : out.inc.is_fulfilled = true
      · rw [if_neg (not_not_intro hful)]
        exact ⟨_, _, rfl⟩
      · rw [if_pos hful]
        exact ⟨_, _, rfl⟩

/-- Capacity added by `k` successive slabs. -/
theorem add_slab_iterate_capacity (k : Nat) (p : SlabPool) :
    (SlabPool.add_slab^[k] p).total_capacity =
      p.total_capacity + k * SlabPool.SLAB_SIZE := by
  induction k with
  | zero => simp
  | succ n ih =>
    rw [Function.iterate_succ_apply', SlabPool.add_slab]
    dsimp only
    rw [ih]
    ring

/-- Every reachable pool state has a capacity that is a multiple of
`SLAB_SIZE`, and one `allocate` grows the capacity by exactly one slab
when and only when the free list is empty. -/
theorem SlabPool_capacity {p : SlabPool} (h : SlabPool.Reach p) :
    p.total_capacity % SlabPool.SLAB_SIZE = 0 ∧
    p.allocate.total_capacity =
      (if p.free_count = 0 then p.total_capacity + SlabPool.SLAB_SIZE
       else p.total_capacity) := by
  have halloc : ∀ q : SlabPool, q.allocate.total_capacity =
      (if q.free_count = 0 then q.total_capacity + SlabPool.SLAB_SIZE
       else q.total_capacity) := by
    intro q
    rw [SlabPool.allocate]
    by_cases hq : q.free_count = 0
    · rw [if_pos hq, if_pos hq]
      rfl
    · rw [if_neg hq, if_neg hq]
  refine ⟨?_, halloc p⟩
  induction h with
  | init n =>
    rw [SlabPool.init, add_slab_iterate_capacity]
    simp [Nat.mul_mod_left]
  | alloc hr ih =>
    rename_i q
    rw [halloc q]
    by_cases hq : q.free_count = 0
    · rw [if_pos hq]
      rw [Nat.add_mod_right]
      exact ih
    · rw [if_neg hq]
      exact ih
  | dealloc hr hpos ih => exact ih

/-! ## Concrete reachable states for the seed scenarios and counterexamples -/

/-- Book after `place_order(1, BUY, 100, 10)` from empty (spec scenario S3,
first step). -/
def s3b1 : Book := match Book.emptyBook.place_order 1 1 .BUY 100 10 with
  | .ok (_, b) => b
  | .error _ => Book.emptyBook

/-- Book after the further `place_order(2, BUY, 100, 20)` (S3, second
step). -/
def s3b2 : Book := match s3b1.place_order 2 2 .BUY 100 20 with
  | .ok (_, b) => b
  | .error _ => Book.emptyBook

/-- Book after the further `place_order(3, SELL, 100, 25)` (S3, third
step). -/
def s3b3 : Book := match s3b2.place_order 3 3 .SELL 100 25 with
  | .ok (_, b) => b
  | .error _ => Book.emptyBook

theorem Reach_s3b1 : Reachable s3b1 := by
  have h : Book.emptyBook.place_order 1 1 .BUY 100 10 = .ok ([], s3b1) := rfl
  exact Reachable.place Reachable.empty h

theorem Reach_s3b2 : Reachable s3b2 := by
  have h : s3b1.place_order 2 2 .BUY 100 20 = .ok ([], s3b2) := rfl
  exact Reachable.place Reach_s3b1 h

theorem Reach_s3b3 : Reachable s3b3 := by
  have h : s3b2.place_order 3 3 .SELL 100 25 =
      .ok ([⟨3, 1, 100, 10⟩, ⟨3, 2, 100, 15⟩], s3b3) := rfl
  exact Reachable.place Reach_s3b2 h

/-- Book holding one resting BUY of `2^63` units at price 100. -/
def c4b1 : Book := match Book.emptyBook.place_order 1 1 .BUY 100 9223372036854775808 with
  | .ok (_, b) => b
  | .error _ => Book.emptyBook

/-- Book holding two resting BUYs of `2^63` units each at price 100: their
remaining volumes sum to `2^64`, which the level's 64-bit `total_volume`
counter stores as 0. -/
def c4b2 : Book := match c4b1.place_order 2 2 .BUY 100 9223372036854775808 with
  | .ok (_, b) => b
  | .error _ => Book.emptyBook

/-- Book holding one resting BUY at price 3000000000. -/
def c8b1 : Book := match Book.emptyBook.place_order 1 1 .BUY 3000000000 10 with
  | .ok (_, b) => b
  | .error _ => Book.emptyBook

/-- Two-sided book: best bid 3000000000, best ask 3000000001; their sum
exceeds `2^32`, so the `unsigned int` addition in `get_mid_price` wraps. -/
def c8b2 : Book := match c8b1.place_order 2 2 .SELL 3000000001 10 with
  | .ok (_, b) => b
  | .error _ => Book.emptyBook

theorem Reach_c8b1 : Reachable c8b1 := by
  have h : Book.emptyBook.place_order 1 1 .BUY 3000000000 10 = .ok ([], c8b1) := rfl
  exact Reachable.place Reachable.empty h

theorem Reach_c8b2 : Reachable c8b2 := by
  have h : c8b1.place_order 2 2 .SELL 3000000001 10 = .ok ([], c8b2) := rfl
  exact Reachable.place Reach_c8b1 h

/-! ## The claims -/

/-- C1: after any finite sequence of `place_order`/`delete_order` calls from
the empty book (any reachable book), either a side is empty or the best bid
price is strictly below the best ask price — no crossed book at rest. -/
theorem c1_no_crossed_book {b : Book} (h : Reachable b) :
    b.buy_levels = [] ∨ b.sell_levels = [] ∨ b.get_best_buy < b.get_best_sell := by
  have hwf := Reachable_BookWF h
  cases hb : b.buy_levels with
  | nil => exact Or.inl rfl
  | cons lb r =>
    cases hs : b.sell_levels with
    | nil => exact Or.inr (Or.inl rfl)
    | cons ls r2 =>
      refine Or.inr (Or.inr ?_)
      have hcr := hwf.cross lb (by rw [hb]; rfl) ls (by rw [hs]; rfl)
      rw [Book.get_best_buy, Book.get_best_sell, hb, hs]
      exact hcr

/-- C1 witness: the two-sided reachable book `c8b2` (bid 3000000000, ask
3000000001) is not crossed. -/
theorem c1_witness :
    c8b2.buy_levels = [] ∨ c8b2.sell_levels = [] ∨
      c8b2.get_best_buy < c8b2.get_best_sell :=
  c1_no_crossed_book Reach_c8b2

/-- C2: the trades a `place_order` call returns are exactly the reference
stream `specTrades` — walking the opposite side's levels best resting price
first, consuming each level's FIFO in insertion order with
`min(resting remaining, incoming remaining)` fills, every trade priced at
the resting level's price — and empty for rejected input. -/
theorem c2_trade_stream {b : Book} {oid agent pr vol : Nat} {ty : OrderType}
    {t : List Trade} {b' : Book} (h : Reachable b)
    (hrun : b.place_order oid agent ty pr vol = .ok (t, b')) :
    t = if pr % U32 = 0 ∨ vol % U64 = 0 then ([] : List Trade)
        else specTrades oid ty (pr % U32) (vol % U64) (b.oppLevels ty) :=
  place_order_trades (Reachable_BookWF h) hrun

/-- C2 witness: placing `(3, SELL, 100, 25)` on the S3 book yields the
reference stream over the resting buy side. -/
theorem c2_witness :
    s3b2.place_order 3 3 .SELL 100 25 =
      .ok ([⟨3, 1, 100, 10⟩, ⟨3, 2, 100, 15⟩], s3b3) ∧
    ([⟨3, 1, 100, 10⟩, ⟨3, 2, 100, 15⟩] : List Trade) =
      if (100 : Nat) % U32 = 0 ∨ (25 : Nat) % U64 = 0 then ([] : List Trade)
      else specTrades 3 .SELL (100 % U32) (25 % U64) (s3b2.oppLevels .SELL) := by
  have h : s3b2.place_order 3 3 .SELL 100 25 =
      .ok ([⟨3, 1, 100, 10⟩, ⟨3, 2, 100, 15⟩], s3b3) := rfl
  exact ⟨h, c2_trade_stream Reach_s3b2 h⟩

/-- C3: spec scenario S3 — from empty, after `place_order(1, BUY, 100, 10)`
and `place_order(2, BUY, 100, 20)`, the call `place_order(3, SELL, 100, 25)`
returns exactly `[(3,1,100,10), (3,2,100,15)]`; afterwards order 1 is
`DELETED` and no longer indexed, and order 2 is `ACTIVE` with remaining
volume 5. -/
theorem c3_s3_partial_fill :
    Book.emptyBook.place_order 1 1 .BUY 100 10 = .ok ([], s3b1) ∧
    s3b1.place_order 2 2 .BUY 100 20 = .ok ([], s3b2) ∧
    s3b2.place_order 3 3 .SELL 100 25 =
      .ok ([⟨3, 1, 100, 10⟩, ⟨3, 2, 100, 15⟩], s3b3) ∧
    s3b3.get_order_status 1 = .DELETED ∧
    assocGet 1 s3b3.id_to_order = none ∧
    s3b3.get_order_status 2 = .ACTIVE ∧
    assocGet 2 s3b3.id_to_order = some 1 ∧
    s3b3.findOrderByUid 1 = some ⟨2, 2, .BUY, 100, 20, 5, .ACTIVE, 1⟩ :=
  ⟨rfl, rfl, rfl, rfl, rfl, rfl, rfl, rfl⟩

/-- C4 counterexample: two resting orders of `2^63` units at one price are
reachable; the level's 64-bit `total_volume` counter then reads 0 while the
sum of remaining volumes is `2^64` — the counter equals the sum only modulo
`2^64`. -/
theorem c4_counterexample :
    Book.emptyBook.place_order 1 1 .BUY 100 9223372036854775808 = .ok ([], c4b1) ∧
    c4b1.place_order 2 2 .BUY 100 9223372036854775808 = .ok ([], c4b2) ∧
    c4b2.buy_levels.map (fun lv => (lv.order_number, lv.total_volume,
      (lv.fifo.map Order.remaining_volume).sum)) = [(2, 0, 18446744073709551616)] ∧
    (0 : Nat) ≠ 18446744073709551616 :=
  ⟨rfl, rfl, rfl, by decide⟩

/-- C4 (amended): in every reachable book every level's `order_count`
equals its FIFO length and `order_count = 0` exactly when head and tail are
both absent, but `total_volume` equals the sum of remaining volumes only
reduced modulo `2^64` (the counter is a `uint64_t` and wraps). -/
theorem c4_level_counters {b : Book} (h : Reachable b) :
    ∀ lv ∈ b.buy_levels ++ b.sell_levels,
      lv.order_number = lv.fifo.length ∧
      lv.total_volume = (lv.fifo.map Order.remaining_volume).sum % U64 ∧
      (lv.order_number = 0 ↔ lv.get_head = none ∧ lv.get_tail = none) := by
  have hwf := Reachable_BookWF h
  intro lv hlv
  have hside : LevelWF .BUY lv ∨ LevelWF .SELL lv := by
    rcases List.mem_append.mp hlv with hm | hm
    · exact Or.inl (hwf.buy.2.1 lv hm)
    · exact Or.inr (hwf.sell.2.1 lv hm)
  have hkey : lv.fifo ≠ [] ∧ lv.order_number = lv.fifo.length ∧
      lv.total_volume = (lv.fifo.map Order.remaining_volume).sum % U64 := by
    rcases hside with ⟨hne, hc, ht, -⟩ | ⟨hne, hc, ht, -⟩ <;> exact ⟨hne, hc, ht⟩
  obtain ⟨hne, hcount, htot⟩ := hkey
  refine ⟨hcount, htot, ?_⟩
  cases hf : lv.fifo with
  | nil => exact absurd hf hne
  | cons a t =>
    constructor
    · intro h0
      rw [hcount, hf] at h0
      simp at h0
    · intro hht
      have hh := hht.1
      rw [Level.get_head, hf] at hh
      simp at hh

/-- C4 witness: the counters of the single level of the reachable S3 end
state. -/
theorem c4_witness :
    (⟨100, 1, 5, [⟨2, 2, .BUY, 100, 20, 5, .ACTIVE, 1⟩]⟩ : Level) ∈
      s3b3.buy_levels ++ s3b3.sell_levels ∧
    ((⟨100, 1, 5, [⟨2, 2, .BUY, 100, 20, 5, .ACTIVE, 1⟩]⟩ : Level).order_number =
      (⟨100, 1, 5, [⟨2, 2, .BUY, 100, 20, 5, .ACTIVE, 1⟩]⟩ : Level).fifo.length ∧
    (⟨100, 1, 5, [⟨2, 2, .BUY, 100, 20, 5, .ACTIVE, 1⟩]⟩ : Level).total_volume =
      ((⟨100, 1, 5, [⟨2, 2, .BUY, 100, 20, 5, .ACTIVE, 1⟩]⟩ : Level).fifo.map
        Order.remaining_volume).sum % U64 ∧
    ((⟨100, 1, 5, [⟨2, 2, .BUY, 100, 20, 5, .ACTIVE, 1⟩]⟩ : Level).order_number = 0 ↔
      (⟨100, 1, 5, [⟨2, 2, .BUY, 100, 20, 5, .ACTIVE, 1⟩]⟩ : Level).get_head = none ∧
      (⟨100, 1, 5, [⟨2, 2, .BUY, 100, 20, 5, .ACTIVE, 1⟩]⟩ : Level).get_tail = none)) :=
  ⟨by decide, c4_level_counters Reach_s3b3 _ (by decide)⟩

/-- C5: in every reachable book, `get_buy_prices()` is strictly decreasing,
`get_sell_prices()` is strictly increasing, and each walk returns exactly
the key set of that side's price→level map. -/
theorem c5_price_walks {b : Book} (h : Reachable b) :
    b.get_buy_prices.Pairwise (fun a c => c < a) ∧
    b.get_sell_prices.Pairwise (fun a c => a < c) ∧
    (∀ p, p ∈ b.buy_map_keys ↔ p ∈ b.get_buy_prices) ∧
    (∀ p, p ∈ b.sell_map_keys ↔ p ∈ b.get_sell_prices) := by
  have hwf := Reachable_BookWF h
  obtain ⟨hbs, hblv, hbkn, hbki⟩ := hwf.buy
  obtain ⟨hss, hslv, hskn, hski⟩ := hwf.sell
  rw [Book.get_buy_prices, Book.get_sell_prices, collectPrices_eq_map hblv,
    collectPrices_eq_map hslv]
  exact ⟨pairwise_price_iff.mp hbs, pairwise_price_iff.mp hss, hbki, hski⟩

/-- C5 witness: the price walks of the two-sided reachable book `c8b2`. -/
theorem c5_witness :
    c8b2.get_buy_prices.Pairwise (fun a c => c < a) ∧
    c8b2.get_sell_prices.Pairwise (fun a c => a < c) ∧
    (∀ p, p ∈ c8b2.buy_map_keys ↔ p ∈ c8b2.get_buy_prices) ∧
    (∀ p, p ∈ c8b2.sell_map_keys ↔ p ∈ c8b2.get_sell_prices) :=
  c5_price_walks Reach_c8b2

/-- C6: ignored failures are silent no-ops — rejected placements (zero
price or volume as 32/64-bit values) return an empty trade list with the
book unchanged, cancelling an unknown id leaves the book unchanged, and
cancelling the same id twice is the same as cancelling it once. -/
theorem c6_silent_noops {b : Book} (h : Reachable b) (oid agent : Nat)
    (ty : OrderType) (pr vol did : Nat) :
    ((pr % U32 = 0 ∨ vol % U64 = 0) →
      b.place_order oid agent ty pr vol = .ok ([], b)) ∧
    (assocGet did b.id_to_order = none → b.delete_order did = b) ∧
    (b.delete_order did).delete_order did = b.delete_order did := by
  have hwf := Reachable_BookWF h
  refine ⟨?_, fun hg => delete_order_noop hg, delete_order_idem hwf did⟩
  intro hval
  rw [Book.place_order, if_pos hval]

/-- C6 witness: on the reachable book `s3b1` a zero-price placement and the
double cancel of the absent id 9 are no-ops. -/
theorem c6_witness :
    ((0 : Nat) % U32 = 0 ∨ (10 : Nat) % U64 = 0 →
      s3b1.place_order 9 9 .BUY 0 10 = .ok ([], s3b1)) ∧
    (assocGet 9 s3b1.id_to_order = none → s3b1.delete_order 9 = s3b1) ∧
    (s3b1.delete_order 9).delete_order 9 = s3b1.delete_order 9 :=
  c6_silent_noops Reach_s3b1 9 9 .BUY 0 10 9

/-- C7: on every reachable book `place_order` returns normally — in the
embedding no run reaches the throwing branch of `Order::fill` (every fill
is the min of the two remaining volumes) and the matching loop terminates,
so no exception escapes the public API. -/
theorem c7_no_escape {b : Book} (h : Reachable b) (oid agent : Nat)
    (ty : OrderType) (pr vol : Nat) :
    ∃ t b', b.place_order oid agent ty pr vol = .ok (t, b') :=
  place_order_ok (Reachable_BookWF h) oid agent ty pr vol

/-- C7 witness: a crossing SELL against the reachable book `s3b1` returns
normally. -/
theorem c7_witness :
    ∃ t b', s3b1.place_order 7 7 .SELL 100 4 = .ok (t, b') :=
  c7_no_escape Reach_s3b1 7 7 .SELL 100 4

/-- C8 counterexample: on the reachable book `c8b2` (bid 3000000000, ask
3000000001) the `unsigned int` sum wraps modulo `2^32`, so `get_mid_price`
returns `1705032705 / 2` instead of the exact mean `6000000001 / 2` — the
mean is not exact over the full 32-bit price range. -/
theorem c8_counterexample :
    Book.emptyBook.place_order 1 1 .BUY 3000000000 10 = .ok ([], c8b1) ∧
    c8b1.place_order 2 2 .SELL 3000000001 10 = .ok ([], c8b2) ∧
    c8b2.get_best_buy = 3000000000 ∧ c8b2.get_best_sell = 3000000001 ∧
    c8b2.get_mid_price = (1705032705 : ℚ) / 2 ∧
    c8b2.get_mid_price ≠ ((3000000000 : ℚ) + 3000000001) / 2 := by
  have hb : c8b2.get_best_buy = 3000000000 := rfl
  have ha : c8b2.get_best_sell = 3000000001 := rfl
  refine ⟨rfl, rfl, hb, ha, ?_, ?_⟩
  · simp only [Book.get_mid_price, hb, ha]
    norm_num [U32]
  · simp only [Book.get_mid_price, hb, ha]
    norm_num [U32]

/-- C8 (amended): `get_mid_price` returns 0 when a side is empty and
otherwise the exact halved sum of the two best prices only after the sum is
reduced modulo `2^32` (`bid + ask` is `unsigned int` arithmetic); the value
is the exact arithmetic mean exactly when `bid + ask < 2^32`. -/
theorem c8_mid_price {b : Book} (h : Reachable b) :
    ((b.get_best_buy = 0 ∨ b.get_best_sell = 0) → b.get_mid_price = 0) ∧
    (b.get_best_buy ≠ 0 → b.get_best_sell ≠ 0 →
      b.get_mid_price = (((b.get_best_buy + b.get_best_sell) % U32 : Nat) : ℚ) / 2) ∧
    (b.get_best_buy ≠ 0 → b.get_best_sell ≠ 0 →
      b.get_best_buy + b.get_best_sell < U32 →
      b.get_mid_price = ((b.get_best_buy + b.get_best_sell : Nat) : ℚ) / 2) := by
  have h2 : b.get_best_buy ≠ 0 → b.get_best_sell ≠ 0 →
      b.get_mid_price = (((b.get_best_buy + b.get_best_sell) % U32 : Nat) : ℚ) / 2 := by
    intro hb hs
    simp only [Book.get_mid_price]
    rw [if_neg (by push_neg; exact ⟨hb, hs⟩)]
  refine ⟨?_, h2, ?_⟩
  · intro hz
    simp only [Book.get_mid_price]
    rw [if_pos hz]
  · intro hb hs hlt
    rw [h2 hb hs, Nat.mod_eq_of_lt hlt]

/-- C8 witness: the mid-price formula on the reachable two-sided book
`c8b2`. -/
theorem c8_witness :
    ((c8b2.get_best_buy = 0 ∨ c8b2.get_best_sell = 0) → c8b2.get_mid_price = 0) ∧
    (c8b2.get_best_buy ≠ 0 → c8b2.get_best_sell ≠ 0 →
      c8b2.get_mid_price =
        (((c8b2.get_best_buy + c8b2.get_best_sell) % U32 : Nat) : ℚ) / 2) ∧
    (c8b2.get_best_buy ≠ 0 → c8b2.get_best_sell ≠ 0 →
      c8b2.get_best_buy + c8b2.get_best_sell < U32 →
      c8b2.get_mid_price = ((c8b2.get_best_buy + c8b2.get_best_sell : Nat) : ℚ) / 2) :=
  c8_mid_price Reach_c8b2

/-- C9 counterexample: `SLAB_SIZE` is the fixed `static constexpr` 1024 for
every instantiation — there is no per-type template parameter and no 16384
slab for the Order pool: an exhausted pool (here the freshly constructed
pool of capacity 0, whose free list is empty) grows by exactly 1024 on the
next allocation, never by 16384. -/
theorem c9_counterexample :
    SlabPool.SLAB_SIZE = 1024 ∧ SlabPool.SLAB_SIZE ≠ 16384 ∧
    (SlabPool.init 0).total_capacity = 0 ∧ (SlabPool.init 0).free_count = 0 ∧
    (SlabPool.init 0).allocate.total_capacity = 1024 ∧
    (SlabPool.init 0).allocate.total_capacity ≠ 16384 := by
  decide

/-- C9 (amended): storage is organized in slabs of `SLAB_SIZE = 1024`
objects for every pool; each reachable pool's capacity is a multiple of
1024, and one `allocate` appends exactly one slab when and only when the
free list is empty. -/
theorem c9_slab_growth {p : SlabPool} (h : SlabPool.Reach p) :
    p.total_capacity % SlabPool.SLAB_SIZE = 0 ∧
    p.allocate.total_capacity =
      (if p.free_count = 0 then p.total_capacity + SlabPool.SLAB_SIZE
       else p.total_capacity) :=
  SlabPool_capacity h

/-- C9 witness: the freshly constructed pool of one slab. -/
theorem c9_witness :
    (SlabPool.init 1024).total_capacity % SlabPool.SLAB_SIZE = 0 ∧
    (SlabPool.init 1024).allocate.total_capacity =
      (if (SlabPool.init 1024).free_count = 0 then
        (SlabPool.init 1024).total_capacity + SlabPool.SLAB_SIZE
       else (SlabPool.init 1024).total_capacity) :=
  c9_slab_growth (SlabPool.Reach.init 1024)

/-- C10: in every reachable book every id the map holds resolves to a
resting order whose status is `ACTIVE` (fulfilled and cancelled orders are
erased from the map in the same step), so `get_order_status` never returns
`FULFILLED`. -/
theorem c10_active_only {b : Book} (h : Reachable b) :
    (∀ id u, (id, u) ∈ b.id_to_order →
      ∃ o, b.findOrderByUid u = some o ∧ o.order_status = .ACTIVE) ∧
    (∀ id, b.get_order_status id ≠ .FULFILLED) := by
  have hwf := Reachable_BookWF h
  have hres : ∀ id u, (id, u) ∈ b.id_to_order →
      ∃ o, b.findOrderByUid u = some o ∧ o.order_status = .ACTIVE := by
    intro id u hm
    obtain ⟨o, ho, hu, -⟩ := hwf.idm_resolves id u hm
    refine ⟨o, ?_, allOrders_active hwf ho⟩
    rw [← hu]
    exact findOrderByUid_spec hwf.uids_nodup ho
  refine ⟨hres, ?_⟩
  intro id
  unfold Book.get_order_status
  rcases hg : assocGet id b.id_to_order with _ | u
  · simp
  · obtain ⟨o, hfo, hact⟩ := hres id u (assocGet_mem hg)
    dsimp only
    rw [hfo]
    dsimp only
    rw [hact]
    simp

/-- C10 witness: the S3 end state maps only the `ACTIVE` order 2, and no
status query returns `FULFILLED`. -/
theorem c10_witness :
    (∀ id u, (id, u) ∈ s3b3.id_to_order →
      ∃ o, s3b3.findOrderByUid u = some o ∧ o.order_status = .ACTIVE) ∧
    (∀ id, s3b3.get_order_status id ≠ .FULFILLED) :=
  c10_active_only Reach_s3b3
